import Mathlib

set_option maxRecDepth 4000

/-!
Shallow embedding of the SLR-parser core (src/parser_utils.py) and the
parse driver (src/app.py, "Parsing Steps" tab).

Modelling conventions:
* Python strings are `String`; a Python `set` of strings is a duplicate-free
  `List String` in first-insertion order; a Python `dict` / `defaultdict(set)`
  keyed by strings is a duplicate-free association list in key-insertion order.
  Python's set/dict iteration order is implementation defined; insertion order
  is the deterministic choice used here.
* `defaultdict` reads create the key with an empty set when absent; this key
  creation is modelled explicitly (`dGet`), because `dict(...)` of the result
  is later indexed with plain (KeyError-raising) lookups.
* Python `while` fixpoint loops are modelled by fuel recursion, with enough
  fuel (proved below where needed) that the loop always exits because its
  `changed` flag went false, exactly like the source.
* Exceptions (KeyError, IndexError, ValueError) are modelled by `Option`
  results (`none` = the Python code raises).
-/

/-- ASCII whitespace, for Python `str.strip` / `str.split()`. -/
def isWS (c : Char) : Bool := c = ' ' || c = '\t' || c = '\n' || c = '\r'

/-- Python `str.strip()` (ASCII whitespace).  Implemented on the character
list with structural recursion so that concrete runs reduce in the kernel. -/
def pyStrip (s : String) : String :=
  String.mk (((s.data.dropWhile isWS).reverse.dropWhile isWS).reverse)

/-- Is `sep` a prefix of `l`? -/
def listIsPre : List Char → List Char → Bool
  | [], _ => true
  | _ :: _, [] => false
  | a :: as, b :: bs => a = b && listIsPre as bs

/-- Core of Python `str.split(sep)` for a nonempty separator: left-to-right,
non-overlapping, keeping empty pieces.  Fuelled (each step consumes at least
one character, so fuel `length + 1` suffices). -/
def splitCore (sep : List Char) : Nat → List Char → List Char → List (List Char)
  | 0, rest, cur => [cur.reverse ++ rest]
  | n+1, rest, cur =>
    match rest with
    | [] => [cur.reverse]
    | c :: cs =>
      if listIsPre sep (c :: cs) then
        cur.reverse :: splitCore sep n (List.drop sep.length (c :: cs)) []
      else splitCore sep n cs (c :: cur)

/-- Python `str.split(sep)` for a nonempty separator. -/
def pySplit (s sep : String) : List String :=
  (splitCore sep.data (s.data.length + 1) s.data []).map (fun l => String.mk l)

/-- Core of Python `str.split()` (no separator): split on whitespace runs,
dropping empty pieces. -/
def wsSplitCore : List Char → List Char → List (List Char)
  | [], cur => if cur = [] then [] else [cur.reverse]
  | c :: cs, cur =>
    if isWS c then (if cur = [] then wsSplitCore cs [] else cur.reverse :: wsSplitCore cs [])
    else wsSplitCore cs (c :: cur)

/-- Python `str.split()` (no separator). -/
def pySplitWS (s : String) : List String := (wsSplitCore s.data []).map (fun l => String.mk l)

/-- Code-point comparison of characters, as in Python string ordering. -/
def charLtB (a b : Char) : Bool := a.toNat < b.toNat

/-- Lexicographic code-point comparison of strings (Python `<` on `str`),
structurally recursive on the character lists. -/
def listLtChar : List Char → List Char → Bool
  | [], [] => false
  | [], _ :: _ => true
  | _ :: _, [] => false
  | a :: as, b :: bs =>
    if charLtB a b then true else if charLtB b a then false else listLtChar as bs

/-- Python `<` on strings. -/
def strLt (a b : String) : Bool := listLtChar a.data b.data

/-- ASCII digit test. -/
def isDigitB (c : Char) : Bool := 48 ≤ c.toNat && c.toNat ≤ 57

/-- Accumulate a decimal value; `none` on a non-digit (Python `int` raising
ValueError). -/
def digitsVal : List Char → Nat → Option Nat
  | [], n => some n
  | c :: cs, n => if isDigitB c then digitsVal cs (n * 10 + (c.toNat - 48)) else none

/-- Python `int(s)` for the strings this program feeds it (plain decimal
digits); anything else raises ValueError, modelled as `none`. -/
def pyToNat? (s : String) : Option Nat :=
  match s.data with
  | [] => none
  | l => digitsVal l 0

/-- Python `s.startswith(pre)`. -/
def pyStartsWith (s pre : String) : Bool := listIsPre pre.data s.data

/-- Python `str.isupper`, restricted to ASCII casing: true iff the string has
at least one cased character and every cased character is uppercase. -/
def pyCased (c : Char) : Bool := c.isLower || c.isUpper

/-- Python `str.isupper` (ASCII casing). -/
def pyIsUpper (s : String) : Bool :=
  s.data.any pyCased && s.data.all (fun c => !pyCased c || c.isUpper)

/-- A Python `set` of strings: duplicate-free list in insertion order. -/
abbrev StrSet := List String

/-- `set.add`. -/
def sInsert (s : StrSet) (x : String) : StrSet := if x ∈ s then s else s ++ [x]

/-- `set.update`. -/
def sUnion (s : StrSet) (xs : List String) : StrSet := xs.foldl sInsert s

/-- A Python `dict` (or `defaultdict(set)`) from strings to sets of strings. -/
abbrev StrDict := List (String × StrSet)

/-- Plain dict lookup (`d[k]` where a missing key would raise KeyError). -/
def dFind? (d : StrDict) (k : String) : Option StrSet :=
  (d.find? (fun p => p.1 = k)).map (fun p => p.2)

/-- `defaultdict(set)` read: returns the value and the dict, creating the key
with an empty set when absent (as Python does on any read). -/
def dGet (d : StrDict) (k : String) : StrSet × StrDict :=
  match dFind? d k with
  | some v => (v, d)
  | none => ([], d ++ [(k, [])])

/-- `d[k].update(xs)` on a `defaultdict(set)`: union `xs` into the value at
`k`, creating the key when absent. -/
def dUpd (d : StrDict) (k : String) (xs : List String) : StrDict :=
  match d with
  | [] => [(k, sUnion [] xs)]
  | (k', v) :: rest => if k' = k then (k', sUnion v xs) :: rest else (k', v) :: dUpd rest k xs

/-- Value at `k`, defaulting to the empty set. -/
def dLook (d : StrDict) (k : String) : StrSet := (dFind? d k).getD []

/-- Keys of a dict. -/
def dKeys (d : StrDict) : List String := d.map (fun p => p.1)

/-- A production `(LHS, RHS_list)` as in `parser_utils.Production`. -/
abbrev Production := String × List String

/-- A grammar: ordered list of productions, as in `parser_utils.Grammar`. -/
abbrev Grammar := List Production

/-- `parse_grammar` (parser_utils.py lines 10-24).  A line with more than one
`->` makes Python's two-variable unpacking raise ValueError, modelled as
`none`; a line without `->` is skipped. -/
def parse_grammar (grammar_text : String) : Option Grammar :=
  (pySplit (pyStrip grammar_text) "\n").foldlM (fun grammar line =>
    match pySplit line "->" with
    | [_] => some grammar
    | [lhs, rhs] =>
      let lhs := pyStrip lhs
      let rhs_alts := pySplit (pyStrip rhs) "|"
      some (grammar ++ rhs_alts.map (fun alt => (lhs, pySplitWS (pyStrip alt))))
    | _ => none) []

/-- Append `rhs` to the group of `lhs`, or start a new group: one step of
building Python's `productions = defaultdict(list)`. -/
def addGroup (ps : List (String × List (List String))) (lhs : String) (rhs : List String) :
    List (String × List (List String)) :=
  match ps with
  | [] => [(lhs, [rhs])]
  | (l, rs) :: rest =>
    if l = lhs then (l, rs ++ [rhs]) :: rest else (l, rs) :: addGroup rest lhs rhs

/-- Python's `productions` dict: productions grouped by lhs, groups in order of
first appearance of the lhs, each group's rhs list in grammar order. -/
def groupByLhs (g : Grammar) : List (String × List (List String)) :=
  g.foldl (fun ps p => addGroup ps p.1 p.2) []

/-- The sequence of `(lhs, rhs)` pairs visited by
`for lhs, rhss in productions.items(): for rhs in rhss`. -/
def prodOrder (g : Grammar) : List Production :=
  ((groupByLhs g).map (fun p => p.2.map (fun r => (p.1, r)))).flatten

/-- The `non_terminals` / `terminals` collection pass of `compute_first_sets`
(parser_utils.py lines 34-43): the lhs joins `non_terminals` before its rhs is
scanned, and a rhs symbol joins `terminals` iff at that moment it is not yet a
known nonterminal and `isupper()` is false. -/
def collectStep (st : StrSet × StrSet) (p : Production) : StrSet × StrSet :=
  let nts := sInsert st.1 p.1
  (nts, p.2.foldl (fun ts sym =>
    if sym ∉ nts ∧ pyIsUpper sym = false then sInsert ts sym else ts) st.2)

/-- `compute_first_sets` symbol collection (lines 34-43), one production at a
time via `collectStep`. -/
def collectFirstSyms (g : Grammar) : StrSet × StrSet := g.foldl collectStep ([], [])

/-- `first_of` (lines 45-48): terminals get their singleton on demand, other
symbols are read from the `first` defaultdict (creating their key). -/
def first_of (terminals : StrSet) (first : StrDict) (symbol : String) : StrSet × StrDict :=
  if symbol ∈ terminals then ([symbol], first) else dGet first symbol

/-- The rhs walk of one production (lines 56-65).  The source calls
`first_of(symbol)` twice per symbol (lines 61-62); the second call returns the
same set as the first (the update in between only touches `first[lhs]` and
cannot change `first[lhs]` via ε-free self-union), so one call is reused. -/
def firstWalk (terminals : StrSet) (lhs : String) : List String → StrDict → StrDict
  | [], first => dUpd first lhs ["ε"]
  | symbol :: rest, first =>
    let fo := first_of terminals first symbol
    let first := dUpd fo.2 lhs (fo.1.filter (fun x => x ≠ "ε"))
    if "ε" ∈ fo.1 then firstWalk terminals lhs rest first else first

/-- Processing of one production inside a pass of the `while changed` loop of
`compute_first_sets` (lines 53-67), including the growth check. -/
def firstProd (terminals : StrSet) (st : StrDict × Bool) (p : Production) : StrDict × Bool :=
  let g1 := dGet st.1 p.1
  let before := g1.1.length
  let first := firstWalk terminals p.1 p.2 g1.2
  (first, st.2 || decide ((dLook first p.1).length > before))

/-- One full pass of the `while changed` loop of `compute_first_sets`. -/
def firstPass (terminals : StrSet) (prods : List Production) (first : StrDict) : StrDict × Bool :=
  prods.foldl (firstProd terminals) (first, false)

/-- The `while changed` loop of `compute_first_sets`, fuelled. -/
def firstLoop (terminals : StrSet) (prods : List Production) : Nat → StrDict → StrDict
  | 0, first => first
  | n+1, first =>
    let pr := firstPass terminals prods first
    if pr.2 then firstLoop terminals prods n pr.1 else pr.1

/-- Total number of symbol occurrences (lhs and rhs) in the grammar. -/
def symCount (g : Grammar) : Nat := g.foldl (fun n p => n + 1 + p.2.length) 0

/-- Fuel that provably suffices for the FIRST fixpoint loop. -/
def firstFuel (g : Grammar) : Nat := (symCount g + 2) * (symCount g + 2) + 2

/-- `compute_first_sets` (parser_utils.py lines 27-68). -/
def compute_first_sets (g : Grammar) : StrDict :=
  firstLoop (collectFirstSyms g).2 (prodOrder g) (firstFuel g) []


/-- The FIRST set and ε-flag of `next_symbol` as used in the FOLLOW trailer
computation (parser_utils.py lines 96-101): a symbol with an entry in the
`first_sets` dict contributes that entry minus ε, any other symbol contributes
itself with no ε. -/
def followTrailer (first_sets : StrDict) (next_symbol : String) : StrSet × Bool :=
  match dFind? first_sets next_symbol with
  | some f => (f.filter (fun x => x ≠ "ε"), decide ("ε" ∈ f))
  | none => ([next_symbol], false)

/-- The `for next_symbol in rhs[i+1:] ... else ...` walk for one nonterminal
occurrence `symbol` of a production with left side `lhs`
(parser_utils.py lines 93-110).  Returns the updated `follow` dict and the
final `len(follow[symbol]) > before` check (line 111); `before` is rebound on
every iteration, so only growth caused by the last executed update is
reported, exactly as in the source. -/
def occWalk (first_sets : StrDict) (lhs symbol : String) :
    List String → StrDict → StrDict × Bool
  | [], follow =>
    let g1 := dGet follow symbol
    let before := g1.1.length
    let g2 := dGet g1.2 lhs
    let follow := dUpd g2.2 symbol g2.1
    (follow, decide ((dLook follow symbol).length > before))
  | next :: rest, follow =>
    let tr := followTrailer first_sets next
    let g1 := dGet follow symbol
    let before := g1.1.length
    let follow := dUpd g1.2 symbol tr.1
    if tr.2 then occWalk first_sets lhs symbol rest follow
    else (follow, decide ((dLook follow symbol).length > before))

/-- The `for i, symbol in enumerate(rhs)` loop of one production inside a pass
of `compute_follow_sets` (lines 91-112). -/
def followRhs (first_sets : StrDict) (nts : StrSet) (lhs : String) :
    List String → StrDict × Bool → StrDict × Bool
  | [], st => st
  | symbol :: rest, st =>
    if symbol ∈ nts then
      let r := occWalk first_sets lhs symbol rest st.1
      followRhs first_sets nts lhs rest (r.1, st.2 || r.2)
    else followRhs first_sets nts lhs rest st

/-- One full pass of the `while changed` loop of `compute_follow_sets`. -/
def followPass (first_sets : StrDict) (nts : StrSet) (prods : List Production)
    (follow : StrDict) : StrDict × Bool :=
  prods.foldl (fun st p => followRhs first_sets nts p.1 p.2 st) (follow, false)

/-- The `while changed` loop of `compute_follow_sets`, fuelled. -/
def followLoop (first_sets : StrDict) (nts : StrSet) (prods : List Production) :
    Nat → StrDict → StrDict
  | 0, follow => follow
  | n+1, follow =>
    let pr := followPass first_sets nts prods follow
    if pr.2 then followLoop first_sets nts prods n pr.1 else pr.1

/-- Fuel that provably suffices for the FOLLOW fixpoint loop. -/
def followFuel (g : Grammar) (first_sets : StrDict) : Nat :=
  (g.length + 2) * (first_sets.foldl (fun n p => n + p.2.length) 0 + symCount g + 3) + 2

/-- `compute_follow_sets` (parser_utils.py lines 71-113). -/
def compute_follow_sets (g : Grammar) (first_sets : StrDict) (start_symbol : String) :
    StrDict :=
  let nts := g.foldl (fun nts p => sInsert nts p.1) []
  let follow := dUpd [] start_symbol ["$"]
  followLoop first_sets nts (prodOrder g) (followFuel g first_sets) follow

/-- An LR(0) item `(lhs, rhs, dot position)` as in parser_utils.py. -/
abbrev Item := String × List String × Nat

/-- Collect one candidate dot-0 item during a closure round
(`if item not in closure_set and item not in new_items: new_items.add(item)`,
lines 134-136). -/
def closCand (cur : List Item) (symbol : String) (new : List Item) (prhs : List String) :
    List Item :=
  if (symbol, prhs, 0) ∈ cur ∨ (symbol, prhs, 0) ∈ new then new
  else new ++ [(symbol, prhs, 0)]

/-- Processing of one item during a closure round (lines 129-136). -/
def closStep (prods : List (String × List (List String))) (cur : List Item)
    (new : List Item) (item : Item) : List Item :=
  if item.2.2 < item.2.1.length then
    let symbol := item.2.1.getD item.2.2 ""
    match prods.find? (fun p => p.1 = symbol) with
    | some pr => pr.2.foldl (closCand cur symbol) new
    | none => new
  else new

/-- One round of the closure loop (parser_utils.py lines 128-136): collect the
items `(symbol, prod_rhs, 0)` demanded by members of `cur` that are not yet in
`cur` nor already collected. -/
def closRound (prods : List (String × List (List String))) (cur : List Item) : List Item :=
  cur.foldl (closStep prods cur) []

/-- The `while added` loop of `closure`, fuelled; every productive round adds
at least one of the at most `|grammar|` candidate dot-0 items, so fuel
`|grammar| + 1` suffices to exit via an empty round like the source. -/
def closLoop (prods : List (String × List (List String))) : Nat → List Item → List Item
  | 0, cur => cur
  | n+1, cur =>
    let new := closRound prods cur
    if new = [] then cur else closLoop prods n (cur ++ new)

/-- `set(items)`: deduplicate, keeping first occurrences. -/
def dedupItems (l : List Item) : List Item :=
  l.foldl (fun acc x => if x ∈ acc then acc else acc ++ [x]) []

/-- `closure` (parser_utils.py lines 116-140); named `closureItems` because
`closure` is taken by Mathlib. -/
def closureItems (items : List Item) (g : Grammar) : List Item :=
  closLoop (groupByLhs g) (g.length + 1) (dedupItems items)

/-- `goto` (parser_utils.py lines 142-151). -/
def goto (items : List Item) (symbol : String) (g : Grammar) : List Item :=
  let moved := items.foldl (fun acc item =>
    if item.2.2 < item.2.1.length ∧ item.2.1.getD item.2.2 "" = symbol then
      let it : Item := (item.1, item.2.1, item.2.2 + 1)
      if it ∈ acc then acc else acc ++ [it]
    else acc) []
  if moved = [] then [] else closureItems moved g

/-- Ascending insertion for `sorted(...)` over strings. -/
def insertSorted (x : String) : List String → List String
  | [] => [x]
  | y :: ys => if strLt y x then y :: insertSorted x ys else x :: y :: ys

/-- `symbols = sorted({all rhs symbols and lhs})`
(parser_utils.py lines 162-166). -/
def sortedSymbols (g : Grammar) : List String :=
  (g.foldl (fun s p => sInsert (p.2.foldl sInsert s) p.1) []).foldr insertSorted []

/-- Lookup in a `(state, symbol) -> state` transition table. -/
def gtFind? (t : List ((Nat × String) × Nat)) (k : Nat × String) : Option Nat :=
  (t.find? (fun p => p.1 = k)).map (fun p => p.2)

/-- State index of an item set, by set equality (Python keys the
`item_set_indices` dict by `frozenset`). -/
def findStateIdx (sets : List (List Item)) (s : List Item) : Option Nat :=
  sets.findIdx? (fun t => t.all (fun x => decide (x ∈ s)) && s.all (fun x => decide (x ∈ t)))

/-- The worklist loop of `construct_lr0_item_sets`
(parser_utils.py lines 175-187), fuelled; `none` means the fuel ran out
before the queue emptied. -/
def lr0Loop (g : Grammar) (symbols : List String) :
    Nat → List (List Item) → List ((Nat × String) × Nat) → List (List Item) →
    Option (List (List Item) × List ((Nat × String) × Nat))
  | 0, _, _, _ => none
  | _+1, item_sets, goto_table, [] => some (item_sets, goto_table)
  | n+1, item_sets, goto_table, I :: queue =>
    match findStateIdx item_sets I with
    | none => none
    | some iIdx =>
      let st := symbols.foldl (fun (st : _ × _ × _) symbol =>
        let gI := goto I symbol g
        if gI = [] then st
        else match findStateIdx st.1 gI with
          | some j => (st.1, st.2.1 ++ [((iIdx, symbol), j)], st.2.2)
          | none => (st.1 ++ [gI], st.2.1 ++ [((iIdx, symbol), st.1.length)], st.2.2 ++ [gI]))
        (item_sets, goto_table, queue)
      lr0Loop g symbols n st.1 st.2.1 st.2.2

/-- `construct_lr0_item_sets` (parser_utils.py lines 153-189), with an
explicit fuel for the worklist loop; `[]` for the grammar models the
IndexError Python raises on `grammar[0]`. -/
def construct_lr0_item_sets (g : Grammar) (fuel : Nat) :
    Option (List (List Item) × List ((Nat × String) × Nat)) :=
  match g with
  | [] => none
  | p0 :: _ =>
    let initial := closureItems [(p0.1, p0.2, 0)] g
    lr0Loop g (sortedSymbols g) fuel [initial] [] [initial]

/-- ACTION table: `(state, symbol) -> action string`. -/
abbrev ActionTbl := List ((Nat × String) × String)

/-- Lookup in the ACTION table. -/
def atFind? (t : ActionTbl) (k : Nat × String) : Option String :=
  (t.find? (fun p => p.1 = k)).map (fun p => p.2)

/-- Python dict assignment `t[k] = v`: replace in place or append. -/
def atUpd (t : ActionTbl) (k : Nat × String) (v : String) : ActionTbl :=
  match t with
  | [] => [(k, v)]
  | (k', v') :: rest => if k' = k then (k', v) :: rest else (k', v') :: atUpd rest k v

/-- Python dict assignment for transition tables. -/
def gtUpd (t : List ((Nat × String) × Nat)) (k : Nat × String) (v : Nat) :
    List ((Nat × String) × Nat) :=
  match t with
  | [] => [(k, v)]
  | (k', v') :: rest => if k' = k then (k', v) :: rest else (k', v') :: gtUpd rest k v

/-- The reduce write of `build_slr_parsing_table` (lines 234-239): an occupied
cell is extended with `'/reduce n'`, an empty cell gets `'reduce n'`. -/
def addReduce (action : ActionTbl) (k : Nat × String) (prod_num : Nat) : ActionTbl :=
  match atFind? action k with
  | some v => atUpd action k (v ++ "/reduce " ++ toString prod_num)
  | none => atUpd action k ("reduce " ++ toString prod_num)

/-- The shift write of `build_slr_parsing_table` (line 227): the cell is
assigned `'shift j'` unconditionally. -/
def writeShift (action : ActionTbl) (k : Nat × String) (j : Nat) : ActionTbl :=
  atUpd action k ("shift " ++ toString j)

/-- `prod_map` (lines 199-203): production -> index, later duplicates
overwriting earlier ones like Python dict assignment. -/
def prodMapOf (g : Grammar) : List ((String × List String) × Nat) :=
  (g.enum).foldl (fun m p => m.filter (fun q => q.1 ≠ p.2) ++ [(p.2, p.1)]) []

/-- Lookup in `prod_map`. -/
def pmFind? (m : List ((String × List String) × Nat)) (k : String × List String) :
    Option Nat :=
  (m.find? (fun p => p.1 = k)).map (fun p => p.2)

/-- One production of the symbol collection of `build_slr_parsing_table`. -/
def buildStep (st : StrSet × StrSet) (p : Production) : StrSet × StrSet :=
  let nts := sInsert st.1 p.1
  (nts, p.2.foldl (fun ts sym =>
    let ts := if sym ∉ nts ∧ pyIsUpper sym = false then sInsert ts sym else ts
    if sym = "id" ∨ sym = "*" then sInsert ts sym else ts) st.2)

/-- The terminal/nonterminal collection of `build_slr_parsing_table`
(lines 205-214): the `isupper` rule of `compute_first_sets` plus the
hard-coded special cases for `id` and `*`, and `$` added at the end. -/
def buildSyms (g : Grammar) : StrSet × StrSet :=
  let st := g.foldl buildStep ([], [])
  (st.1, sInsert st.2 "$")

/-- Processing of a single item of state `i` in `build_slr_parsing_table`
(lines 220-239); `none` models the KeyErrors of `prod_map[(lhs, rhs)]` and
`follow_sets[lhs]`. -/
def slrItem (prodMap : List ((String × List String) × Nat)) (terminals : StrSet)
    (goto_table : List ((Nat × String) × Nat)) (follow_sets : StrDict) (i : Nat)
    (action : ActionTbl) (item : Item) : Option ActionTbl :=
  let lhs := item.1
  let rhs := item.2.1
  let dot := item.2.2
  if dot < rhs.length then
    let a := rhs.getD dot ""
    if a ∈ terminals then
      match gtFind? goto_table (i, a) with
      | some j => some (writeShift action (i, a) j)
      | none => some action
    else some action
  else
    if lhs = "S'" then some (atUpd action (i, "$") "accept")
    else
      match pmFind? prodMap (lhs, rhs) with
      | none => none
      | some prod_num =>
        match dFind? follow_sets lhs with
        | none => none
        | some fset => some (fset.foldl (fun action a => addReduce action (i, a) prod_num) action)

/-- `build_slr_parsing_table` (parser_utils.py lines 191-248).  The final
`none` branch models the KeyError raised by the unconditional
`print("FOLLOW(L):", follow_sets['L'])` on line 247 when the dict has no
key `'L'`; only after that print does the function return its tables. -/
def build_slr_parsing_table (g : Grammar) (item_sets : List (List Item))
    (goto_table : List ((Nat × String) × Nat)) (follow_sets : StrDict) :
    Option (ActionTbl × List ((Nat × String) × Nat)) := do
  let prodMap := prodMapOf g
  let syms := buildSyms g
  let tbls ← (item_sets.enum).foldlM (fun (tbls : ActionTbl × List ((Nat × String) × Nat)) pr => do
    let action ← pr.2.foldlM (fun a it =>
      slrItem prodMap syms.2 goto_table follow_sets pr.1 a it) tbls.1
    let gout := syms.1.foldl (fun gout A =>
      match gtFind? goto_table (pr.1, A) with
      | some j => gtUpd gout (pr.1, A) j
      | none => gout) tbls.2
    pure (action, gout)) (([], []) : ActionTbl × List ((Nat × String) × Nat))
  match dFind? follow_sets "L" with
  | none => none
  | some _ => some tbls

/-- A stack entry of the parse driver: Python keeps ints (states) and strings
(symbols) in the same list. -/
inductive StackE where
  | st : Nat → StackE
  | sym : String → StackE
deriving DecidableEq

/-- One record of the `steps` trace (app.py lines 162-167), with the stack and
input kept structured rather than joined into display strings. -/
structure PStep where
  stack : List StackE
  input : List String
  action : String
  conflict : String
deriving DecidableEq

/-- Python `pat in s` substring test (for nonempty `pat`). -/
def strContains (s pat : String) : Bool := 2 ≤ (pySplit s pat).length

/-- Update the last trace record. -/
def mapLast (f : PStep → PStep) : List PStep → List PStep
  | [] => []
  | [x] => [f x]
  | x :: xs => x :: mapLast f xs

/-- The outcome of one iteration of the parse loop of app.py after the step
record has been appended: stop (with crash flag -- `true` models an uncaught
Python exception), stop while appending a marker to the last recorded action,
stop clearing the last conflict flag (accept), or continue with a new stack
(the Bool tells whether the input pointer advances). -/
inductive StepRes where
  | stop : Bool → StepRes
  | stopMark : String → StepRes
  | stopClear : StepRes
  | next : List StackE → Bool → StepRes
deriving DecidableEq

/-- The non-conflict branches of one iteration of the parse loop
(app.py lines 170-193): shift (lines 170-174), reduce (lines 175-187),
accept (lines 188-190), error (lines 191-193).  Crashes: `int(...)` on a
malformed action, `grammar[prod_num]` out of range, popping or peeking an
empty stack. -/
def parseChoose (goto_table_out : List ((Nat × String) × Nat)) (grammar : Grammar)
    (stack : List StackE) (symbol action : String) : StepRes :=
  if pyStartsWith action "shift" then
    match pyToNat? ((pySplitWS action).getD 1 "") with
    | none => .stop true
    | some next_state => .next (stack ++ [.sym symbol, .st next_state]) true
  else if pyStartsWith action "reduce" then
    match pyToNat? ((pySplitWS action).getD 1 "") with
    | none => .stop true
    | some prod_num =>
      match grammar.get? prod_num with
      | none => .stop true
      | some p =>
        let popCount := if p.2 = ["ε"] then 0 else 2 * p.2.length
        if stack.length < popCount + 1 then .stop true
        else
          let stack := stack.take (stack.length - popCount)
          match stack.getLast? with
          | none => .stop true
          | some st' =>
            let stack := stack ++ [.sym p.1]
            match (match st' with | .st m => gtFind? goto_table_out (m, p.1) | .sym _ => none) with
            | none => .stopMark " (Goto error)"
            | some j => .next (stack ++ [.st j]) false
  else if action = "accept" then .stopClear
  else .stopMark " (Error)"

/-- The parse loop of app.py (lines 156-193).  Fuel is `max_steps` minus the
number of recorded steps, so the guard `len(steps) < max_steps` is `fuel > 0`.
Each iteration looks up the action (a string state on top of the stack can
never match an `(int, str)` key, so it yields the `.get` default `''` exactly
like Python), records one step whose Conflict field is `'Yes'` iff both
`'shift'` and `'reduce'` occur in the action, stops on a conflict, and
otherwise continues via `parseChoose`. -/
def parseLoop (action_table : ActionTbl) (goto_table_out : List ((Nat × String) × Nat))
    (grammar : Grammar) (input_tokens : List String) :
    Nat → List StackE → Nat → List PStep → List PStep × Bool
  | 0, _, _, steps => (steps, false)
  | fuel+1, stack, pointer, steps =>
    if pointer < input_tokens.length then
      match stack.getLast? with
      | none => (steps, true)
      | some top =>
        let symbol := input_tokens.getD pointer ""
        let action := match top with
          | .st n => (atFind? action_table (n, symbol)).getD ""
          | .sym _ => ""
        if strContains action "shift" && strContains action "reduce" then
          (steps ++ [⟨stack, input_tokens.drop pointer, action, "Yes"⟩], false)
        else
          let steps := steps ++ [⟨stack, input_tokens.drop pointer, action, ""⟩]
          match parseChoose goto_table_out grammar stack symbol action with
          | .stop crashed => (steps, crashed)
          | .stopMark m => (mapLast (fun s => { s with action := s.action ++ m }) steps, false)
          | .stopClear => (mapLast (fun s => { s with conflict := "" }) steps, false)
          | .next stack' adv =>
            parseLoop action_table goto_table_out grammar input_tokens fuel
              stack' (if adv then pointer + 1 else pointer) steps
    else (steps, false)

/-- The parse driver of app.py (lines 151-193): stack starts as `[0]`,
`max_steps = 50`. -/
def runParse (action_table : ActionTbl) (goto_table_out : List ((Nat × String) × Nat))
    (grammar : Grammar) (input_tokens : List String) : List PStep × Bool :=
  parseLoop action_table goto_table_out grammar input_tokens 50 [.st 0] 0 []

/-! ### The fixed pipeline of app.py (lines 6-7, 30-48, 151-193) -/

/-- The hardcoded grammar text of app.py line 6. -/
def appGrammarText : String := "S' -> S\nS -> L = R\nS -> R\nL -> * R\nL -> id\nR -> L"

/-- `grammar = parse_grammar(grammar_text)` (app.py line 30). -/
def appGrammar : Grammar := (parse_grammar appGrammarText).getD []

/-- `first_sets = compute_first_sets(grammar)` (app.py line 31). -/
def appFirstSets : StrDict := compute_first_sets appGrammar

/-- `follow_sets = compute_follow_sets(grammar, first_sets, "S'")` (line 32). -/
def appFollowSets : StrDict := compute_follow_sets appGrammar appFirstSets "S'"

/-- `item_sets, goto_table = construct_lr0_item_sets(grammar)` (line 35); fuel
64 is ample (the loop finishes with 10 states). -/
def appAutomaton : Option (List (List Item) × List ((Nat × String) × Nat)) :=
  construct_lr0_item_sets appGrammar 64

/-- The item sets of the fixed grammar. -/
def appItemSets : List (List Item) := (appAutomaton.map Prod.fst).getD []

/-- The LR(0) transition table of the fixed grammar. -/
def appGotoTbl : List ((Nat × String) × Nat) := (appAutomaton.map Prod.snd).getD []

/-- `build_slr_parsing_table(...)` (app.py line 48). -/
def appTables : Option (ActionTbl × List ((Nat × String) × Nat)) :=
  build_slr_parsing_table appGrammar appItemSets appGotoTbl appFollowSets

/-- The ACTION table of the fixed grammar. -/
def appAction : ActionTbl := (appTables.map Prod.fst).getD []

/-- The nonterminal GOTO table of the fixed grammar. -/
def appGotoOut : List ((Nat × String) × Nat) := (appTables.map Prod.snd).getD []

/-- `input_tokens` (app.py line 151). -/
def appTokens : List String := ["id", "=", "id", "*", "id", "$"]

/-- The recorded parsing steps of the fixed run (app.py lines 152-193). -/
def appTrace : List PStep × Bool := runParse appAction appGotoOut appGrammar appTokens

/-- C1, counterexample.  The claim says the fixed pipeline run accepts
`id = id * id $` with no Conflict cell and no conflict-flagged step.  In fact
the automaton state reached after reducing the first `id` to `L` holds both
`S -> L . = R` and `R -> L .` with `=` in FOLLOW(R), the ACTION cell (2, `=`)
is the combined conflict entry `shift 8/reduce 5`, and the driver stops on it
at its third step with the conflict flag set, never reaching `accept`. -/
theorem c1_counterexample :
    (∀ s ∈ appTrace.1, s.action ≠ "accept") ∧
    atFind? appAction (2, "=") = some "shift 8/reduce 5" ∧
    strContains "shift 8/reduce 5" "shift" = true ∧
    strContains "shift 8/reduce 5" "reduce" = true ∧
    (appTrace.1.getLast?).map PStep.conflict = some "Yes" := by decide

/-- C1, amended.  The table build succeeds and produces exactly one conflict
cell, `(2, "=") -> "shift 8/reduce 5"`; the driver records exactly three steps
(shift id, reduce L -> id, conflict) and stops at the conflict with the flag
set; the input is never accepted. -/
theorem c1_fixed_pipeline_conflict :
    appAutomaton.isSome = true ∧
    appTables.isSome = true ∧
    appAction.filter (fun c => strContains c.2 "shift" && strContains c.2 "reduce") =
      [((2, "="), "shift 8/reduce 5")] ∧
    appTrace.1.length = 3 ∧
    (appTrace.1.map PStep.action) = ["shift 5", "reduce 4", "shift 8/reduce 5"] ∧
    (appTrace.1.map PStep.conflict) = ["", "", "Yes"] ∧
    appTrace.2 = false := by decide

/-- C5, counterexample.  The claim says `parse_grammar` raises
`GrammarSyntaxError` on the line `"A ->"`; in fact the source defines no such
exception and the call returns a grammar. -/
theorem c5_counterexample : (parse_grammar "A ->").isSome = true := by decide

/-- C5, amended.  `parse_grammar` performs no validation (the source defines
no `GrammarSyntaxError` and raises nothing on this input): the line `"A ->"`
silently yields the single production `("A", [])` with an empty rhs. -/
theorem c5_empty_rhs_production : parse_grammar "A ->" = some [("A", [])] := by decide

/-- C6, counterexample.  The claim says `"A -> ε"` yields the production
`("A", [])`; it does not. -/
theorem c6_counterexample : parse_grammar "A -> ε" ≠ some [("A", [])] := by decide

/-- C6, amended.  An alternative consisting solely of the ε marker is kept
verbatim: `"A -> ε"` yields `("A", ["ε"])`, the one-symbol rhs holding the
literal `ε` (which the driver later special-cases at app.py line 178); only a
genuinely empty alternative yields an empty rhs. -/
theorem c6_epsilon_literal : parse_grammar "A -> ε" = some [("A", ["ε"])] := by decide

/-- C2, counterexample.  `build_slr_parsing_table` first processes the
complete item `C -> x .` (with `a` in FOLLOW(C), writing `reduce 1` into cell
`(0, a)`) and then the item `D -> x . a` whose shift branch assigns
`shift 1` to the same cell unconditionally (line 227), silently discarding
the stored reduce candidate: the finished cell is a plain shift, not a
Conflict holding both candidates. -/
theorem c2_counterexample :
    build_slr_parsing_table [("S'", ["S"]), ("C", ["x"]), ("D", ["x", "a"])]
      [[("C", ["x"], 1), ("D", ["x", "a"], 1)]] [((0, "a"), 1)] [("C", ["a"]), ("L", [])] =
      some ([((0, "a"), "shift 1")], []) ∧
    strContains "shift 1" "reduce" = false := by decide

/-- `atUpd` stores the assigned value at its key. -/
theorem atFind?_atUpd (t : ActionTbl) (k : Nat × String) (v : String) :
    atFind? (atUpd t k v) k = some v := by
  induction t with
  | nil => simp [atUpd, atFind?, List.find?]
  | cons p rest ih =>
    by_cases h : p.1 = k
    · simp [atUpd, h, atFind?, List.find?]
    · simpa [atUpd, h, atFind?, List.find?] using ih

/-- C2, amended.  Only the reduce write respects the conflict policy: a
second reduce candidate arriving at an occupied ACTION cell extends the stored
string with `/reduce n` instead of overwriting it (lines 235-239), so
shift/reduce and reduce/reduce collisions of that order are preserved; but the
shift write (line 227) and the accept write (line 231) assign their cell
unconditionally, so a shift or accept written after a stored candidate
silently discards it, and a cell can fail to be a Conflict even though two
distinct actions were derivable for it. -/
theorem c2_reduce_extends_shift_overwrites (action : ActionTbl) (k : Nat × String)
    (n j : Nat) :
    atFind? (addReduce action k n) k =
      some (match atFind? action k with
        | some v => v ++ "/reduce " ++ toString n
        | none => "reduce " ++ toString n) ∧
    atFind? (writeShift action k j) k = some ("shift " ++ toString j) := by
  constructor
  · unfold addReduce
    cases h : atFind? action k with
    | none => simp [h, atFind?_atUpd]
    | some v => simp [h, atFind?_atUpd]
  · exact atFind?_atUpd ..

/-- C10, counterexample.  The claim says a run reaching the step ceiling
fails with a fatal `DriverError`.  The source defines no such error: with a
cyclic table (an ε-production reduced forever into the same state) the loop
guard `len(steps) < max_steps` simply becomes false and the driver stops
silently after 50 identical `reduce 0` steps, flagging nothing. -/
theorem c10_counterexample :
    (runParse [((0, "a"), "reduce 0")] [((0, "A"), 0)] [("A", ["ε"])] ["a"]).1.length = 50 ∧
    (runParse [((0, "a"), "reduce 0")] [((0, "A"), 0)] [("A", ["ε"])] ["a"]).2 = false ∧
    ∀ s ∈ (runParse [((0, "a"), "reduce 0")] [((0, "A"), 0)] [("A", ["ε"])] ["a"]).1,
      s.action = "reduce 0" ∧ s.conflict = "" := by decide

/-- `mapLast` keeps the trace length. -/
theorem mapLast_length (f : PStep → PStep) (l : List PStep) :
    (mapLast f l).length = l.length := by
  induction l with
  | nil => rfl
  | cons x xs ih =>
    cases xs with
    | nil => rfl
    | cons y ys => simpa [mapLast] using ih


/-- Each iteration of the parse loop appends exactly one step and consumes
one unit of fuel, so the trace grows by at most the remaining fuel. -/
theorem parseLoop_length_le (a : ActionTbl) (gt : List ((Nat × String) × Nat))
    (g : Grammar) (toks : List String) :
    ∀ fuel stack ptr steps,
      (parseLoop a gt g toks fuel stack ptr steps).1.length ≤ steps.length + fuel := by
  intro fuel
  induction fuel with
  | zero => intro stack ptr steps; simp [parseLoop]
  | succ n ih =>
    intro stack ptr steps
    unfold parseLoop
    by_cases hp : ptr < toks.length
    · simp only [hp, if_true]
      cases stack.getLast? with
      | none => simp
      | some top =>
        simp only
        split
        · simp only [List.length_append, List.length_cons, List.length_nil]; omega
        · cases parseChoose gt g stack (toks.getD ptr "") _ with
          | stop crashed =>
            simp only [List.length_append, List.length_cons, List.length_nil]; omega
          | stopMark m =>
            simp only [mapLast_length, List.length_append, List.length_cons,
              List.length_nil]
            omega
          | stopClear =>
            simp only [mapLast_length, List.length_append, List.length_cons,
              List.length_nil]
            omega
          | next stack1 adv =>
            exact le_trans (ih _ _ _)
              (by simp only [List.length_append, List.length_cons, List.length_nil]; omega)
    · simp [hp]

/-- C10, amended.  The loop guard `len(steps) < max_steps` does bound every
run by the 50-step ceiling (each iteration appends exactly one step), so the
driver never loops forever; but reaching the ceiling is not an error: the
source defines no `DriverError`, the loop just falls out of its guard and the
truncated trace is returned silently, with no marker of any kind appended. -/
theorem c10_step_ceiling :
    (∀ (a : ActionTbl) (gt : List ((Nat × String) × Nat)) (g : Grammar)
      (toks : List String), (runParse a gt g toks).1.length ≤ 50) ∧
    ((runParse [((0, "a"), "reduce 0")] [((0, "A"), 0)] [("A", ["ε"])] ["a"]).1.filter
        (fun s => strContains s.action "Error")) = [] ∧
    (runParse [((0, "a"), "reduce 0")] [((0, "A"), 0)] [("A", ["ε"])] ["a"]).2 = false := by
  refine ⟨fun a gt g toks => ?_, by decide, by decide⟩
  simpa [runParse] using parseLoop_length_le a gt g toks 50 [.st 0] 0 []

/-- Membership in a Python-set insert. -/
theorem sInsert_mem (s : StrSet) (y x : String) : x ∈ sInsert s y ↔ x ∈ s ∨ x = y := by
  by_cases h : y ∈ s
  · simp only [sInsert, if_pos h]
    constructor
    · exact Or.inl
    · rintro (hx | rfl)
      · exact hx
      · exact h
  · simp [sInsert, h]

/-- Membership in a Python-set union. -/
theorem sUnion_mem (xs : List String) : ∀ (s : StrSet) (x : String),
    x ∈ sUnion s xs ↔ x ∈ s ∨ x ∈ xs := by
  induction xs with
  | nil => intro s x; simp [sUnion]
  | cons y ys ih =>
    intro s x
    simp only [sUnion, List.foldl_cons] at *
    rw [ih (sInsert s y) x, sInsert_mem]
    simp only [List.mem_cons]
    tauto

/-- Does `x` occur in some rhs strictly before any production whose lhs is
`x`?  This is the left-to-right scan rule actually implemented by the symbol
collection passes (a lhs enters `non_terminals` before its own rhs is
scanned). -/
def scanTerminal (x : String) : Grammar → Bool
  | [] => false
  | p :: rest => if p.1 = x then false else if x ∈ p.2 then true else scanTerminal x rest

/-- Does `x` occur in some rhs of the grammar? -/
def occursInRhs (x : String) : Grammar → Bool
  | [] => false
  | p :: rest => if x ∈ p.2 then true else occursInRhs x rest

/-- Membership in the rhs scan of `collectStep`, for a fixed nonterminal set. -/
theorem collectStep_rhs_mem (nts : StrSet) (rhs : List String) : ∀ (ts : StrSet) (x : String),
    x ∈ rhs.foldl (fun ts sym =>
        if sym ∉ nts ∧ pyIsUpper sym = false then sInsert ts sym else ts) ts ↔
      x ∈ ts ∨ (x ∈ rhs ∧ x ∉ nts ∧ pyIsUpper x = false) := by
  induction rhs with
  | nil => intro ts x; simp
  | cons sym rest ih =>
    intro ts x
    simp only [List.foldl_cons]
    rw [ih]
    by_cases hs : sym ∉ nts ∧ pyIsUpper sym = false
    · rw [if_pos hs]
      rw [sInsert_mem]
      by_cases hx : x = sym
      · subst hx; simp only [List.mem_cons]; tauto
      · simp only [List.mem_cons, hx]; tauto
    · rw [if_neg hs]
      by_cases hx : x = sym
      · subst hx; simp only [List.mem_cons]; tauto
      · simp only [List.mem_cons, hx]; tauto

/-- Membership in the terminal set accumulated by `collectStep` over a
grammar suffix. -/
theorem collectFold_mem (g : Grammar) : ∀ (nts ts : StrSet) (x : String),
    x ∈ (g.foldl collectStep (nts, ts)).2 ↔
      x ∈ ts ∨ (pyIsUpper x = false ∧ x ∉ nts ∧ scanTerminal x g = true) := by
  induction g with
  | nil => intro nts ts x; simp [scanTerminal]
  | cons p rest ih =>
    intro nts ts x
    simp only [List.foldl_cons]
    rw [show List.foldl collectStep (collectStep (nts, ts) p) rest =
          List.foldl collectStep (sInsert nts p.1,
            p.2.foldl (fun ts sym =>
              if sym ∉ sInsert nts p.1 ∧ pyIsUpper sym = false then sInsert ts sym else ts) ts)
          rest from rfl]
    rw [ih]
    rw [collectStep_rhs_mem]
    have hmem : (x ∉ sInsert nts p.1) ↔ (x ∉ nts ∧ x ≠ p.1) := by
      rw [show (x ∉ sInsert nts p.1) ↔ ¬ (x ∈ sInsert nts p.1) from Iff.rfl]
      rw [sInsert_mem]
      tauto
    by_cases hl : p.1 = x
    · simp only [scanTerminal, if_pos hl]
      have : x ∈ sInsert nts p.1 := by rw [sInsert_mem]; exact Or.inr hl.symm
      tauto
    · simp only [scanTerminal, if_neg hl]
      by_cases hin : x ∈ p.2
      · simp only [if_pos hin]
        have hne : x ≠ p.1 := fun h => hl h.symm
        tauto
      · simp only [if_neg hin]
        have hne : x ≠ p.1 := fun h => hl h.symm
        tauto

/-- C4, counterexample.  The claim says a symbol is classified terminal iff it
is not the lhs of any production.  In the grammar with the single production
`S -> A`, the symbol `A` is no production's lhs, yet the collection pass of
`compute_first_sets` classifies nothing as terminal (`'A'.isupper()` blocks
it), and consequently FIRST(S) is computed as the empty set instead of the
singleton the terminal rule would give. -/
theorem c4_counterexample :
    (∀ p ∈ ([("S", ["A"])] : Grammar), p.1 ≠ "A") ∧
    (collectFirstSyms [("S", ["A"])]).2 = [] ∧
    compute_first_sets [("S", ["A"])] = [("S", []), ("A", [])] := by decide

/-- Membership in the terminal set collected by `compute_first_sets`:
case-and-scan-order condition. -/
theorem terminal_mem_iff (g : Grammar) (x : String) :
    (x ∈ (collectFirstSyms g).2 ↔ pyIsUpper x = false ∧ scanTerminal x g = true) := by
  rw [show collectFirstSyms g = g.foldl collectStep ([], []) from rfl]
  rw [collectFold_mem]
  simp

/-- C4, amended.  The classification is not "terminal iff never a lhs": in
`compute_first_sets`, a symbol is classified terminal iff `isupper()` is
false for it and it occurs in some rhs strictly before (left-to-right) any
production having it as lhs; `build_slr_parsing_table` uses the same scan but
additionally forces `id` and `*` to be terminals whenever they occur in any
rhs, and always adds `$`. -/
theorem c4_terminal_classification (g : Grammar) (x : String) :
    (x ∈ (collectFirstSyms g).2 ↔ pyIsUpper x = false ∧ scanTerminal x g = true) :=
  terminal_mem_iff g x

/-- Membership in the rhs scan of `buildStep`, for a fixed nonterminal set. -/
theorem buildStep_rhs_mem (nts : StrSet) (rhs : List String) : ∀ (ts : StrSet) (x : String),
    x ∈ rhs.foldl (fun ts sym =>
        let ts := if sym ∉ nts ∧ pyIsUpper sym = false then sInsert ts sym else ts
        if sym = "id" ∨ sym = "*" then sInsert ts sym else ts) ts ↔
      x ∈ ts ∨ (x ∈ rhs ∧ ((x ∉ nts ∧ pyIsUpper x = false) ∨ x = "id" ∨ x = "*")) := by
  induction rhs with
  | nil => intro ts x; simp
  | cons sym rest ih =>
    intro ts x
    simp only [List.foldl_cons]
    rw [ih]
    by_cases hx : x = sym
    · subst hx
      split_ifs with h1 h2 h2
      all_goals simp only [sInsert_mem, List.mem_cons]
      all_goals tauto
    · split_ifs with h1 h2 h2
      all_goals simp only [sInsert_mem, List.mem_cons]
      all_goals tauto

set_option maxHeartbeats 3000000 in
/-- Membership in the terminal set accumulated by `buildStep` over a grammar
suffix. -/
theorem buildFold_mem (g : Grammar) : ∀ (nts ts : StrSet) (x : String),
    x ∈ (g.foldl buildStep (nts, ts)).2 ↔
      x ∈ ts ∨ (pyIsUpper x = false ∧ x ∉ nts ∧ scanTerminal x g = true) ∨
        ((x = "id" ∨ x = "*") ∧ occursInRhs x g = true) := by
  induction g with
  | nil => intro nts ts x; simp [scanTerminal, occursInRhs]
  | cons p rest ih =>
    intro nts ts x
    simp only [List.foldl_cons]
    rw [show List.foldl buildStep (buildStep (nts, ts) p) rest =
          List.foldl buildStep (sInsert nts p.1,
            p.2.foldl (fun ts sym =>
              let ts := if sym ∉ sInsert nts p.1 ∧ pyIsUpper sym = false then sInsert ts sym else ts
              if sym = "id" ∨ sym = "*" then sInsert ts sym else ts) ts)
          rest from rfl]
    rw [ih, buildStep_rhs_mem]
    have hocc : (occursInRhs x (p :: rest) = true) ↔ (x ∈ p.2 ∨ occursInRhs x rest = true) := by
      by_cases hin : x ∈ p.2 <;> simp [occursInRhs, hin]
    have hmem : (x ∉ sInsert nts p.1) ↔ (x ∉ nts ∧ x ≠ p.1) := by
      rw [show (x ∉ sInsert nts p.1) ↔ ¬ (x ∈ sInsert nts p.1) from Iff.rfl, sInsert_mem]
      tauto
    rw [hocc]
    by_cases hl : p.1 = x
    · simp only [scanTerminal, if_pos hl]
      have : x ∈ sInsert nts p.1 := by rw [sInsert_mem]; exact Or.inr hl.symm
      tauto
    · simp only [scanTerminal, if_neg hl]
      have hne : x ≠ p.1 := fun h => hl h.symm
      by_cases hin : x ∈ p.2
      · simp only [if_pos hin, hmem, hne, ne_eq, not_false_iff, and_true, true_and, hin]
        tauto
      · simp only [if_neg hin, hmem, hne, ne_eq, not_false_iff, and_true, true_and, hin,
          false_and, and_false, or_false, false_or]
        tauto

/-- C4, amended, for `build_slr_parsing_table`: its terminal set is the same
left-to-right scan rule, plus `id` and `*` whenever they occur in any rhs,
plus `$` always. -/
theorem c4_build_terminal_classification (g : Grammar) (x : String) :
    x ∈ (buildSyms g).2 ↔
      x = "$" ∨ (pyIsUpper x = false ∧ scanTerminal x g = true) ∨
        ((x = "id" ∨ x = "*") ∧ occursInRhs x g = true) := by
  rw [show (buildSyms g).2 = sInsert (g.foldl buildStep ([], [])).2 "$" from rfl]
  rw [sInsert_mem, buildFold_mem]
  simp only [List.not_mem_nil, not_false_iff, true_and, or_false, false_or]
  tauto

/-- The left-hand sides of a grammar. -/
def lhsSet (g : Grammar) : List String := g.map (fun p => p.1)

/-- A `defaultdict` read adds at most the read key. -/
theorem dKeys_dGet (d : StrDict) (k k' : String) :
    k' ∈ dKeys (dGet d k).2 → k' ∈ dKeys d ∨ k' = k := by
  unfold dGet
  cases h : dFind? d k with
  | some v => intro hk; exact Or.inl hk
  | none =>
    intro hk
    simp only [dKeys, List.map_append, List.mem_append] at hk
    rcases hk with hk | hk
    · exact Or.inl hk
    · simp only [List.map_cons, List.map_nil, List.mem_singleton] at hk
      exact Or.inr hk

/-- A dict update adds at most the written key. -/
theorem dKeys_dUpd (k : String) (xs : List String) :
    ∀ (d : StrDict) (k' : String), k' ∈ dKeys (dUpd d k xs) → k' ∈ dKeys d ∨ k' = k := by
  intro d
  induction d with
  | nil =>
    intro k' hk
    simp only [dUpd, dKeys, List.map_cons, List.map_nil, List.mem_singleton] at hk
    exact Or.inr hk
  | cons p rest ih =>
    intro k' hk
    by_cases h : p.1 = k
    · simp only [dUpd, if_pos h, dKeys, List.map_cons, List.mem_cons] at hk
      rcases hk with hk | hk
      · exact Or.inl (by simp [dKeys, hk])
      · exact Or.inl (by simp [dKeys]; exact Or.inr (by simpa [dKeys] using hk))
    · simp only [dUpd, if_neg h, dKeys, List.map_cons, List.mem_cons] at hk
      rcases hk with hk | hk
      · exact Or.inl (by simp [dKeys, hk])
      · rcases ih k' (by simpa [dKeys] using hk) with h2 | h2
        · exact Or.inl (by simp [dKeys]; exact Or.inr (by simpa [dKeys] using h2))
        · exact Or.inr h2

/-- The occurrence walk adds at most the occurrence's key and the lhs key. -/
theorem occWalk_keys (fs : StrDict) (lhs sym : String) :
    ∀ (rest : List String) (follow : StrDict) (k' : String),
      k' ∈ dKeys (occWalk fs lhs sym rest follow).1 →
        k' ∈ dKeys follow ∨ k' = sym ∨ k' = lhs := by
  intro rest
  induction rest with
  | nil =>
    intro follow k' hk
    simp only [occWalk] at hk
    rcases dKeys_dUpd _ _ _ _ hk with h1 | h1
    · rcases dKeys_dGet _ _ _ h1 with h2 | h2
      · rcases dKeys_dGet _ _ _ h2 with h3 | h3
        · exact Or.inl h3
        · exact Or.inr (Or.inl h3)
      · exact Or.inr (Or.inr h2)
    · exact Or.inr (Or.inl h1)
  | cons next rest2 ih =>
    intro follow k' hk
    simp only [occWalk] at hk
    by_cases ht : (followTrailer fs next).2 = true
    · rw [if_pos ht] at hk
      rcases ih _ _ hk with h1 | h1
      · rcases dKeys_dUpd _ _ _ _ h1 with h2 | h2
        · rcases dKeys_dGet _ _ _ h2 with h3 | h3
          · exact Or.inl h3
          · exact Or.inr (Or.inl h3)
        · exact Or.inr (Or.inl h2)
      · exact Or.inr h1
    · rw [if_neg ht] at hk
      rcases dKeys_dUpd _ _ _ _ hk with h1 | h1
      · rcases dKeys_dGet _ _ _ h1 with h2 | h2
        · exact Or.inl h2
        · exact Or.inr (Or.inl h2)
      · exact Or.inr (Or.inl h1)

/-- The rhs loop adds at most nonterminal keys and the lhs key. -/
theorem followRhs_keys (fs : StrDict) (nts : StrSet) (lhs : String) :
    ∀ (rhs : List String) (st : StrDict × Bool) (k' : String),
      k' ∈ dKeys (followRhs fs nts lhs rhs st).1 →
        k' ∈ dKeys st.1 ∨ k' = lhs ∨ k' ∈ nts := by
  intro rhs
  induction rhs with
  | nil => intro st k' hk; exact Or.inl hk
  | cons sym rest ih =>
    intro st k' hk
    simp only [followRhs] at hk
    by_cases hs : sym ∈ nts
    · rw [if_pos hs] at hk
      rcases ih _ _ hk with h1 | h1
      · rcases occWalk_keys _ _ _ _ _ _ h1 with h2 | h2 | h2
        · exact Or.inl h2
        · exact Or.inr (Or.inr (h2 ▸ hs))
        · exact Or.inr (Or.inl h2)
      · exact Or.inr h1
    · rw [if_neg hs] at hk
      exact ih _ _ hk

/-- One pass adds at most production lhs keys, keys of nonterminal
occurrences, and nothing else. -/
theorem followPass_keys (fs : StrDict) (nts : StrSet) :
    ∀ (prods : List Production) (st : StrDict × Bool) (k' : String),
      k' ∈ dKeys (prods.foldl (fun st p => followRhs fs nts p.1 p.2 st) st).1 →
        k' ∈ dKeys st.1 ∨ (∃ p ∈ prods, p.1 = k') ∨ k' ∈ nts := by
  intro prods
  induction prods with
  | nil => intro st k' hk; exact Or.inl hk
  | cons p rest ih =>
    intro st k' hk
    simp only [List.foldl_cons] at hk
    rcases ih _ _ hk with h1 | h1 | h1
    · rcases followRhs_keys _ _ _ _ _ _ h1 with h2 | h2 | h2
      · exact Or.inl h2
      · exact Or.inr (Or.inl ⟨p, List.mem_cons_self _ _, h2.symm⟩)
      · exact Or.inr (Or.inr h2)
    · obtain ⟨q, hq, hq2⟩ := h1
      exact Or.inr (Or.inl ⟨q, List.mem_cons_of_mem _ hq, hq2⟩)
    · exact Or.inr (Or.inr h1)

/-- The fuelled loop preserves the key bound. -/
theorem followLoop_keys (fs : StrDict) (nts : StrSet) (prods : List Production) :
    ∀ (fuel : Nat) (follow : StrDict) (k' : String),
      k' ∈ dKeys (followLoop fs nts prods fuel follow) →
        k' ∈ dKeys follow ∨ (∃ p ∈ prods, p.1 = k') ∨ k' ∈ nts := by
  intro fuel
  induction fuel with
  | zero => intro follow k' hk; exact Or.inl hk
  | succ n ih =>
    intro follow k' hk
    simp only [followLoop] at hk
    by_cases hc : (followPass fs nts prods follow).2 = true
    · rw [if_pos hc] at hk
      rcases ih _ _ hk with h1 | h1
      · exact followPass_keys fs nts prods (follow, false) k' h1
      · exact Or.inr h1
    · rw [if_neg hc] at hk
      exact followPass_keys fs nts prods (follow, false) k' hk

/-- Membership in the accumulated nonterminal set. -/
theorem ntsFold_mem (g : Grammar) : ∀ (acc : StrSet) (k : String),
    k ∈ g.foldl (fun nts p => sInsert nts p.1) acc ↔ k ∈ acc ∨ k ∈ lhsSet g := by
  induction g with
  | nil => intro acc k; simp [lhsSet]
  | cons p rest ih =>
    intro acc k
    simp only [List.foldl_cons]
    rw [ih, sInsert_mem]
    simp only [lhsSet, List.map_cons, List.mem_cons]
    tauto

/-- The production pairs listed by a grouped productions dict. -/
def pairsOf (ps : List (String × List (List String))) : List Production :=
  (ps.map (fun p => p.2.map (fun r => (p.1, r)))).flatten

/-- Unfolding of `pairsOf` on a cons. -/
theorem pairsOf_cons (pr : String × List (List String)) (rest : List (String × List (List String))) :
    pairsOf (pr :: rest) = pr.2.map (fun r => (pr.1, r)) ++ pairsOf rest := by
  simp [pairsOf]

/-- `addGroup` adds exactly the one production to the listed pairs. -/
theorem pairsOf_addGroup (lhs : String) (rhs : List String) :
    ∀ (ps : List (String × List (List String))) (q : Production),
      q ∈ pairsOf (addGroup ps lhs rhs) ↔ q ∈ pairsOf ps ∨ q = (lhs, rhs) := by
  intro ps
  induction ps with
  | nil => intro q; simp [addGroup, pairsOf]
  | cons pr rest ih =>
    intro q
    obtain ⟨l, rs⟩ := pr
    by_cases h : l = lhs
    · subst h
      rw [show addGroup ((l, rs) :: rest) l rhs = (l, rs ++ [rhs]) :: rest by
        simp [addGroup]]
      rw [pairsOf_cons, pairsOf_cons]
      simp only [List.map_append, List.mem_append, List.map_cons, List.map_nil,
        List.mem_singleton]
      tauto
    · rw [show addGroup ((l, rs) :: rest) lhs rhs = (l, rs) :: addGroup rest lhs rhs by
        simp [addGroup, h]]
      rw [pairsOf_cons, pairsOf_cons]
      simp only [List.mem_append]
      rw [ih]
      tauto

/-- Folding `addGroup` over productions lists exactly those productions. -/
theorem pairsOf_groupFold (g : Grammar) :
    ∀ (ps : List (String × List (List String))) (q : Production),
      q ∈ pairsOf (g.foldl (fun ps p => addGroup ps p.1 p.2) ps) ↔
        q ∈ pairsOf ps ∨ q ∈ g := by
  induction g with
  | nil => intro ps q; simp
  | cons p rest ih =>
    intro ps q
    simp only [List.foldl_cons]
    rw [ih, pairsOf_addGroup]
    simp only [List.mem_cons]
    constructor
    · rintro ((hq | hq) | hq)
      · exact Or.inl hq
      · exact Or.inr (Or.inl (by rw [hq]))
      · exact Or.inr (Or.inr hq)
    · rintro (hq | hq | hq)
      · exact Or.inl (Or.inl hq)
      · exact Or.inl (Or.inr (by rw [hq]))
      · exact Or.inr hq

/-- `prodOrder` lists exactly the grammar's productions (in dict order). -/
theorem prodOrder_mem (g : Grammar) (q : Production) : q ∈ prodOrder g ↔ q ∈ g := by
  rw [show prodOrder g = pairsOf (groupByLhs g) from rfl,
    show groupByLhs g = g.foldl (fun ps p => addGroup ps p.1 p.2) [] from rfl,
    pairsOf_groupFold]
  simp [pairsOf]

/-- Every key of the returned FOLLOW dict is the start symbol or some lhs. -/
theorem compute_follow_sets_keys (g : Grammar) (fs : StrDict) (s : String) (k : String) :
    k ∈ dKeys (compute_follow_sets g fs s) → k = s ∨ k ∈ lhsSet g := by
  intro hk
  unfold compute_follow_sets at hk
  rcases followLoop_keys _ _ _ _ _ _ hk with h1 | h1 | h1
  · rcases dKeys_dUpd _ _ _ _ h1 with h2 | h2
    · simp [dKeys] at h2
    · exact Or.inl h2
  · obtain ⟨p, hp, hp2⟩ := h1
    exact Or.inr (by
      have := (prodOrder_mem g p).mp hp
      exact hp2 ▸ List.mem_map_of_mem _ this)
  · exact Or.inr (((ntsFold_mem g [] k).mp h1).resolve_left (by simp))

/-- Lookup of an absent key. -/
theorem dFind?_eq_none (k : String) : ∀ (d : StrDict), k ∉ dKeys d → dFind? d k = none := by
  intro d
  induction d with
  | nil => intro _; rfl
  | cons p rest ih =>
    intro hk
    simp only [dKeys, List.map_cons, List.mem_cons, not_or] at hk
    have h1 : ¬ (p.1 = k) := fun h => hk.1 h.symm
    unfold dFind?
    rw [List.find?_cons_of_neg _ (by simpa using h1)]
    exact ih (by simpa [dKeys] using hk.2)

/-- Bind with an always-`none` continuation. -/
theorem opt_bind_none {α β : Type} (A : Option α) (f : α → Option β)
    (h : ∀ a, f a = none) : A.bind f = none := by
  cases A with
  | none => rfl
  | some a => exact h a

/-- C3.  For every grammar no production of which has lhs `L` (and whose
start symbol is not `L`), `build_slr_parsing_table` never returns tables,
whatever item sets and transitions it is given: the FOLLOW dict built by
`compute_follow_sets` only ever acquires keys that are the start symbol or
some production's lhs, so the unconditional `print(follow_sets['L'])` on
parser_utils.py line 247 raises KeyError before the `return`. -/
theorem c3_missing_L_keyerror (g : Grammar) (first_sets : StrDict) (start_symbol : String)
    (hstart : start_symbol ≠ "L") (hlhs : ∀ p ∈ g, p.1 ≠ "L")
    (item_sets : List (List Item)) (goto_table : List ((Nat × String) × Nat)) :
    build_slr_parsing_table g item_sets goto_table
      (compute_follow_sets g first_sets start_symbol) = none := by
  have hkey : "L" ∉ dKeys (compute_follow_sets g first_sets start_symbol) := by
    intro hk
    rcases compute_follow_sets_keys g first_sets start_symbol "L" hk with h | h
    · exact hstart h.symm
    · obtain ⟨p, hp, hp2⟩ := List.mem_map.mp h
      exact hlhs p hp hp2
  have hfind := dFind?_eq_none "L" _ hkey
  unfold build_slr_parsing_table
  refine opt_bind_none _ _ (fun tbls => ?_)
  rw [hfind]

/-- C3, witness: for the augmented grammar `S' -> S`, `S -> x` (which defines
no nonterminal `L`) the builder reaches the KeyError and returns nothing. -/
theorem c3_missing_L_keyerror_witness :
    build_slr_parsing_table [("S'", ["S"]), ("S", ["x"])] [] []
      (compute_follow_sets [("S'", ["S"]), ("S", ["x"])]
        (compute_first_sets [("S'", ["S"]), ("S", ["x"])]) "S'") = none :=
  c3_missing_L_keyerror [("S'", ["S"]), ("S", ["x"])] _ "S'" (by decide) (by decide) [] []

/-- Membership characterization of the listed pairs. -/
theorem pairsOf_mem (ps : List (String × List (List String))) (q : Production) :
    q ∈ pairsOf ps ↔ ∃ pr, pr ∈ ps ∧ ∃ r, r ∈ pr.2 ∧ q = (pr.1, r) := by
  induction ps with
  | nil => simp [pairsOf]
  | cons pr rest ih =>
    rw [pairsOf_cons]
    simp only [List.mem_append, List.mem_map, ih, List.mem_cons]
    constructor
    · rintro (⟨r, hr, rfl⟩ | ⟨pr2, hpr2, r, hr, rfl⟩)
      · exact ⟨pr, Or.inl rfl, r, hr, rfl⟩
      · exact ⟨pr2, Or.inr hpr2, r, hr, rfl⟩
    · rintro ⟨pr2, hpr2 | hpr2, r, hr, rfl⟩
      · exact Or.inl ⟨r, hpr2 ▸ hr, by rw [hpr2]⟩
      · exact Or.inr ⟨pr2, hpr2, r, hr, rfl⟩

/-- `addGroup` grows the listed pairs by exactly one. -/
theorem pairsOf_addGroup_length (lhs : String) (rhs : List String) :
    ∀ (ps : List (String × List (List String))),
      (pairsOf (addGroup ps lhs rhs)).length = (pairsOf ps).length + 1 := by
  intro ps
  induction ps with
  | nil => simp [addGroup, pairsOf]
  | cons pr rest ih =>
    obtain ⟨l, rs⟩ := pr
    by_cases h : l = lhs
    · subst h
      rw [show addGroup ((l, rs) :: rest) l rhs = (l, rs ++ [rhs]) :: rest by
        simp [addGroup]]
      rw [pairsOf_cons, pairsOf_cons]
      simp only [List.length_append, List.length_map, List.length_append,
        List.length_cons, List.length_nil]
      omega
    · rw [show addGroup ((l, rs) :: rest) lhs rhs = (l, rs) :: addGroup rest lhs rhs by
        simp [addGroup, h]]
      rw [pairsOf_cons, pairsOf_cons]
      simp only [List.length_append, List.length_map]
      omega

/-- The grouped dict lists exactly as many pairs as the grammar has
productions. -/
theorem pairsOf_groupByLhs_length (g : Grammar) :
    (pairsOf (groupByLhs g)).length = g.length := by
  suffices h : ∀ (g : Grammar) (ps : List (String × List (List String))),
      (pairsOf (g.foldl (fun ps p => addGroup ps p.1 p.2) ps)).length =
        (pairsOf ps).length + g.length by
    simpa [pairsOf, groupByLhs] using h g []
  intro g
  induction g with
  | nil => intro ps; simp
  | cons p rest ih =>
    intro ps
    simp only [List.foldl_cons]
    rw [ih, pairsOf_addGroup_length]
    simp only [List.length_cons]
    omega

/-- The dot-0 items of all productions: the universe every closure round
draws from. -/
def dotZeroList (prods : List (String × List (List String))) : List Item :=
  (pairsOf prods).map (fun q => (q.1, q.2, 0))

/-- `closCand` folds only ever append. -/
theorem closCand_fold_sub (cur : List Item) (symbol : String) :
    ∀ (rhss : List (List String)) (new : List Item) (x : Item),
      x ∈ new → x ∈ rhss.foldl (closCand cur symbol) new := by
  intro rhss
  induction rhss with
  | nil => intro new x hx; exact hx
  | cons r rest ih =>
    intro new x hx
    simp only [List.foldl_cons]
    refine ih _ x ?_
    unfold closCand
    split
    · exact hx
    · exact List.mem_append_left _ hx

/-- Everything a `closCand` fold adds is a fresh dot-0 item of the scanned
productions. -/
theorem closCand_fold_mem (cur : List Item) (symbol : String) :
    ∀ (rhss : List (List String)) (new : List Item) (x : Item),
      x ∈ rhss.foldl (closCand cur symbol) new →
        x ∈ new ∨ (x ∉ cur ∧ ∃ r ∈ rhss, x = (symbol, r, 0)) := by
  intro rhss
  induction rhss with
  | nil => intro new x hx; exact Or.inl hx
  | cons r rest ih =>
    intro new x hx
    simp only [List.foldl_cons] at hx
    rcases ih _ x hx with h1 | h1
    · unfold closCand at h1
      split at h1
      · exact Or.inl h1
      · rcases List.mem_append.mp h1 with h2 | h2
        · exact Or.inl h2
        · simp only [List.mem_singleton] at h2
          rename_i hcond
          push_neg at hcond
          exact Or.inr ⟨h2 ▸ hcond.1, r, List.mem_cons_self _ _, h2⟩
    · exact Or.inr ⟨h1.1, h1.2.choose, List.mem_cons_of_mem _ h1.2.choose_spec.1,
        h1.2.choose_spec.2⟩

/-- `closCand` folds keep the collected list duplicate-free. -/
theorem closCand_fold_nodup (cur : List Item) (symbol : String) :
    ∀ (rhss : List (List String)) (new : List Item),
      new.Nodup → (rhss.foldl (closCand cur symbol) new).Nodup := by
  intro rhss
  induction rhss with
  | nil => intro new h; exact h
  | cons r rest ih =>
    intro new h
    simp only [List.foldl_cons]
    refine ih _ ?_
    unfold closCand
    split
    · exact h
    · rename_i hcond
      push_neg at hcond
      exact List.Nodup.append h (List.nodup_singleton _)
        (by intro x hx hx2; simp only [List.mem_singleton] at hx2; exact hcond.2 (hx2 ▸ hx))

/-- `closStep` folds only ever append. -/
theorem closStep_fold_sub (prods : List (String × List (List String))) (cur : List Item) :
    ∀ (l : List Item) (acc : List Item) (x : Item),
      x ∈ acc → x ∈ l.foldl (closStep prods cur) acc := by
  intro l
  induction l with
  | nil => intro acc x hx; exact hx
  | cons it rest ih =>
    intro acc x hx
    simp only [List.foldl_cons]
    refine ih _ x ?_
    simp only [closStep]
    split
    · split
      · exact closCand_fold_sub _ _ _ _ _ hx
      · exact hx
    · exact hx

/-- Everything a closure round collects is a fresh dot-0 item. -/
theorem closStep_fold_mem (prods : List (String × List (List String))) (cur : List Item) :
    ∀ (l : List Item) (acc : List Item) (x : Item),
      x ∈ l.foldl (closStep prods cur) acc →
        x ∈ acc ∨ (x ∉ cur ∧ x ∈ dotZeroList prods) := by
  intro l
  induction l with
  | nil => intro acc x hx; exact Or.inl hx
  | cons it rest ih =>
    intro acc x hx
    simp only [List.foldl_cons] at hx
    rcases ih _ x hx with h1 | h1
    · simp only [closStep] at h1
      split at h1
      · rename_i hdot
        cases hfind : prods.find? (fun p => p.1 = it.2.1.getD it.2.2 "") with
        | none => rw [hfind] at h1; exact Or.inl h1
        | some pr =>
          rw [hfind] at h1
          rcases closCand_fold_mem _ _ _ _ _ h1 with h2 | h2
          · exact Or.inl h2
          · obtain ⟨hnotin, r, hr, rfl⟩ := h2
            have hmem : pr ∈ prods := List.mem_of_find?_eq_some hfind
            have hpr1 : pr.1 = it.2.1.getD it.2.2 "" := by
              have := List.find?_some hfind
              exact of_decide_eq_true this
            refine Or.inr ⟨hnotin, ?_⟩
            unfold dotZeroList
            refine List.mem_map.mpr ⟨(pr.1, r), ?_, by rw [hpr1]⟩
            exact (pairsOf_mem prods (pr.1, r)).mpr ⟨pr, hmem, r, hr, rfl⟩
      · exact Or.inl h1
    · exact Or.inr h1

/-- Closure rounds keep the collected list duplicate-free. -/
theorem closStep_fold_nodup (prods : List (String × List (List String))) (cur : List Item) :
    ∀ (l : List Item) (acc : List Item), acc.Nodup →
      (l.foldl (closStep prods cur) acc).Nodup := by
  intro l
  induction l with
  | nil => intro acc h; exact h
  | cons it rest ih =>
    intro acc h
    simp only [List.foldl_cons]
    refine ih _ ?_
    simp only [closStep]
    split
    · split
      · exact closCand_fold_nodup _ _ _ _ h
      · exact h
    · exact h

/-- A new item of a closure round is a dot-0 item not yet present. -/
theorem closRound_mem (prods : List (String × List (List String))) (cur : List Item)
    (x : Item) (hx : x ∈ closRound prods cur) :
    x ∉ cur ∧ x ∈ dotZeroList prods := by
  rcases closStep_fold_mem prods cur cur [] x hx with h | h
  · simp at h
  · exact h

/-- A closure round is duplicate-free. -/
theorem closRound_nodup (prods : List (String × List (List String))) (cur : List Item) :
    (closRound prods cur).Nodup :=
  closStep_fold_nodup prods cur cur [] List.nodup_nil

/-- Strictness of filtering: a stronger filter together with one witness the
weaker filter keeps gives strictly fewer survivors. -/
theorem filter_length_lt {α : Type} (l : List α) (p q : α → Bool)
    (hpq : ∀ x, p x = true → q x = true) (x₀ : α) (hx : x₀ ∈ l)
    (hq : q x₀ = true) (hp : p x₀ = false) :
    (l.filter p).length < (l.filter q).length := by
  have hsub : List.Sublist (l.filter p) (l.filter q) := List.monotone_filter_right l hpq
  rcases Nat.lt_or_ge (l.filter p).length (l.filter q).length with h | h
  · exact h
  · exfalso
    have heq : l.filter p = l.filter q :=
      hsub.eq_of_length (Nat.le_antisymm hsub.length_le h)
    have : x₀ ∈ l.filter p := heq ▸ List.mem_filter.mpr ⟨hx, hq⟩
    have := (List.mem_filter.mp this).2
    rw [hp] at this
    exact Bool.noConfusion this

/-- With fuel exceeding the number of missing dot-0 items, the closure loop
exits through an empty round, i.e. its result admits no further item. -/
theorem closLoop_exit (prods : List (String × List (List String))) :
    ∀ (fuel : Nat) (cur : List Item),
      ((dotZeroList prods).filter (fun it => !decide (it ∈ cur))).length < fuel →
      closRound prods (closLoop prods fuel cur) = [] := by
  intro fuel
  induction fuel with
  | zero => intro cur h; omega
  | succ n ih =>
    intro cur h
    simp only [closLoop]
    cases hnew : closRound prods cur with
    | nil => simp [closLoop, hnew]
    | cons it0 rest =>
      rw [if_neg (by simp [hnew])]
      refine ih _ ?_
      have hit0 := closRound_mem prods cur it0 (by rw [hnew]; exact List.mem_cons_self _ _)
      have hdec : ((dotZeroList prods).filter
          (fun it => !decide (it ∈ cur ++ it0 :: rest))).length <
          ((dotZeroList prods).filter (fun it => !decide (it ∈ cur))).length := by
        refine filter_length_lt _ _ _ ?_ it0 hit0.2 ?_ ?_
        · intro x hx
          simp only [Bool.not_eq_true', decide_eq_false_iff_not, List.mem_append] at *
          tauto
        · simp [hit0.1]
        · simp [hnew]
      omega

/-- The closure loop only ever appends. -/
theorem closLoop_sub (prods : List (String × List (List String))) :
    ∀ (fuel : Nat) (cur : List Item) (x : Item), x ∈ cur →
      x ∈ closLoop prods fuel cur := by
  intro fuel
  induction fuel with
  | zero => intro cur x hx; exact hx
  | succ n ih =>
    intro cur x hx
    simp only [closLoop]
    split
    · exact hx
    · exact ih _ x (List.mem_append_left _ hx)

/-- The closure loop keeps the item list duplicate-free. -/
theorem closLoop_nodup (prods : List (String × List (List String))) :
    ∀ (fuel : Nat) (cur : List Item), cur.Nodup → (closLoop prods fuel cur).Nodup := by
  intro fuel
  induction fuel with
  | zero => intro cur h; exact h
  | succ n ih =>
    intro cur h
    simp only [closLoop]
    split
    · exact h
    · refine ih _ (List.Nodup.append h (closRound_nodup prods cur) ?_)
      intro x hx hx2
      exact (closRound_mem prods cur x hx2).1 hx

/-- Deduplication preserves membership. -/
theorem dedupItems_mem (l : List Item) (x : Item) : x ∈ dedupItems l ↔ x ∈ l := by
  suffices h : ∀ (l acc : List Item) (x : Item),
      x ∈ l.foldl (fun acc x => if x ∈ acc then acc else acc ++ [x]) acc ↔
        x ∈ acc ∨ x ∈ l by
    simpa [dedupItems] using h l [] x
  intro l
  induction l with
  | nil => intro acc x; simp
  | cons y rest ih =>
    intro acc x
    simp only [List.foldl_cons]
    rw [ih]
    by_cases hy : y ∈ acc
    · simp only [if_pos hy, List.mem_cons]
      constructor
      · rintro (h | h)
        · exact Or.inl h
        · exact Or.inr (Or.inr h)
      · rintro (h | h | h)
        · exact Or.inl h
        · exact Or.inl (h ▸ hy)
        · exact Or.inr h
    · simp only [if_neg hy, List.mem_append, List.mem_singleton, List.mem_cons]
      tauto

/-- Deduplication yields a duplicate-free list. -/
theorem dedupItems_nodup (l : List Item) : (dedupItems l).Nodup := by
  suffices h : ∀ (l acc : List Item), acc.Nodup →
      (l.foldl (fun acc x => if x ∈ acc then acc else acc ++ [x]) acc).Nodup by
    exact h l [] List.nodup_nil
  intro l
  induction l with
  | nil => intro acc h; exact h
  | cons y rest ih =>
    intro acc h
    simp only [List.foldl_cons]
    by_cases hy : y ∈ acc
    · rw [if_pos hy]; exact ih _ h
    · rw [if_neg hy]
      refine ih _ (List.Nodup.append h (List.nodup_singleton _) ?_)
      intro x hx hx2
      simp only [List.mem_singleton] at hx2
      exact hy (hx2 ▸ hx)

/-- Deduplicating a duplicate-free list is the identity. -/
theorem dedupItems_of_nodup (l : List Item) (h : l.Nodup) : dedupItems l = l := by
  suffices hgen : ∀ (l acc : List Item), (acc ++ l).Nodup →
      l.foldl (fun acc x => if x ∈ acc then acc else acc ++ [x]) acc = acc ++ l by
    simpa [dedupItems] using hgen l [] (by simpa using h)
  intro l
  induction l with
  | nil => intro acc _; simp
  | cons y rest ih =>
    intro acc hnd
    simp only [List.foldl_cons]
    have hy : y ∉ acc := by
      have := List.disjoint_of_nodup_append hnd
      intro hmem
      exact this hmem (List.mem_cons_self _ _)
    rw [if_neg hy]
    rw [ih (acc ++ [y]) (by simpa using hnd)]
    simp

/-- C9.  `closure` is extensive and idempotent: it returns a superset of its
argument, and running it again on its own output returns that output
unchanged (the first round of the second run finds nothing to add). -/
theorem c9_closure_idempotent_extensive (g : Grammar) (S : List Item) :
    closureItems (closureItems S g) g = closureItems S g ∧
      ∀ it ∈ S, it ∈ closureItems S g := by
  constructor
  · have hnodup : (closureItems S g).Nodup :=
      closLoop_nodup _ _ _ (dedupItems_nodup S)
    have hclosed : closRound (groupByLhs g) (closureItems S g) = [] := by
      apply closLoop_exit
      calc ((dotZeroList (groupByLhs g)).filter
              (fun it => !decide (it ∈ dedupItems S))).length
          ≤ (dotZeroList (groupByLhs g)).length := List.length_filter_le _ _
        _ = (pairsOf (groupByLhs g)).length := by simp [dotZeroList]
        _ = g.length := pairsOf_groupByLhs_length g
        _ < g.length + 1 := Nat.lt_succ_self _
    show closLoop (groupByLhs g) (g.length + 1) (dedupItems (closureItems S g)) =
      closureItems S g
    rw [dedupItems_of_nodup _ hnodup]
    simp only [closLoop]
    rw [if_pos hclosed]
  · intro it hit
    exact closLoop_sub _ _ _ _ ((dedupItems_mem S it).mpr hit)

/-! Atomic lemmas about the Python set/dict embedding. -/

theorem sInsert_pre (s : StrSet) (x : String) : s <+: sInsert s x := by
  unfold sInsert
  split
  · exact List.prefix_refl s
  · exact ⟨[x], rfl⟩

theorem sUnion_pre (xs : List String) : ∀ (s : StrSet), s <+: sUnion s xs := by
  induction xs with
  | nil => intro s; exact List.prefix_refl s
  | cons y ys ih =>
    intro s
    exact (sInsert_pre s y).trans (ih (sInsert s y))

theorem sUnion_length_ge (s : StrSet) (xs : List String) :
    s.length ≤ (sUnion s xs).length :=
  (sUnion_pre xs s).length_le

theorem sUnion_eq_of_length (s : StrSet) (xs : List String)
    (h : (sUnion s xs).length = s.length) : sUnion s xs = s :=
  ((sUnion_pre xs s).eq_of_length h.symm).symm

theorem sInsert_nodup (s : StrSet) (x : String) (h : s.Nodup) : (sInsert s x).Nodup := by
  unfold sInsert
  split
  · exact h
  · rename_i hx
    exact List.Nodup.append h (List.nodup_singleton x)
      (by intro y hy hy2; simp only [List.mem_singleton] at hy2; exact hx (hy2 ▸ hy))

theorem sUnion_nodup (xs : List String) : ∀ (s : StrSet), s.Nodup → (sUnion s xs).Nodup := by
  induction xs with
  | nil => intro s h; exact h
  | cons y ys ih => intro s h; exact ih _ (sInsert_nodup s y h)

theorem dLook_dUpd_self (k : String) (xs : List String) :
    ∀ (d : StrDict), dLook (dUpd d k xs) k = sUnion (dLook d k) xs := by
  intro d
  induction d with
  | nil => simp [dUpd, dLook, dFind?, List.find?]
  | cons p rest ih =>
    by_cases h : p.1 = k
    · simp [dUpd, if_pos h, dLook, dFind?, List.find?, h]
    · simp only [dUpd, if_neg h]
      rw [show dLook ((p.1, p.2) :: dUpd rest k xs) k = dLook (dUpd rest k xs) k by
        simp [dLook, dFind?, List.find?, h]]
      rw [show dLook ((p.1, p.2) :: rest) k = dLook rest k by
        simp [dLook, dFind?, List.find?, h]]
      exact ih

theorem dLook_dUpd_other (k k' : String) (xs : List String) (hne : k' ≠ k) :
    ∀ (d : StrDict), dLook (dUpd d k xs) k' = dLook d k' := by
  intro d
  induction d with
  | nil => simp [dUpd, dLook, dFind?, List.find?, Ne.symm hne]
  | cons p rest ih =>
    by_cases h : p.1 = k
    · subst h
      have h2 : ¬ (p.1 = k') := fun h3 => hne (h3.symm)
      simp [dUpd, dLook, dFind?, List.find?, h2]
    · simp only [dUpd, if_neg h]
      by_cases h2 : p.1 = k'
      · simp [dLook, dFind?, List.find?, h2]
      · rw [show dLook ((p.1, p.2) :: dUpd rest k xs) k' = dLook (dUpd rest k xs) k' by
          simp [dLook, dFind?, List.find?, h2]]
        rw [show dLook ((p.1, p.2) :: rest) k' = dLook rest k' by
          simp [dLook, dFind?, List.find?, h2]]
        exact ih

theorem dGet_fst (d : StrDict) (k : String) : (dGet d k).1 = dLook d k := by
  unfold dGet dLook
  cases h : dFind? d k <;> simp [h]

theorem dLook_append_empty (k k' : String) :
    ∀ (d : StrDict), dLook (d ++ [(k, [])]) k' = dLook d k' := by
  intro d
  induction d with
  | nil =>
    simp only [List.nil_append, dLook, dFind?, List.find?]
    by_cases h : k = k' <;> simp [h]
  | cons p rest ih =>
    by_cases h : p.1 = k'
    · simp [dLook, dFind?, List.find?, h]
    · rw [show ((p :: rest) ++ [(k, [])]) = p :: (rest ++ [(k, [])]) by simp]
      rw [show dLook (p :: (rest ++ [(k, [])])) k' = dLook (rest ++ [(k, [])]) k' by
        simp [dLook, dFind?, List.find?, h]]
      rw [show dLook (p :: rest) k' = dLook rest k' by
        simp [dLook, dFind?, List.find?, h]]
      exact ih

theorem dLook_dGet (d : StrDict) (k k' : String) :
    dLook (dGet d k).2 k' = dLook d k' := by
  unfold dGet
  cases h : dFind? d k with
  | some v => simp
  | none => simp only; exact dLook_append_empty k k' d

/-- Total number of stored strings (with multiplicity across entries). -/
def totalSize (d : StrDict) : Nat := (d.map (fun p => p.2.length)).sum

theorem totalSize_dGet (d : StrDict) (k : String) :
    totalSize (dGet d k).2 = totalSize d := by
  unfold dGet
  cases h : dFind? d k with
  | some v => simp
  | none => simp [totalSize]

theorem totalSize_dUpd (k : String) (xs : List String) :
    ∀ (d : StrDict),
      totalSize (dUpd d k xs) + (dLook d k).length =
        totalSize d + (dLook (dUpd d k xs) k).length := by
  intro d
  induction d with
  | nil => simp [dUpd, totalSize, dLook, dFind?, List.find?]
  | cons p rest ih =>
    by_cases h : p.1 = k
    · have hl1 : dLook ((p.1, p.2) :: rest) k = p.2 := by
        simp [dLook, dFind?, List.find?, h]
      have hl2 : dLook (dUpd ((p.1, p.2) :: rest) k xs) k = sUnion p.2 xs := by
        simp [dUpd, if_pos h, dLook, dFind?, List.find?, h]
      rw [show dUpd ((p.1, p.2) :: rest) k xs = (p.1, sUnion p.2 xs) :: rest by
        simp [dUpd, if_pos h]] at hl2 ⊢
      rw [hl1, hl2]
      simp only [totalSize, List.map_cons, List.sum_cons]
      omega
    · rw [show dUpd ((p.1, p.2) :: rest) k xs = (p.1, p.2) :: dUpd rest k xs by
        simp [dUpd, if_neg h]]
      have hl1 : dLook ((p.1, p.2) :: rest) k = dLook rest k := by
        simp [dLook, dFind?, List.find?, h]
      have hl2 : dLook ((p.1, p.2) :: dUpd rest k xs) k = dLook (dUpd rest k xs) k := by
        simp [dLook, dFind?, List.find?, h]
      rw [hl1, hl2]
      have hh := ih
      simp only [totalSize, List.map_cons, List.sum_cons] at hh ⊢
      omega

theorem dFind?_none_iff (k : String) : ∀ (d : StrDict), dFind? d k = none ↔ k ∉ dKeys d := by
  intro d
  induction d with
  | nil => simp [dFind?, dKeys]
  | cons p rest ih =>
    by_cases h : p.1 = k
    · simp [dFind?, List.find?, h, dKeys]
    · rw [show dFind? (p :: rest) k = dFind? rest k by simp [dFind?, List.find?, h]]
      rw [ih]
      simp only [dKeys, List.map_cons, List.mem_cons]
      constructor
      · intro hk hor
        rcases hor with hor | hor
        · exact h (hor.symm)
        · exact hk hor
      · intro hk hk2
        exact hk (Or.inr hk2)

theorem dKeys_dUpd_of_mem (k : String) (xs : List String) :
    ∀ (d : StrDict), k ∈ dKeys d → dKeys (dUpd d k xs) = dKeys d := by
  intro d
  induction d with
  | nil => intro h; simp [dKeys] at h
  | cons p rest ih =>
    intro h
    by_cases hp : p.1 = k
    · simp [dUpd, if_pos hp, dKeys]
    · rw [show dUpd (p :: rest) k xs = p :: dUpd rest k xs by
        rw [show (p : String × StrSet) = (p.1, p.2) from rfl]
        simp [dUpd, if_neg hp]]
      simp only [dKeys, List.map_cons] at *
      rcases List.mem_cons.mp h with h2 | h2
      · exact absurd h2.symm hp
      · rw [ih h2]

theorem dKeys_dUpd_of_not_mem (k : String) (xs : List String) :
    ∀ (d : StrDict), k ∉ dKeys d → dKeys (dUpd d k xs) = dKeys d ++ [k] := by
  intro d
  induction d with
  | nil => intro _; simp [dUpd, dKeys]
  | cons p rest ih =>
    intro h
    simp only [dKeys, List.map_cons, List.mem_cons] at h
    push_neg at h
    have hp : ¬ (p.1 = k) := fun h2 => h.1 h2.symm
    rw [show dUpd (p :: rest) k xs = p :: dUpd rest k xs by
      rw [show (p : String × StrSet) = (p.1, p.2) from rfl]
      simp [dUpd, if_neg hp]]
    rw [show dKeys (p :: dUpd rest k xs) = p.1 :: dKeys (dUpd rest k xs) from rfl]
    rw [ih (by simpa [dKeys] using h.2)]
    simp [dKeys]

theorem dKeys_dUpd_nodup (d : StrDict) (k : String) (xs : List String)
    (h : (dKeys d).Nodup) : (dKeys (dUpd d k xs)).Nodup := by
  by_cases hk : k ∈ dKeys d
  · rw [dKeys_dUpd_of_mem k xs d hk]; exact h
  · rw [dKeys_dUpd_of_not_mem k xs d hk]
    exact List.Nodup.append h (List.nodup_singleton k)
      (by intro x hx hx2; simp only [List.mem_singleton] at hx2; exact hk (hx2 ▸ hx))

theorem dKeys_dGet_nodup (d : StrDict) (k : String)
    (h : (dKeys d).Nodup) : (dKeys (dGet d k).2).Nodup := by
  unfold dGet
  cases hf : dFind? d k with
  | some v => exact h
  | none =>
    simp only [dKeys, List.map_append, List.map_cons, List.map_nil]
    refine List.Nodup.append h (List.nodup_singleton k) ?_
    intro x hx hx2
    simp only [List.mem_singleton] at hx2
    exact ((dFind?_none_iff k d).mp hf) (hx2 ▸ hx)

theorem dKeys_dUpd_sup (d : StrDict) (k : String) (xs : List String) (k' : String)
    (h : k' ∈ dKeys (dUpd d k xs)) : k' ∈ dKeys d ∨ k' = k := by
  by_cases hk : k ∈ dKeys d
  · rw [dKeys_dUpd_of_mem k xs d hk] at h; exact Or.inl h
  · rw [dKeys_dUpd_of_not_mem k xs d hk] at h
    rcases List.mem_append.mp h with h2 | h2
    · exact Or.inl h2
    · exact Or.inr (by simpa using h2)

/-- With duplicate-free keys, each stored entry is what lookup returns. -/
theorem dLook_entry : ∀ (d : StrDict), (dKeys d).Nodup →
    ∀ kv ∈ d, dLook d kv.1 = kv.2 := by
  intro d
  induction d with
  | nil => intro _ kv hkv; simp at hkv
  | cons p rest ih =>
    intro hnd kv hkv
    simp only [dKeys, List.map_cons, List.nodup_cons] at hnd
    rcases List.mem_cons.mp hkv with h | h
    · subst h
      simp [dLook, dFind?, List.find?]
    · have hne : ¬ (p.1 = kv.1) := by
        intro heq
        exact hnd.1 (heq ▸ List.mem_map_of_mem _ h)
      rw [show dLook (p :: rest) kv.1 = dLook rest kv.1 by
        simp [dLook, dFind?, List.find?, hne]]
      exact ih hnd.2 kv h

/-- A duplicate-free list contained in another list is no longer than it. -/
theorem nodup_subset_length {α : Type} [DecidableEq α] (l u : List α)
    (hn : l.Nodup) (hs : ∀ x ∈ l, x ∈ u) : l.length ≤ u.length := by
  calc l.length = l.toFinset.card := (List.toFinset_card_of_nodup hn).symm
    _ ≤ u.toFinset.card := Finset.card_le_card (by
        intro x hx
        rw [List.mem_toFinset] at *
        exact hs x hx)
    _ ≤ u.length := u.toFinset_card_le

/-- All symbol occurrences of the grammar, with multiplicity. -/
def univList (g : Grammar) : List String :=
  g.foldr (fun p acc => p.1 :: (p.2 ++ acc)) []

theorem univList_length (g : Grammar) : (univList g).length = symCount g := by
  suffices h : ∀ (g : Grammar) (n : Nat),
      g.foldl (fun n p => n + 1 + p.2.length) n = n + (univList g).length by
    rw [symCount, h g 0]; omega
  intro g
  induction g with
  | nil => intro n; simp [univList]
  | cons p rest ih =>
    intro n
    simp only [List.foldl_cons, univList, List.foldr_cons, List.length_cons,
      List.length_append]
    rw [ih]
    simp only [univList]
    omega

theorem univList_mem_lhs (g : Grammar) (p : Production) (hp : p ∈ g) :
    p.1 ∈ univList g := by
  induction g with
  | nil => simp at hp
  | cons q rest ih =>
    simp only [univList, List.foldr_cons, List.mem_cons, List.mem_append]
    rcases List.mem_cons.mp hp with h | h
    · exact Or.inl (by rw [h])
    · have := ih h
      simp only [univList] at this
      tauto

theorem univList_mem_rhs (g : Grammar) (p : Production) (hp : p ∈ g)
    (s : String) (hs : s ∈ p.2) : s ∈ univList g := by
  induction g with
  | nil => simp at hp
  | cons q rest ih =>
    simp only [univList, List.foldr_cons, List.mem_cons, List.mem_append]
    rcases List.mem_cons.mp hp with h | h
    · exact Or.inr (Or.inl (h ▸ hs))
    · have := ih h
      simp only [univList] at this
      tauto

/-- The set `first_of` consults, read off the dict without key creation. -/
def firstOfLook (ts : StrSet) (d : StrDict) (sym : String) : StrSet :=
  if sym ∈ ts then [sym] else dLook d sym

theorem first_of_fst (ts : StrSet) (d : StrDict) (sym : String) :
    (first_of ts d sym).1 = firstOfLook ts d sym := by
  unfold first_of firstOfLook
  split
  · rfl
  · exact dGet_fst d sym

theorem first_of_look (ts : StrSet) (d : StrDict) (sym k : String) :
    dLook (first_of ts d sym).2 k = dLook d k := by
  unfold first_of
  split
  · rfl
  · exact dLook_dGet d sym k

theorem first_of_total (ts : StrSet) (d : StrDict) (sym : String) :
    totalSize (first_of ts d sym).2 = totalSize d := by
  unfold first_of
  split
  · rfl
  · exact totalSize_dGet d sym

theorem first_of_keys (ts : StrSet) (d : StrDict) (sym k : String)
    (h : k ∈ dKeys (first_of ts d sym).2) : k ∈ dKeys d ∨ k = sym := by
  unfold first_of at h
  split at h
  · exact Or.inl h
  · exact dKeys_dGet d sym k h

theorem first_of_keys_nodup (ts : StrSet) (d : StrDict) (sym : String)
    (h : (dKeys d).Nodup) : (dKeys (first_of ts d sym).2).Nodup := by
  unfold first_of
  split
  · exact h
  · exact dKeys_dGet_nodup d sym h

/-- The walk never touches values of keys other than the lhs. -/
theorem firstWalk_look_other (ts : StrSet) (lhs : String) :
    ∀ (rest : List String) (d : StrDict) (k : String), k ≠ lhs →
      dLook (firstWalk ts lhs rest d) k = dLook d k := by
  intro rest
  induction rest with
  | nil =>
    intro d k hk
    simp only [firstWalk]
    exact dLook_dUpd_other lhs k _ hk d
  | cons sym rest2 ih =>
    intro d k hk
    simp only [firstWalk]
    split
    · rw [ih _ k hk, dLook_dUpd_other lhs k _ hk, first_of_look]
    · rw [dLook_dUpd_other lhs k _ hk, first_of_look]

/-- The walk only ever extends the lhs value. -/
theorem firstWalk_pre (ts : StrSet) (lhs : String) :
    ∀ (rest : List String) (d : StrDict),
      dLook d lhs <+: dLook (firstWalk ts lhs rest d) lhs := by
  intro rest
  induction rest with
  | nil =>
    intro d
    simp only [firstWalk]
    rw [dLook_dUpd_self]
    exact sUnion_pre _ _
  | cons sym rest2 ih =>
    intro d
    simp only [firstWalk]
    split
    · refine List.IsPrefix.trans ?_ (ih _)
      rw [dLook_dUpd_self, first_of_look]
      exact sUnion_pre _ _
    · rw [dLook_dUpd_self, first_of_look]
      exact sUnion_pre _ _

/-- Exact accounting: the walk grows the total size by exactly the growth of
the lhs value. -/
theorem firstWalk_total (ts : StrSet) (lhs : String) :
    ∀ (rest : List String) (d : StrDict),
      totalSize (firstWalk ts lhs rest d) + (dLook d lhs).length =
        totalSize d + (dLook (firstWalk ts lhs rest d) lhs).length := by
  intro rest
  induction rest with
  | nil =>
    intro d
    simp only [firstWalk]
    exact totalSize_dUpd lhs _ d
  | cons sym rest2 ih =>
    intro d
    simp only [firstWalk]
    split
    · have h1 := totalSize_dUpd lhs ((first_of ts d sym).1.filter (fun x => x ≠ "ε"))
        (first_of ts d sym).2
      rw [first_of_total, first_of_look] at h1
      have h2 := ih (dUpd (first_of ts d sym).2 lhs
        ((first_of ts d sym).1.filter (fun x => x ≠ "ε")))
      rw [dLook_dUpd_self, first_of_look] at h2
      have h3 : (dLook d lhs).length ≤ (sUnion (dLook d lhs)
          ((first_of ts d sym).1.filter (fun x => x ≠ "ε"))).length :=
        sUnion_length_ge _ _
      rw [dLook_dUpd_self, first_of_look] at h1
      omega
    · have h1 := totalSize_dUpd lhs ((first_of ts d sym).1.filter (fun x => x ≠ "ε"))
        (first_of ts d sym).2
      rw [first_of_total, first_of_look] at h1
      exact h1

/-- Keys the walk may create: the lhs and walked symbols. -/
theorem firstWalk_keys (ts : StrSet) (lhs : String) :
    ∀ (rest : List String) (d : StrDict) (k : String),
      k ∈ dKeys (firstWalk ts lhs rest d) → k ∈ dKeys d ∨ k = lhs ∨ k ∈ rest := by
  intro rest
  induction rest with
  | nil =>
    intro d k hk
    simp only [firstWalk] at hk
    rcases dKeys_dUpd_sup _ _ _ _ hk with h | h
    · exact Or.inl h
    · exact Or.inr (Or.inl h)
  | cons sym rest2 ih =>
    intro d k hk
    simp only [firstWalk] at hk
    have step : ∀ (hk2 : k ∈ dKeys (dUpd (first_of ts d sym).2 lhs
        ((first_of ts d sym).1.filter (fun x => x ≠ "ε")))),
        k ∈ dKeys d ∨ k = lhs ∨ k ∈ sym :: rest2 := by
      intro hk2
      rcases dKeys_dUpd_sup _ _ _ _ hk2 with h | h
      · rcases first_of_keys ts d sym k h with h2 | h2
        · exact Or.inl h2
        · exact Or.inr (Or.inr (h2 ▸ List.mem_cons_self _ _))
      · exact Or.inr (Or.inl h)
    split at hk
    · rcases ih _ k hk with h | h | h
      · exact step h
      · exact Or.inr (Or.inl h)
      · exact Or.inr (Or.inr (List.mem_cons_of_mem _ h))
    · exact step hk

/-- The walk keeps keys duplicate-free. -/
theorem firstWalk_keys_nodup (ts : StrSet) (lhs : String) :
    ∀ (rest : List String) (d : StrDict),
      (dKeys d).Nodup → (dKeys (firstWalk ts lhs rest d)).Nodup := by
  intro rest
  induction rest with
  | nil =>
    intro d h
    simp only [firstWalk]
    exact dKeys_dUpd_nodup _ _ _ h
  | cons sym rest2 ih =>
    intro d h
    simp only [firstWalk]
    split
    · exact ih _ (dKeys_dUpd_nodup _ _ _ (first_of_keys_nodup ts d sym h))
    · exact dKeys_dUpd_nodup _ _ _ (first_of_keys_nodup ts d sym h)

/-- Value invariant: every stored set is duplicate-free with members in the
given universe. -/
def ValInv (VU : List String) (d : StrDict) : Prop :=
  ∀ k, (dLook d k).Nodup ∧ ∀ x ∈ dLook d k, x ∈ VU

theorem ValInv_dUpd (VU : List String) (d : StrDict) (k : String) (xs : List String)
    (hd : ValInv VU d) (hxs : ∀ x ∈ xs, x ∈ VU) : ValInv VU (dUpd d k xs) := by
  intro k'
  by_cases hk : k' = k
  · subst hk
    rw [dLook_dUpd_self]
    refine ⟨sUnion_nodup _ _ (hd k').1, ?_⟩
    intro x hx
    rcases (sUnion_mem xs (dLook d k') x).mp hx with h | h
    · exact (hd k').2 x h
    · exact hxs x h
  · rw [dLook_dUpd_other _ _ _ hk]
    exact hd k'

theorem ValInv_first_of (VU : List String) (ts : StrSet) (d : StrDict) (sym : String)
    (hd : ValInv VU d) : ValInv VU (first_of ts d sym).2 := by
  intro k
  rw [first_of_look]
  exact hd k

/-- `first_of` produces universe members when the symbol is one. -/
theorem firstOfLook_sub (VU : List String) (ts : StrSet) (d : StrDict) (sym : String)
    (hd : ValInv VU d) (hsym : sym ∈ VU) :
    ∀ x ∈ firstOfLook ts d sym, x ∈ VU := by
  intro x hx
  unfold firstOfLook at hx
  split at hx
  · simp only [List.mem_singleton] at hx
    exact hx ▸ hsym
  · exact (hd sym).2 x hx

theorem ValInv_firstWalk (VU : List String) (ts : StrSet) (lhs : String)
    (hEps : "ε" ∈ VU) :
    ∀ (rest : List String) (d : StrDict), ValInv VU d → (∀ s ∈ rest, s ∈ VU) →
      ValInv VU (firstWalk ts lhs rest d) := by
  intro rest
  induction rest with
  | nil =>
    intro d hd _
    simp only [firstWalk]
    exact ValInv_dUpd VU d lhs ["ε"] hd
      (by intro x hx; simp only [List.mem_singleton] at hx; exact hx ▸ hEps)
  | cons sym rest2 ih =>
    intro d hd hrest
    simp only [firstWalk]
    have hupd : ValInv VU (dUpd (first_of ts d sym).2 lhs
        ((first_of ts d sym).1.filter (fun x => x ≠ "ε"))) := by
      refine ValInv_dUpd VU _ lhs _ (ValInv_first_of VU ts d sym hd) ?_
      intro x hx
      rw [first_of_fst] at hx
      exact firstOfLook_sub VU ts d sym hd (hrest sym (List.mem_cons_self _ _)) x
        (List.mem_of_mem_filter hx)
    split
    · exact ih _ hupd (fun s hs => hrest s (List.mem_cons_of_mem _ hs))
    · exact hupd

/-- Soundness invariant: an ε recorded for a symbol certifies that the symbol
derives the empty string under the grammar (epsilon-production rhs being the
empty token list, per the spec's reading). -/
inductive NullableSym (g : Grammar) : String → Prop where
  | mk (A : String) (rhs : List String) : (A, rhs) ∈ g →
      (∀ s ∈ rhs, NullableSym g s) → NullableSym g A

def NInv (g : Grammar) (d : StrDict) : Prop :=
  ∀ A, "ε" ∈ dLook d A → NullableSym g A

theorem NInv_firstWalk (g : Grammar) (ts : StrSet) (lhs : String) (rhs0 : List String)
    (hprod : (lhs, rhs0) ∈ g) (hEps : ∀ p ∈ g, ∀ s ∈ p.2, s ≠ "ε") :
    ∀ (rest : List String) (d : StrDict), NInv g d →
      (∀ s ∈ rest, s ∈ rhs0) →
      (∀ s ∈ rhs0, s ∈ rest ∨ NullableSym g s) →
      NInv g (firstWalk ts lhs rest d) := by
  intro rest
  induction rest with
  | nil =>
    intro d hd _ hpre
    simp only [firstWalk]
    intro A hA
    by_cases hk : A = lhs
    · subst hk
      refine NullableSym.mk A rhs0 hprod ?_
      intro s hs
      rcases hpre s hs with h | h
      · simp at h
      · exact h
    · rw [dLook_dUpd_other _ _ _ hk] at hA
      exact hd A hA
  | cons sym rest2 ih =>
    intro d hd hsub hpre
    simp only [firstWalk]
    have hupd : NInv g (dUpd (first_of ts d sym).2 lhs
        ((first_of ts d sym).1.filter (fun x => x ≠ "ε"))) := by
      intro A hA
      by_cases hk : A = lhs
      · subst hk
        rw [dLook_dUpd_self] at hA
        rcases (sUnion_mem _ _ _).mp hA with h | h
        · rw [first_of_look] at h
          exact hd A h
        · have := List.of_mem_filter h
          simp at this
      · rw [dLook_dUpd_other _ _ _ hk, first_of_look] at hA
        exact hd A hA
    split
    · rename_i hin
      refine ih _ hupd (fun s hs => hsub s (List.mem_cons_of_mem _ hs)) ?_
      intro s hs
      rcases hpre s hs with h | h
      · rcases List.mem_cons.mp h with h2 | h2
        · subst h2
          right
          rw [first_of_fst] at hin
          unfold firstOfLook at hin
          split at hin
          · simp only [List.mem_singleton] at hin
            exact absurd hin.symm (hEps (lhs, rhs0) hprod s (hsub s (List.mem_cons_self _ _)))
          · exact hd s hin
        · exact Or.inl h2
      · exact Or.inr h
    · exact hupd

/-- `firstOfLook` only depends on the stored value of its symbol. -/
theorem firstOfLook_congr (ts : StrSet) (d d2 : StrDict) (s : String)
    (h : dLook d2 s = dLook d s) : firstOfLook ts d2 s = firstOfLook ts d s := by
  unfold firstOfLook
  split
  · rfl
  · exact h

/-- If the walk did not change any value, then a rhs all of whose symbols
carry ε already has ε recorded for the lhs. -/
theorem firstWalk_stable (ts : StrSet) (lhs : String) :
    ∀ (rest : List String) (d : StrDict),
      (∀ k, dLook (firstWalk ts lhs rest d) k = dLook d k) →
      (∀ sym ∈ rest, "ε" ∈ firstOfLook ts d sym) →
      "ε" ∈ dLook d lhs := by
  intro rest
  induction rest with
  | nil =>
    intro d hstab _
    have h1 := hstab lhs
    simp only [firstWalk] at h1
    rw [dLook_dUpd_self] at h1
    have h2 : "ε" ∈ sUnion (dLook d lhs) ["ε"] :=
      (sUnion_mem _ _ _).mpr (Or.inr (List.mem_singleton_self _))
    rw [h1] at h2
    exact h2
  | cons sym rest2 ih =>
    intro d hstab hall
    have hin : "ε" ∈ (first_of ts d sym).1 := by
      rw [first_of_fst]
      exact hall sym (List.mem_cons_self _ _)
    have hwalk : firstWalk ts lhs (sym :: rest2) d =
        firstWalk ts lhs rest2 (dUpd (first_of ts d sym).2 lhs
          ((first_of ts d sym).1.filter (fun x => x ≠ "ε"))) := by
      simp only [firstWalk]
      rw [if_pos hin]
    set d2 := dUpd (first_of ts d sym).2 lhs
      ((first_of ts d sym).1.filter (fun x => x ≠ "ε")) with hd2
    have hother : ∀ k, k ≠ lhs → dLook d2 k = dLook d k := by
      intro k hk
      rw [hd2, dLook_dUpd_other _ _ _ hk, first_of_look]
    have hlhs : dLook d2 lhs = dLook d lhs := by
      have hp1 : dLook d lhs <+: dLook d2 lhs := by
        rw [hd2, dLook_dUpd_self, first_of_look]
        exact sUnion_pre _ _
      have hp2 : dLook d2 lhs <+: dLook (firstWalk ts lhs rest2 d2) lhs :=
        firstWalk_pre ts lhs rest2 d2
      have heq : dLook (firstWalk ts lhs rest2 d2) lhs = dLook d lhs := by
        rw [← hwalk]
        exact hstab lhs
      have hlen : (dLook d lhs).length = (dLook d2 lhs).length := by
        have l1 := hp1.length_le
        have l2 := hp2.length_le
        rw [heq] at l2
        omega
      exact (hp1.eq_of_length hlen).symm
    have hdall : ∀ k, dLook d2 k = dLook d k := by
      intro k
      by_cases hk : k = lhs
      · subst hk; exact hlhs
      · exact hother k hk
    have hall2 : ∀ s ∈ rest2, "ε" ∈ firstOfLook ts d2 s := by
      intro s hs
      rw [firstOfLook_congr ts d d2 s (hdall s)]
      exact hall s (List.mem_cons_of_mem _ hs)
    have ihres := ih d2 (fun k => by rw [← hwalk, hstab k, hdall k]) hall2
    rw [hlhs] at ihres
    exact ihres

/-- A no-growth production step changes no value and witnesses the
stability of its production. -/
theorem firstProd_stable (ts : StrSet) (p : Production) (d : StrDict)
    (h : (firstProd ts (d, false) p).2 = false) :
    (∀ k, dLook (firstProd ts (d, false) p).1 k = dLook d k) ∧
    ((∀ sym ∈ p.2, "ε" ∈ firstOfLook ts d sym) → "ε" ∈ dLook d p.1) := by
  unfold firstProd at h ⊢
  simp only [Bool.false_or, decide_eq_false_iff_not, not_lt] at h
  rw [dGet_fst] at h
  have hother : ∀ k, k ≠ p.1 →
      dLook (firstWalk ts p.1 p.2 (dGet d p.1).2) k = dLook d k := by
    intro k hk
    rw [firstWalk_look_other ts p.1 p.2 _ k hk, dLook_dGet]
  have hpre : dLook d p.1 <+: dLook (firstWalk ts p.1 p.2 (dGet d p.1).2) p.1 := by
    have := firstWalk_pre ts p.1 p.2 (dGet d p.1).2
    rwa [dLook_dGet] at this
  have hlhs : dLook (firstWalk ts p.1 p.2 (dGet d p.1).2) p.1 = dLook d p.1 := by
    exact (hpre.eq_of_length (Nat.le_antisymm hpre.length_le h)).symm
  have hvals : ∀ k, dLook (firstWalk ts p.1 p.2 (dGet d p.1).2) k = dLook d k := by
    intro k
    by_cases hk : k = p.1
    · exact hk ▸ hlhs
    · exact hother k hk
  refine ⟨hvals, ?_⟩
  intro hall
  have hstab : ∀ k, dLook (firstWalk ts p.1 p.2 (dGet d p.1).2) k =
      dLook (dGet d p.1).2 k := by
    intro k
    rw [hvals k, dLook_dGet]
  have hall2 : ∀ sym ∈ p.2, "ε" ∈ firstOfLook ts (dGet d p.1).2 sym := by
    intro sym hs
    rw [firstOfLook_congr ts d (dGet d p.1).2 sym (dLook_dGet d p.1 sym)]
    exact hall sym hs
  have := firstWalk_stable ts p.1 p.2 (dGet d p.1).2 hstab hall2
  rwa [dLook_dGet] at this

/-- A production step never shrinks the total size. -/
theorem firstProd_total_ge (ts : StrSet) (p : Production) (d : StrDict) (f : Bool) :
    totalSize d ≤ totalSize (firstProd ts (d, f) p).1 := by
  unfold firstProd
  simp only
  have h1 := firstWalk_total ts p.1 p.2 (dGet d p.1).2
  have h2 : dLook (dGet d p.1).2 p.1 = dLook d p.1 := dLook_dGet d p.1 p.1
  have h3 := totalSize_dGet d p.1
  have hpre : dLook (dGet d p.1).2 p.1 <+:
      dLook (firstWalk ts p.1 p.2 (dGet d p.1).2) p.1 :=
    firstWalk_pre ts p.1 p.2 (dGet d p.1).2
  have h4 := hpre.length_le
  rw [h2] at h1 h4
  omega

/-- A production step that reports growth strictly grows the total size. -/
theorem firstProd_total_strict (ts : StrSet) (p : Production) (d : StrDict)
    (h : (firstProd ts (d, false) p).2 = true) :
    totalSize d < totalSize (firstProd ts (d, false) p).1 := by
  unfold firstProd at h ⊢
  simp only [Bool.false_or, decide_eq_true_eq] at h
  rw [dGet_fst] at h
  simp only
  have h1 := firstWalk_total ts p.1 p.2 (dGet d p.1).2
  have h2 : dLook (dGet d p.1).2 p.1 = dLook d p.1 := dLook_dGet d p.1 p.1
  have h3 := totalSize_dGet d p.1
  rw [h2] at h1
  omega

/-- A pass that reports no change leaves every value unchanged, entered with
a false flag, and witnesses stability of every production it scanned. -/
theorem firstPass_false (ts : StrSet) :
    ∀ (prods : List Production) (d : StrDict) (f : Bool),
      (prods.foldl (firstProd ts) (d, f)).2 = false →
      f = false ∧ (∀ k, dLook (prods.foldl (firstProd ts) (d, f)).1 k = dLook d k) ∧
      ∀ p ∈ prods, (∀ sym ∈ p.2, "ε" ∈ firstOfLook ts d sym) → "ε" ∈ dLook d p.1 := by
  intro prods
  induction prods with
  | nil =>
    intro d f h
    refine ⟨h, fun k => rfl, ?_⟩
    intro p hp
    simp at hp
  | cons p rest ih =>
    intro d f h
    simp only [List.foldl_cons] at h ⊢
    have hstep : firstProd ts (d, f) p =
        ((firstProd ts (d, f) p).1, (firstProd ts (d, f) p).2) := rfl
    rw [hstep] at h ⊢
    obtain ⟨hf1, hvals, hfacts⟩ := ih (firstProd ts (d, f) p).1 (firstProd ts (d, f) p).2 h
    have hff : f = false := by
      unfold firstProd at hf1
      simp only at hf1
      rcases Bool.or_eq_false_iff.mp hf1 with ⟨h1, _⟩
      exact h1
    subst hff
    obtain ⟨hpv, hpstab⟩ := firstProd_stable ts p d hf1
    have hvals2 : ∀ k, dLook (List.foldl (firstProd ts)
        ((firstProd ts (d, false) p).1, (firstProd ts (d, false) p).2) rest).1 k =
        dLook d k := by
      intro k
      rw [hvals k, hpv k]
    refine ⟨rfl, hvals2, ?_⟩
    intro q hq
    rcases List.mem_cons.mp hq with hq2 | hq2
    · subst hq2
      exact hpstab
    · intro hall
      have hq3 := hfacts q hq2
      rw [← hpv q.1]
      exact hq3 (fun sym hs => by
        rw [firstOfLook_congr ts d (firstProd ts (d, false) p).1 sym (hpv sym)]
        exact hall sym hs)

/-- A pass never shrinks the total size. -/
theorem firstPass_total_ge (ts : StrSet) :
    ∀ (prods : List Production) (d : StrDict) (f : Bool),
      totalSize d ≤ totalSize (prods.foldl (firstProd ts) (d, f)).1 := by
  intro prods
  induction prods with
  | nil => intro d f; exact Nat.le_refl _
  | cons p rest ih =>
    intro d f
    simp only [List.foldl_cons]
    calc totalSize d ≤ totalSize (firstProd ts (d, f) p).1 := firstProd_total_ge ts p d f
      _ ≤ _ := by
          rw [show firstProd ts (d, f) p =
            ((firstProd ts (d, f) p).1, (firstProd ts (d, f) p).2) from rfl]
          exact ih _ _

/-- A pass that reports a change strictly grows the total size. -/
theorem firstPass_total_strict (ts : StrSet) :
    ∀ (prods : List Production) (d : StrDict),
      (prods.foldl (firstProd ts) (d, false)).2 = true →
      totalSize d < totalSize (prods.foldl (firstProd ts) (d, false)).1 := by
  intro prods
  induction prods with
  | nil => intro d h; simp at h
  | cons p rest ih =>
    intro d h
    simp only [List.foldl_cons] at h ⊢
    rw [show firstProd ts (d, false) p =
      ((firstProd ts (d, false) p).1, (firstProd ts (d, false) p).2) from rfl] at h ⊢
    cases hloc : (firstProd ts (d, false) p).2 with
    | true =>
      calc totalSize d < totalSize (firstProd ts (d, false) p).1 :=
            firstProd_total_strict ts p d hloc
        _ ≤ _ := firstPass_total_ge ts rest _ _
    | false =>
      rw [hloc] at h
      calc totalSize d ≤ totalSize (firstProd ts (d, false) p).1 :=
            firstProd_total_ge ts p d false
        _ < _ := ih _ h

/-- Execution invariant for the FIRST dict: duplicate-free keys drawn from
the grammar's symbols, duplicate-free values drawn from the symbols plus ε. -/
def FInv (g : Grammar) (d : StrDict) : Prop :=
  (dKeys d).Nodup ∧ ValInv ("ε" :: univList g) d ∧ ∀ k ∈ dKeys d, k ∈ univList g

theorem FInv_firstProd (g : Grammar) (ts : StrSet) (p : Production) (hp : p ∈ g)
    (d : StrDict) (f : Bool) (h : FInv g d) : FInv g (firstProd ts (d, f) p).1 := by
  obtain ⟨hk, hv, hku⟩ := h
  unfold firstProd
  simp only
  refine ⟨?_, ?_, ?_⟩
  · exact firstWalk_keys_nodup ts p.1 p.2 _ (dKeys_dGet_nodup d p.1 hk)
  · refine ValInv_firstWalk _ ts p.1 (List.mem_cons_self _ _) p.2 _ ?_ ?_
    · intro k
      rw [dLook_dGet]
      exact hv k
    · intro s hs
      exact List.mem_cons_of_mem _ (univList_mem_rhs g p hp s hs)
  · intro k hkmem
    rcases firstWalk_keys ts p.1 p.2 _ k hkmem with h2 | h2 | h2
    · rcases dKeys_dGet d p.1 k h2 with h3 | h3
      · exact hku k h3
      · exact h3 ▸ univList_mem_lhs g p hp
    · exact h2 ▸ univList_mem_lhs g p hp
    · exact univList_mem_rhs g p hp k h2

theorem FInv_firstPass (g : Grammar) (ts : StrSet) :
    ∀ (prods : List Production), (∀ p ∈ prods, p ∈ g) →
      ∀ (d : StrDict) (f : Bool), FInv g d →
        FInv g (prods.foldl (firstProd ts) (d, f)).1 := by
  intro prods
  induction prods with
  | nil => intro _ d f h; exact h
  | cons p rest ih =>
    intro hmem d f h
    simp only [List.foldl_cons]
    rw [show firstProd ts (d, f) p =
      ((firstProd ts (d, f) p).1, (firstProd ts (d, f) p).2) from rfl]
    exact ih (fun q hq => hmem q (List.mem_cons_of_mem _ hq)) _ _
      (FInv_firstProd g ts p (hmem p (List.mem_cons_self _ _)) d f h)

/-- Under the invariant the total size is bounded by the symbol counts. -/
theorem FInv_totalSize_le (g : Grammar) (d : StrDict) (h : FInv g d) :
    totalSize d ≤ symCount g * (symCount g + 1) := by
  obtain ⟨hk, hv, hku⟩ := h
  have hentry : ∀ m ∈ d.map (fun p => p.2.length), m ≤ symCount g + 1 := by
    intro m hm
    obtain ⟨kv, hkv, rfl⟩ := List.mem_map.mp hm
    have hlook := dLook_entry d hk kv hkv
    have hval := hv kv.1
    rw [hlook] at hval
    calc kv.2.length ≤ ("ε" :: univList g).length :=
          nodup_subset_length kv.2 _ hval.1 hval.2
      _ = symCount g + 1 := by simp [univList_length]
  have hsum : totalSize d ≤ (d.map (fun p => p.2.length)).length * (symCount g + 1) := by
    unfold totalSize
    exact List.sum_le_card_nsmul _ _ hentry
  have hlen : d.length ≤ symCount g := by
    have := nodup_subset_length (dKeys d) (univList g) hk hku
    rw [univList_length] at this
    simpa [dKeys] using this
  calc totalSize d ≤ (d.map (fun p => p.2.length)).length * (symCount g + 1) := hsum
    _ = d.length * (symCount g + 1) := by rw [List.length_map]
    _ ≤ symCount g * (symCount g + 1) := Nat.mul_le_mul_right _ hlen

/-- With enough fuel the FIRST loop always exits through a no-change pass. -/
theorem firstLoop_exit (g : Grammar) (ts : StrSet) (prods : List Production)
    (hprods : ∀ p ∈ prods, p ∈ g) :
    ∀ (fuel : Nat) (d : StrDict), FInv g d →
      symCount g * (symCount g + 1) < totalSize d + fuel →
      ∃ dprev, firstLoop ts prods fuel d = (firstPass ts prods dprev).1 ∧
        (firstPass ts prods dprev).2 = false ∧ FInv g dprev := by
  intro fuel
  induction fuel with
  | zero =>
    intro d hinv hbound
    exact absurd (FInv_totalSize_le g d hinv) (by omega)
  | succ n ih =>
    intro d hinv hbound
    simp only [firstLoop]
    cases hflag : (firstPass ts prods d).2 with
    | false =>
      rw [if_neg (by simp [hflag])]
      exact ⟨d, rfl, hflag, hinv⟩
    | true =>
      rw [if_pos (by simp [hflag])]
      have hstrict : totalSize d < totalSize (firstPass ts prods d).1 :=
        firstPass_total_strict ts prods d hflag
      exact ih (firstPass ts prods d).1
        (FInv_firstPass g ts prods hprods d false hinv) (by omega)

/-- `NInv` only depends on stored values. -/
theorem NInv_congr (g : Grammar) (d d2 : StrDict)
    (h : ∀ k, dLook d2 k = dLook d k) (hd : NInv g d) : NInv g d2 := by
  intro A hA
  rw [h A] at hA
  exact hd A hA

theorem NInv_firstProd (g : Grammar) (ts : StrSet) (p : Production) (hp : p ∈ g)
    (hEps : ∀ q ∈ g, ∀ s ∈ q.2, s ≠ "ε") (d : StrDict) (f : Bool)
    (h : NInv g d) : NInv g (firstProd ts (d, f) p).1 := by
  unfold firstProd
  simp only
  refine NInv_firstWalk g ts p.1 p.2 ?_ hEps p.2 _ ?_ ?_ ?_
  · exact (show ((p.1, p.2) : Production) = p from rfl) ▸ hp
  · exact NInv_congr g d _ (fun k => dLook_dGet d p.1 k) h
  · intro s hs; exact hs
  · intro s hs; exact Or.inl hs

theorem NInv_firstPass (g : Grammar) (ts : StrSet)
    (hEps : ∀ q ∈ g, ∀ s ∈ q.2, s ≠ "ε") :
    ∀ (prods : List Production), (∀ p ∈ prods, p ∈ g) →
      ∀ (d : StrDict) (f : Bool), NInv g d →
        NInv g (prods.foldl (firstProd ts) (d, f)).1 := by
  intro prods
  induction prods with
  | nil => intro _ d f h; exact h
  | cons p rest ih =>
    intro hmem d f h
    simp only [List.foldl_cons]
    rw [show firstProd ts (d, f) p =
      ((firstProd ts (d, f) p).1, (firstProd ts (d, f) p).2) from rfl]
    exact ih (fun q hq => hmem q (List.mem_cons_of_mem _ hq)) _ _
      (NInv_firstProd g ts p (hmem p (List.mem_cons_self _ _)) hEps d f h)

theorem NInv_firstLoop (g : Grammar) (ts : StrSet) (prods : List Production)
    (hprods : ∀ p ∈ prods, p ∈ g) (hEps : ∀ q ∈ g, ∀ s ∈ q.2, s ≠ "ε") :
    ∀ (fuel : Nat) (d : StrDict), NInv g d → NInv g (firstLoop ts prods fuel d) := by
  intro fuel
  induction fuel with
  | zero => intro d h; exact h
  | succ n ih =>
    intro d h
    simp only [firstLoop]
    split
    · exact ih _ (NInv_firstPass g ts hEps prods hprods d false h)
    · exact NInv_firstPass g ts hEps prods hprods d false h

/-- A nullable symbol is some production's lhs. -/
theorem nullable_is_lhs (g : Grammar) (A : String) (h : NullableSym g A) :
    ∃ p ∈ g, p.1 = A := by
  cases h with
  | mk A rhs hp _ => exact ⟨(A, rhs), hp, rfl⟩

/-- Uppercase symbols are never classified terminal. -/
theorem upper_not_terminal (g : Grammar) (x : String) (h : pyIsUpper x = true) :
    x ∉ (collectFirstSyms g).2 := by
  intro hx
  have := (terminal_mem_iff g x).mp hx
  rw [h] at this
  exact Bool.noConfusion this.1

/-- Inversion for `occursInRhs`. -/
theorem occursInRhs_exists (x : String) : ∀ (g : Grammar),
    occursInRhs x g = true → ∃ p ∈ g, x ∈ p.2 := by
  intro g
  induction g with
  | nil => intro h; simp [occursInRhs] at h
  | cons p rest ih =>
    intro h
    unfold occursInRhs at h
    split at h
    · exact ⟨p, List.mem_cons_self _ _, by assumption⟩
    · obtain ⟨q, hq, hx⟩ := ih h
      exact ⟨q, List.mem_cons_of_mem _ hq, hx⟩

/-- A symbol that occurs in some rhs and is never a lhs passes the
left-to-right scan. -/
theorem scanTerminal_of_never_lhs (x : String) : ∀ (g : Grammar),
    occursInRhs x g = true → (∀ q ∈ g, q.1 ≠ x) → scanTerminal x g = true := by
  intro g
  induction g with
  | nil => intro h _; simp [occursInRhs] at h
  | cons p rest ih =>
    intro h hq
    unfold occursInRhs at h
    unfold scanTerminal
    rw [if_neg (hq p (List.mem_cons_self _ _))]
    split at h
    · rename_i hin
      rw [if_pos hin]
    · rename_i hin
      rw [if_neg hin]
      exact ih h (fun q hq2 => hq q (List.mem_cons_of_mem _ hq2))

/-- C8, amended.  For well-formed grammars -- every lhs satisfies
`isupper()`, every uppercase rhs symbol is some production's lhs, and the
literal ε marker does not occur inside any rhs -- the computed FIRST sets
contain ε for a symbol exactly when that symbol derives the empty string,
and each symbol that occurs in a rhs without ever being a lhs really is
treated as a terminal whose FIRST is the singleton of itself, computed on
demand without touching the dict. -/
theorem c8_first_epsilon_iff_nullable (g : Grammar)
    (H1 : ∀ p ∈ g, pyIsUpper p.1 = true)
    (H2 : ∀ p ∈ g, ∀ s ∈ p.2, pyIsUpper s = true → ∃ q ∈ g, q.1 = s)
    (H3 : ∀ p ∈ g, ∀ s ∈ p.2, s ≠ "ε") :
    (∀ A, "ε" ∈ dLook (compute_first_sets g) A ↔ NullableSym g A) ∧
    (∀ s, occursInRhs s g = true → (∀ q ∈ g, q.1 ≠ s) →
      ∀ (d : StrDict), first_of (collectFirstSyms g).2 d s = ([s], d)) := by
  have hprods : ∀ p ∈ prodOrder g, p ∈ g := fun p hp => (prodOrder_mem g p).mp hp
  constructor
  · intro A
    constructor
    · -- soundness: recorded ε certifies nullability
      intro hA
      have hN : NInv g (compute_first_sets g) := by
        refine NInv_firstLoop g (collectFirstSyms g).2 (prodOrder g) hprods H3
          (firstFuel g) [] ?_
        intro B hB
        simp [dLook, dFind?] at hB
      exact hN A hA
    · -- completeness: the loop exits through a no-change pass
      intro hnull
      have hF0 : FInv g [] := by
        refine ⟨List.nodup_nil, ?_, ?_⟩
        · intro k
          simp [dLook, dFind?]
        · intro k hk
          simp [dKeys] at hk
      have hmul : symCount g * (symCount g + 1) ≤ (symCount g + 2) * (symCount g + 2) :=
        Nat.mul_le_mul (by omega) (by omega)
      have hbound : symCount g * (symCount g + 1) < totalSize ([] : StrDict) + firstFuel g := by
        unfold firstFuel
        have : totalSize ([] : StrDict) = 0 := rfl
        omega
      obtain ⟨dprev, hres, hfalse, _⟩ :=
        firstLoop_exit g (collectFirstSyms g).2 (prodOrder g) hprods (firstFuel g) [] hF0 hbound
      obtain ⟨_, hvals, hfacts⟩ :=
        firstPass_false (collectFirstSyms g).2 (prodOrder g) dprev false hfalse
      have hRlook : ∀ k, dLook (compute_first_sets g) k = dLook dprev k := by
        intro k
        rw [show compute_first_sets g =
          firstLoop (collectFirstSyms g).2 (prodOrder g) (firstFuel g) [] from rfl, hres]
        exact hvals k
      induction hnull with
      | mk A rhs hprod hall ihall =>
        rw [hRlook A]
        refine hfacts (A, rhs) ((prodOrder_mem g (A, rhs)).mpr hprod) ?_
        intro sym hs
        have hupper : pyIsUpper sym = true := by
          obtain ⟨q, hq, hq1⟩ := nullable_is_lhs g sym (hall sym hs)
          exact hq1 ▸ H1 q hq
        have hnotts : sym ∉ (collectFirstSyms g).2 := upper_not_terminal g sym hupper
        unfold firstOfLook
        rw [if_neg hnotts, ← hRlook sym]
        exact ihall sym hs
  · intro s hocc hnolhs d
    have hupper : pyIsUpper s = false := by
      cases hu : pyIsUpper s with
      | false => rfl
      | true =>
        obtain ⟨p, hp, hs⟩ := occursInRhs_exists s g hocc
        obtain ⟨q, hq, hq1⟩ := H2 p hp s hs hu
        exact absurd hq1 (hnolhs q hq)
    have hts : s ∈ (collectFirstSyms g).2 :=
      (terminal_mem_iff g s).mpr
        ⟨hupper, scanTerminal_of_never_lhs s g hocc hnolhs⟩
    unfold first_of
    rw [if_pos hts]

/-- C8, counterexample.  In the grammar `S -> a`, `a -> `(empty), the
lowercase symbol `a` is used before its defining production, so the scan
classifies it as a terminal; `first_of` then shadows the recorded
`FIRST(a) = {ε}` with the singleton `{a}`, FIRST(S) is computed as `{a}`
without ε -- yet S derives the empty string via `S => a => ε`.  So
`ε ∈ FIRST(A)` iff A derives empty fails on the code. -/
theorem c8_counterexample :
    NullableSym [("S", ["a"]), ("a", [])] "S" ∧
    "ε" ∉ dLook (compute_first_sets [("S", ["a"]), ("a", [])]) "S" := by
  constructor
  · refine NullableSym.mk "S" ["a"] (by simp) ?_
    intro s hs
    simp only [List.mem_singleton] at hs
    subst hs
    exact NullableSym.mk "a" [] (by simp) (by intro s hs; simp at hs)
  · decide

/-- C8, witness: the well-formedness hypotheses hold for the grammar
`S' -> S`, `S -> a`, `S -> `(empty), and the amended equivalence applies. -/
theorem c8_first_epsilon_iff_nullable_witness :
    (∀ p ∈ ([("S'", ["S"]), ("S", ["a"]), ("S", [])] : Grammar), pyIsUpper p.1 = true) ∧
    (∀ p ∈ ([("S'", ["S"]), ("S", ["a"]), ("S", [])] : Grammar), ∀ s ∈ p.2,
      pyIsUpper s = true → ∃ q ∈ ([("S'", ["S"]), ("S", ["a"]), ("S", [])] : Grammar), q.1 = s) ∧
    (∀ p ∈ ([("S'", ["S"]), ("S", ["a"]), ("S", [])] : Grammar), ∀ s ∈ p.2, s ≠ "ε") ∧
    ((∀ A, "ε" ∈ dLook (compute_first_sets [("S'", ["S"]), ("S", ["a"]), ("S", [])]) A ↔
        NullableSym [("S'", ["S"]), ("S", ["a"]), ("S", [])] A) ∧
      (∀ s, occursInRhs s [("S'", ["S"]), ("S", ["a"]), ("S", [])] = true →
        (∀ q ∈ ([("S'", ["S"]), ("S", ["a"]), ("S", [])] : Grammar), q.1 ≠ s) →
        ∀ (d : StrDict),
          first_of (collectFirstSyms [("S'", ["S"]), ("S", ["a"]), ("S", [])]).2 d s =
            ([s], d))) :=
  ⟨by decide, by decide, by decide,
    c8_first_epsilon_iff_nullable [("S'", ["S"]), ("S", ["a"]), ("S", [])]
      (by decide) (by decide) (by decide)⟩

/-- Union with a subset is a no-op. -/
theorem sUnion_eq_self_of_sub (xs : List String) : ∀ (s : StrSet),
    (∀ x ∈ xs, x ∈ s) → sUnion s xs = s := by
  induction xs with
  | nil => intro s _; rfl
  | cons y ys ih =>
    intro s h
    simp only [sUnion, List.foldl_cons]
    rw [show sInsert s y = s by
      unfold sInsert
      rw [if_pos (h y (List.mem_cons_self _ _))]]
    exact ih s (fun x hx => h x (List.mem_cons_of_mem _ hx))

/-- The exact set of terminals a trailer walk over a rhs suffix unions into
FOLLOW: the pieces `followTrailer` yields while the ε flags keep the loop
going (parser_utils.py lines 95-107). -/
def trailFirst (fs : StrDict) : List String → List String
  | [] => []
  | next :: rest =>
    (followTrailer fs next).1 ++
      (if (followTrailer fs next).2 then trailFirst fs rest else [])

/-- Does the trailer walk run off the end of the suffix (reaching the
`for ... else` branch)? -/
def allEps (fs : StrDict) : List String → Bool
  | [] => true
  | next :: rest => (followTrailer fs next).2 && allEps fs rest

/-- The occurrence walk only ever extends values. -/
theorem occWalk_pre (fs : StrDict) (lhs sym : String) :
    ∀ (rest : List String) (d : StrDict) (k : String),
      dLook d k <+: dLook (occWalk fs lhs sym rest d).1 k := by
  intro rest
  induction rest with
  | nil =>
    intro d k
    simp only [occWalk]
    by_cases hk : k = sym
    · subst hk
      rw [dLook_dUpd_self, dLook_dGet, dLook_dGet]
      exact sUnion_pre _ _
    · rw [dLook_dUpd_other _ _ _ hk, dLook_dGet, dLook_dGet]
  | cons next rest2 ih =>
    intro d k
    simp only [occWalk]
    split
    · refine List.IsPrefix.trans ?_ (ih _ k)
      by_cases hk : k = sym
      · subst hk
        rw [dLook_dUpd_self, dLook_dGet]
        exact sUnion_pre _ _
      · rw [dLook_dUpd_other _ _ _ hk, dLook_dGet]
    · by_cases hk : k = sym
      · subst hk
        rw [dLook_dUpd_self, dLook_dGet]
        exact sUnion_pre _ _
      · rw [dLook_dUpd_other _ _ _ hk, dLook_dGet]

/-- The occurrence walk never touches values of keys other than its
occurrence. -/
theorem occWalk_look_other (fs : StrDict) (lhs sym : String) :
    ∀ (rest : List String) (d : StrDict) (k : String), k ≠ sym →
      dLook (occWalk fs lhs sym rest d).1 k = dLook d k := by
  intro rest
  induction rest with
  | nil =>
    intro d k hk
    simp only [occWalk]
    rw [dLook_dUpd_other _ _ _ hk, dLook_dGet, dLook_dGet]
  | cons next rest2 ih =>
    intro d k hk
    simp only [occWalk]
    split
    · rw [ih _ k hk, dLook_dUpd_other _ _ _ hk, dLook_dGet]
    · rw [dLook_dUpd_other _ _ _ hk, dLook_dGet]

/-- Exact accounting of the occurrence walk. -/
theorem occWalk_total (fs : StrDict) (lhs sym : String) :
    ∀ (rest : List String) (d : StrDict),
      totalSize (occWalk fs lhs sym rest d).1 + (dLook d sym).length =
        totalSize d + (dLook (occWalk fs lhs sym rest d).1 sym).length := by
  intro rest
  induction rest with
  | nil =>
    intro d
    simp only [occWalk]
    have h1 := totalSize_dUpd sym (dGet (dGet d sym).2 lhs).1 (dGet (dGet d sym).2 lhs).2
    have h2 := totalSize_dGet d sym
    have h3 := totalSize_dGet (dGet d sym).2 lhs
    have h4 : dLook (dGet (dGet d sym).2 lhs).2 sym = dLook d sym := by
      rw [dLook_dGet, dLook_dGet]
    rw [h4] at h1
    omega
  | cons next rest2 ih =>
    intro d
    simp only [occWalk]
    have h1 := totalSize_dUpd sym (followTrailer fs next).1 (dGet d sym).2
    have h2 := totalSize_dGet d sym
    have h3 : dLook (dGet d sym).2 sym = dLook d sym := dLook_dGet d sym sym
    rw [h3] at h1
    split
    · have h4 := ih (dUpd (dGet d sym).2 sym (followTrailer fs next).1)
      have hpre : dLook (dUpd (dGet d sym).2 sym (followTrailer fs next).1) sym <+:
          dLook (occWalk fs lhs sym rest2
            (dUpd (dGet d sym).2 sym (followTrailer fs next).1)).1 sym :=
        occWalk_pre fs lhs sym rest2 _ sym
      have h5 := hpre.length_le
      have h6 : (dLook d sym).length ≤
          (dLook (dUpd (dGet d sym).2 sym (followTrailer fs next).1) sym).length := by
        rw [dLook_dUpd_self, h3]
        exact sUnion_length_ge _ _
      omega
    · dsimp only
      have h2' := totalSize_dGet d sym
      omega

/-- A flagged occurrence walk strictly grew the FOLLOW entry of its symbol. -/
theorem occWalk_flag_growth (fs : StrDict) (lhs sym : String) :
    ∀ (rest : List String) (d : StrDict),
      (occWalk fs lhs sym rest d).2 = true →
      (dLook d sym).length < (dLook (occWalk fs lhs sym rest d).1 sym).length := by
  intro rest
  induction rest with
  | nil =>
    intro d h
    simp only [occWalk, decide_eq_true_eq] at h ⊢
    have hg : (dGet d sym).1.length = (dLook d sym).length := by rw [dGet_fst]
    omega
  | cons next rest2 ih =>
    intro d h
    simp only [occWalk] at h ⊢
    split <;> rename_i hc
    · rw [if_pos hc] at h
      have h1 := ih (dUpd (dGet d sym).2 sym (followTrailer fs next).1) h
      have h2 : dLook d sym <+:
          dLook (dUpd (dGet d sym).2 sym (followTrailer fs next).1) sym := by
        rw [dLook_dUpd_self, dLook_dGet]
        exact sUnion_pre _ _
      have h3 := h2.length_le
      omega
    · rw [if_neg hc] at h
      dsimp only at h ⊢
      simp only [decide_eq_true_eq] at h
      have hg : (dGet d sym).1.length = (dLook d sym).length := by rw [dGet_fst]
      omega

/-- After an occurrence walk, every trailer piece of its suffix is in the
FOLLOW entry of its symbol. -/
theorem occWalk_trail (fs : StrDict) (lhs sym : String) :
    ∀ (rest : List String) (d : StrDict) (t : String), t ∈ trailFirst fs rest →
      t ∈ dLook (occWalk fs lhs sym rest d).1 sym := by
  intro rest
  induction rest with
  | nil => intro d t ht; exact absurd ht (by simp [trailFirst])
  | cons next rest2 ih =>
    intro d t ht
    simp only [trailFirst, List.mem_append] at ht
    simp only [occWalk]
    split
    · rcases ht with ht | ht
      · have h2 : t ∈ dLook (dUpd (dGet d sym).2 sym (followTrailer fs next).1) sym := by
          rw [dLook_dUpd_self, dLook_dGet, sUnion_mem]
          exact Or.inr ht
        exact (occWalk_pre fs lhs sym rest2 _ sym).subset h2
      · rw [if_pos (by assumption)] at ht
        exact ih _ t ht
    · rcases ht with ht | ht
      · rw [dLook_dUpd_self, dLook_dGet, sUnion_mem]
        exact Or.inr ht
      · rw [if_neg (by assumption)] at ht
        exact absurd ht (by simp)

/-- The rhs walk only ever extends values. -/
theorem followRhs_pre (fs : StrDict) (nts : StrSet) (lhs : String) :
    ∀ (rhs : List String) (st : StrDict × Bool) (k : String),
      dLook st.1 k <+: dLook (followRhs fs nts lhs rhs st).1 k := by
  intro rhs
  induction rhs with
  | nil => intro st k; exact List.prefix_refl _
  | cons symbol rest ih =>
    intro st k
    simp only [followRhs]
    split
    · exact (occWalk_pre fs lhs symbol rest st.1 k).trans
        (ih ((occWalk fs lhs symbol rest st.1).1,
          st.2 || (occWalk fs lhs symbol rest st.1).2) k)
    · exact ih st k


/-- The rhs walk's change flag is monotone. -/
theorem followRhs_flag_mono (fs : StrDict) (nts : StrSet) (lhs : String) :
    ∀ (rhs : List String) (st : StrDict × Bool), st.2 = true →
      (followRhs fs nts lhs rhs st).2 = true := by
  intro rhs
  induction rhs with
  | nil => intro st h; exact h
  | cons symbol rest ih =>
    intro st h
    simp only [followRhs]
    split
    · exact ih _ (by simp [h])
    · exact ih st h

/-- After the rhs walk, every trailer piece of every nonterminal occurrence's
suffix is in that occurrence's FOLLOW entry. -/
theorem followRhs_trail (fs : StrDict) (nts : StrSet) (lhs : String) :
    ∀ (rhs : List String) (st : StrDict × Bool) (i : Nat) (B : String),
      rhs.get? i = some B → B ∈ nts →
      ∀ t ∈ trailFirst fs (rhs.drop (i+1)),
        t ∈ dLook (followRhs fs nts lhs rhs st).1 B := by
  intro rhs
  induction rhs with
  | nil => intro st i B hB; simp at hB
  | cons symbol rest ih =>
    intro st i B hB hnts t ht
    cases i with
    | zero =>
      simp only [List.get?_cons_zero, Option.some.injEq] at hB
      subst hB
      simp only [List.drop_succ_cons, List.drop_zero] at ht
      simp only [followRhs, if_pos hnts]
      exact (followRhs_pre fs nts lhs rest _ symbol).subset
        (occWalk_trail fs lhs symbol rest st.1 t ht)
    | succ j =>
      simp only [List.get?_cons_succ] at hB
      simp only [List.drop_succ_cons] at ht
      simp only [followRhs]
      split
      · exact ih _ j B hB hnts t ht
      · exact ih st j B hB hnts t ht

/-- An unflagged occurrence walk whose trailer pieces are already recorded is
a no-op, and if it reached the `for ... else` branch the occurrence's FOLLOW
entry already contains `follow[lhs]`. -/
theorem occWalk_stable (fs : StrDict) (lhs sym : String) :
    ∀ (rest : List String) (d : StrDict),
      (∀ t ∈ trailFirst fs rest, t ∈ dLook d sym) →
      (occWalk fs lhs sym rest d).2 = false →
      (∀ k, dLook (occWalk fs lhs sym rest d).1 k = dLook d k) ∧
      (allEps fs rest = true → ∀ t ∈ dLook d lhs, t ∈ dLook d sym) := by
  intro rest
  induction rest with
  | nil =>
    intro d _ h
    simp only [occWalk, decide_eq_false_iff_not, Nat.not_lt, dGet_fst, dLook_dGet] at h
    simp only [occWalk, dGet_fst, dLook_dGet]
    have hself : dLook (dUpd (dGet (dGet d sym).2 lhs).2 sym (dLook d lhs)) sym =
        sUnion (dLook d sym) (dLook d lhs) := by
      rw [dLook_dUpd_self, dLook_dGet, dLook_dGet]
    have hlen : (sUnion (dLook d sym) (dLook d lhs)).length ≤ (dLook d sym).length := by
      rw [← hself]; exact h
    have heq : sUnion (dLook d sym) (dLook d lhs) = dLook d sym :=
      sUnion_eq_of_length _ _
        (Nat.le_antisymm hlen (sUnion_length_ge _ _))
    constructor
    · intro k
      by_cases hk : k = sym
      · subst hk; rw [hself, heq]
      · rw [dLook_dUpd_other _ _ _ hk, dLook_dGet, dLook_dGet]
    · intro _ t ht
      rw [← heq, sUnion_mem]
      exact Or.inr ht
  | cons next rest2 ih =>
    intro d hTA h
    have htr1 : ∀ t ∈ (followTrailer fs next).1, t ∈ dLook d sym := by
      intro t ht
      exact hTA t (by simp only [trailFirst, List.mem_append]; exact Or.inl ht)
    have heq : ∀ k,
        dLook (dUpd (dGet d sym).2 sym (followTrailer fs next).1) k = dLook d k := by
      intro k
      by_cases hk : k = sym
      · subst hk
        rw [dLook_dUpd_self, dLook_dGet]
        exact sUnion_eq_self_of_sub _ _ htr1
      · rw [dLook_dUpd_other _ _ _ hk, dLook_dGet]
    simp only [occWalk] at h ⊢
    split <;> rename_i hc
    · rw [if_pos hc] at h
      have hTA2 : ∀ t ∈ trailFirst fs rest2,
          t ∈ dLook (dUpd (dGet d sym).2 sym (followTrailer fs next).1) sym := by
        intro t ht
        rw [heq sym]
        exact hTA t (by
          simp only [trailFirst, List.mem_append, if_pos hc]
          exact Or.inr ht)
      obtain ⟨ihv, ihe⟩ := ih _ hTA2 h
      constructor
      · intro k; rw [ihv k, heq k]
      · intro hAE t ht
        rw [← heq sym]
        refine ihe ?_ t (by rw [heq lhs]; exact ht)
        simp only [allEps, hc, Bool.true_and] at hAE
        exact hAE
    · constructor
      · intro k
        dsimp only
        exact heq k
      · intro hAE
        simp only [allEps] at hAE
        rw [Bool.and_eq_true] at hAE
        exact absurd hAE.1 hc

/-- If the rhs walk reports no change, the incoming flag was false. -/
theorem followRhs_flag_false (fs : StrDict) (nts : StrSet) (lhs : String)
    (rhs : List String) (st : StrDict × Bool)
    (h : (followRhs fs nts lhs rhs st).2 = false) : st.2 = false := by
  cases hst : st.2 with
  | false => rfl
  | true => rw [followRhs_flag_mono fs nts lhs rhs st hst] at h; exact absurd h (by simp)

/-- An unflagged rhs walk whose occurrences' trailer pieces are already
recorded is a no-op, and every occurrence that reaches the `for ... else`
branch already satisfies FOLLOW(lhs) ⊆ FOLLOW(occurrence). -/
theorem followRhs_false (fs : StrDict) (nts : StrSet) (lhs : String) :
    ∀ (rhs : List String) (st : StrDict × Bool),
      (followRhs fs nts lhs rhs st).2 = false →
      (∀ i B, rhs.get? i = some B → B ∈ nts →
        ∀ t ∈ trailFirst fs (rhs.drop (i+1)), t ∈ dLook st.1 B) →
      (∀ k, dLook (followRhs fs nts lhs rhs st).1 k = dLook st.1 k) ∧
      (∀ i B, rhs.get? i = some B → B ∈ nts → allEps fs (rhs.drop (i+1)) = true →
        ∀ t ∈ dLook st.1 lhs, t ∈ dLook st.1 B) := by
  intro rhs
  induction rhs with
  | nil =>
    intro st _ _
    exact ⟨fun k => rfl, fun i B hB => by simp at hB⟩
  | cons symbol rest ih =>
    intro st h hTA
    by_cases hnts : symbol ∈ nts
    · simp only [followRhs, if_pos hnts] at h ⊢
      have hflag : (occWalk fs lhs symbol rest st.1).2 = false := by
        have := followRhs_flag_false fs nts lhs rest _ h
        simp only [Bool.or_eq_false_iff] at this
        exact this.2
      have hTA0 : ∀ t ∈ trailFirst fs rest, t ∈ dLook st.1 symbol := by
        intro t ht
        exact hTA 0 symbol rfl hnts t (by simpa using ht)
      obtain ⟨hov, hoe⟩ := occWalk_stable fs lhs symbol rest st.1 hTA0 hflag
      have hTA' : ∀ i B, rest.get? i = some B → B ∈ nts →
          ∀ t ∈ trailFirst fs (rest.drop (i+1)),
            t ∈ dLook (occWalk fs lhs symbol rest st.1).1 B := by
        intro i B hB hBn t ht
        rw [hov B]
        exact hTA (i+1) B hB hBn t (by simpa using ht)
      obtain ⟨ihv, ihe⟩ := ih ((occWalk fs lhs symbol rest st.1).1,
        st.2 || (occWalk fs lhs symbol rest st.1).2) h hTA'
      refine ⟨fun k => by rw [ihv k]; exact hov k, ?_⟩
      intro i B hB hBn hAE t ht
      cases i with
      | zero =>
        simp only [List.get?_cons_zero, Option.some.injEq] at hB
        subst hB
        exact hoe (by simpa using hAE) t ht
      | succ j =>
        simp only [List.get?_cons_succ] at hB
        simp only [List.drop_succ_cons] at hAE
        have := ihe j B hB hBn hAE t (by simp only [hov lhs]; exact ht)
        rw [hov B] at this
        exact this
    · simp only [followRhs, if_neg hnts] at h ⊢
      have hTA' : ∀ i B, rest.get? i = some B → B ∈ nts →
          ∀ t ∈ trailFirst fs (rest.drop (i+1)), t ∈ dLook st.1 B := by
        intro i B hB hBn t ht
        exact hTA (i+1) B hB hBn t (by simpa using ht)
      obtain ⟨ihv, ihe⟩ := ih st h hTA'
      refine ⟨ihv, ?_⟩
      intro i B hB hBn hAE t ht
      cases i with
      | zero =>
        simp only [List.get?_cons_zero, Option.some.injEq] at hB
        subst hB
        exact absurd hBn hnts
      | succ j =>
        simp only [List.get?_cons_succ] at hB
        simp only [List.drop_succ_cons] at hAE
        exact ihe j B hB hBn hAE t ht

theorem occWalk_total_ge (fs : StrDict) (lhs sym : String) (rest : List String)
    (d : StrDict) : totalSize d ≤ totalSize (occWalk fs lhs sym rest d).1 := by
  have h1 := occWalk_total fs lhs sym rest d
  have h2 := (occWalk_pre fs lhs sym rest d sym).length_le
  omega

theorem occWalk_total_strict (fs : StrDict) (lhs sym : String) (rest : List String)
    (d : StrDict) (h : (occWalk fs lhs sym rest d).2 = true) :
    totalSize d < totalSize (occWalk fs lhs sym rest d).1 := by
  have h1 := occWalk_total fs lhs sym rest d
  have h2 := occWalk_flag_growth fs lhs sym rest d h
  omega

theorem followRhs_total_ge (fs : StrDict) (nts : StrSet) (lhs : String) :
    ∀ (rhs : List String) (st : StrDict × Bool),
      totalSize st.1 ≤ totalSize (followRhs fs nts lhs rhs st).1 := by
  intro rhs
  induction rhs with
  | nil => intro st; exact Nat.le_refl _
  | cons symbol rest ih =>
    intro st
    simp only [followRhs]
    split
    · calc totalSize st.1 ≤ totalSize (occWalk fs lhs symbol rest st.1).1 :=
            occWalk_total_ge fs lhs symbol rest st.1
        _ ≤ _ := ih ((occWalk fs lhs symbol rest st.1).1,
            st.2 || (occWalk fs lhs symbol rest st.1).2)
    · exact ih st

theorem followRhs_total_strict (fs : StrDict) (nts : StrSet) (lhs : String) :
    ∀ (rhs : List String) (d : StrDict),
      (followRhs fs nts lhs rhs (d, false)).2 = true →
      totalSize d < totalSize (followRhs fs nts lhs rhs (d, false)).1 := by
  intro rhs
  induction rhs with
  | nil => intro d h; exact absurd h (by simp [followRhs])
  | cons symbol rest ih =>
    intro d h
    simp only [followRhs] at h ⊢
    by_cases hnts : symbol ∈ nts
    · rw [if_pos hnts] at h ⊢
      simp only [Bool.false_or] at h ⊢
      cases hocc : (occWalk fs lhs symbol rest d).2 with
      | true =>
        calc totalSize d < totalSize (occWalk fs lhs symbol rest d).1 :=
              occWalk_total_strict fs lhs symbol rest d hocc
          _ ≤ _ := followRhs_total_ge fs nts lhs rest
              ((occWalk fs lhs symbol rest d).1, true)
      | false =>
        rw [hocc] at h
        calc totalSize d ≤ totalSize (occWalk fs lhs symbol rest d).1 :=
              occWalk_total_ge fs lhs symbol rest d
          _ < _ := ih (occWalk fs lhs symbol rest d).1 h
    · rw [if_neg hnts] at h ⊢
      exact ih d h

theorem followFold_flag_mono (fs : StrDict) (nts : StrSet) :
    ∀ (prods : List Production) (st : StrDict × Bool), st.2 = true →
      (prods.foldl (fun st p => followRhs fs nts p.1 p.2 st) st).2 = true := by
  intro prods
  induction prods with
  | nil => intro st h; exact h
  | cons p rest ih =>
    intro st h
    simp only [List.foldl_cons]
    exact ih _ (followRhs_flag_mono fs nts p.1 p.2 st h)

theorem followFold_flag_false (fs : StrDict) (nts : StrSet)
    (prods : List Production) (st : StrDict × Bool)
    (h : (prods.foldl (fun st p => followRhs fs nts p.1 p.2 st) st).2 = false) :
    st.2 = false := by
  cases hst : st.2 with
  | false => rfl
  | true => rw [followFold_flag_mono fs nts prods st hst] at h; exact absurd h (by simp)

theorem followFold_pre (fs : StrDict) (nts : StrSet) :
    ∀ (prods : List Production) (st : StrDict × Bool) (k : String),
      dLook st.1 k <+:
        dLook (prods.foldl (fun st p => followRhs fs nts p.1 p.2 st) st).1 k := by
  intro prods
  induction prods with
  | nil => intro st k; exact List.prefix_refl _
  | cons p rest ih =>
    intro st k
    simp only [List.foldl_cons]
    exact (followRhs_pre fs nts p.1 p.2 st k).trans (ih _ k)

theorem followFold_total_ge (fs : StrDict) (nts : StrSet) :
    ∀ (prods : List Production) (st : StrDict × Bool),
      totalSize st.1 ≤
        totalSize (prods.foldl (fun st p => followRhs fs nts p.1 p.2 st) st).1 := by
  intro prods
  induction prods with
  | nil => intro st; exact Nat.le_refl _
  | cons p rest ih =>
    intro st
    simp only [List.foldl_cons]
    exact (followRhs_total_ge fs nts p.1 p.2 st).trans (ih _)

theorem followFold_total_strict (fs : StrDict) (nts : StrSet) :
    ∀ (prods : List Production) (d : StrDict),
      (prods.foldl (fun st p => followRhs fs nts p.1 p.2 st) (d, false)).2 = true →
      totalSize d <
        totalSize (prods.foldl (fun st p => followRhs fs nts p.1 p.2 st) (d, false)).1 := by
  intro prods
  induction prods with
  | nil => intro d h; simp at h
  | cons p rest ih =>
    intro d h
    simp only [List.foldl_cons] at h ⊢
    rw [show followRhs fs nts p.1 p.2 (d, false) =
      ((followRhs fs nts p.1 p.2 (d, false)).1,
        (followRhs fs nts p.1 p.2 (d, false)).2) from rfl] at h ⊢
    cases hloc : (followRhs fs nts p.1 p.2 (d, false)).2 with
    | true =>
      calc totalSize d < totalSize (followRhs fs nts p.1 p.2 (d, false)).1 :=
            followRhs_total_strict fs nts p.1 p.2 d hloc
        _ ≤ _ := followFold_total_ge fs nts rest
            ((followRhs fs nts p.1 p.2 (d, false)).1, true)
    | false =>
      rw [hloc] at h
      calc totalSize d ≤ totalSize (followRhs fs nts p.1 p.2 (d, false)).1 :=
            followRhs_total_ge fs nts p.1 p.2 (d, false)
        _ < _ := ih _ h

/-- After a full pass every trailer piece of every nonterminal occurrence is
recorded in that occurrence's FOLLOW entry. -/
theorem followFold_trail (fs : StrDict) (nts : StrSet) :
    ∀ (prods : List Production) (st : StrDict × Bool) (p : Production), p ∈ prods →
      ∀ i B, p.2.get? i = some B → B ∈ nts →
      ∀ t ∈ trailFirst fs (p.2.drop (i+1)),
        t ∈ dLook (prods.foldl (fun st p => followRhs fs nts p.1 p.2 st) st).1 B := by
  intro prods
  induction prods with
  | nil => intro st p hp; simp at hp
  | cons q rest ih =>
    intro st p hp i B hB hBn t ht
    simp only [List.foldl_cons]
    rcases List.mem_cons.mp hp with hp2 | hp2
    · subst hp2
      exact (followFold_pre fs nts rest _ B).subset
        (followRhs_trail fs nts p.1 p.2 st i B hB hBn t ht)
    · exact ih _ p hp2 i B hB hBn t ht

/-- An unflagged full pass whose trailer pieces are already recorded is a
no-op and certifies the `for ... else` FOLLOW inclusions for every
nonterminal occurrence of every production. -/
theorem followPass_false_stable (fs : StrDict) (nts : StrSet) :
    ∀ (prods : List Production) (d : StrDict) (f : Bool),
      (prods.foldl (fun st p => followRhs fs nts p.1 p.2 st) (d, f)).2 = false →
      (∀ p ∈ prods, ∀ i B, p.2.get? i = some B → B ∈ nts →
        ∀ t ∈ trailFirst fs (p.2.drop (i+1)), t ∈ dLook d B) →
      f = false ∧
      (∀ k, dLook (prods.foldl
        (fun st p => followRhs fs nts p.1 p.2 st) (d, f)).1 k = dLook d k) ∧
      (∀ p ∈ prods, ∀ i B, p.2.get? i = some B → B ∈ nts →
        allEps fs (p.2.drop (i+1)) = true →
        ∀ t ∈ dLook d p.1, t ∈ dLook d B) := by
  intro prods
  induction prods with
  | nil =>
    intro d f h _
    exact ⟨h, fun k => rfl, fun p hp => by simp at hp⟩
  | cons p rest ih =>
    intro d f h hTA
    simp only [List.foldl_cons] at h ⊢
    rw [show followRhs fs nts p.1 p.2 (d, f) =
      ((followRhs fs nts p.1 p.2 (d, f)).1,
        (followRhs fs nts p.1 p.2 (d, f)).2) from rfl] at h ⊢
    have hstep : (followRhs fs nts p.1 p.2 (d, f)).2 = false :=
      followFold_flag_false fs nts rest _ h
    have hf : f = false := followRhs_flag_false fs nts p.1 p.2 (d, f) hstep
    subst hf
    obtain ⟨hpv, hpe⟩ := followRhs_false fs nts p.1 p.2 (d, false) hstep
      (fun i B hB hBn t ht => hTA p (List.mem_cons_self _ _) i B hB hBn t ht)
    have hTA' : ∀ q ∈ rest, ∀ i B, q.2.get? i = some B → B ∈ nts →
        ∀ t ∈ trailFirst fs (q.2.drop (i+1)),
          t ∈ dLook (followRhs fs nts p.1 p.2 (d, false)).1 B := by
      intro q hq i B hB hBn t ht
      rw [hpv B]
      exact hTA q (List.mem_cons_of_mem _ hq) i B hB hBn t ht
    obtain ⟨_, ihv, ihe⟩ := ih (followRhs fs nts p.1 p.2 (d, false)).1
      (followRhs fs nts p.1 p.2 (d, false)).2 h hTA'
    refine ⟨rfl, fun k => by rw [ihv k]; exact hpv k, ?_⟩
    intro q hq i B hB hBn hAE t ht
    rcases List.mem_cons.mp hq with hq2 | hq2
    · subst hq2
      exact hpe i B hB hBn hAE t ht
    · have := ihe q hq2 i B hB hBn hAE t (by rw [hpv q.1]; exact ht)
      rw [hpv B] at this
      exact this

/-- All stored FIRST members, flattened; the universe the FOLLOW trailer
pieces are drawn from. -/
def fsValues (first_sets : StrDict) : List String :=
  (first_sets.map (fun p => p.2)).flatten

theorem dFind?_value_mem (d : StrDict) (k : String) (v : StrSet)
    (h : dFind? d k = some v) : ∀ x ∈ v, x ∈ fsValues d := by
  unfold dFind? at h
  cases hf : d.find? (fun p => p.1 = k) with
  | none => rw [hf] at h; exact absurd h (by simp)
  | some p =>
    rw [hf] at h
    have hv : p.2 = v := by simpa using h
    have hp := List.mem_of_find?_eq_some hf
    intro x hx
    rw [← hv] at hx
    exact List.mem_flatten.mpr ⟨p.2, List.mem_map.mpr ⟨p, hp, rfl⟩, hx⟩

theorem followTrailer_sub (g : Grammar) (fs : StrDict) (next : String)
    (hnext : next ∈ univList g) :
    ∀ x ∈ (followTrailer fs next).1, x ∈ "$" :: (univList g ++ fsValues fs) := by
  intro x hx
  unfold followTrailer at hx
  cases hfind : dFind? fs next with
  | some f =>
    rw [hfind] at hx
    simp only [List.mem_filter] at hx
    exact List.mem_cons_of_mem _ (List.mem_append.mpr
      (Or.inr (dFind?_value_mem fs next f hfind x hx.1)))
  | none =>
    rw [hfind] at hx
    simp only [List.mem_singleton] at hx
    exact hx ▸ List.mem_cons_of_mem _ (List.mem_append.mpr (Or.inl hnext))

theorem ValInv_dGet (VU : List String) (d : StrDict) (j : String)
    (hd : ValInv VU d) : ValInv VU (dGet d j).2 := by
  intro k
  rw [dLook_dGet]
  exact hd k

/-- Execution invariant for the FOLLOW dict: duplicate-free keys drawn from
the start symbol and the production left sides, duplicate-free values drawn
from $, the grammar symbols and the stored FIRST members. -/
def FolInv (g : Grammar) (fs : StrDict) (start : String) (d : StrDict) : Prop :=
  (dKeys d).Nodup ∧ ValInv ("$" :: (univList g ++ fsValues fs)) d ∧
    ∀ k ∈ dKeys d, k ∈ start :: lhsSet g

theorem FolInv_dGet (g : Grammar) (fs : StrDict) (start : String) (d : StrDict)
    (j : String) (hj : j ∈ start :: lhsSet g) (h : FolInv g fs start d) :
    FolInv g fs start (dGet d j).2 := by
  obtain ⟨hk, hv, hku⟩ := h
  refine ⟨dKeys_dGet_nodup d j hk, ValInv_dGet _ d j hv, ?_⟩
  intro k hkd
  rcases dKeys_dGet d j k hkd with h2 | h2
  · exact hku k h2
  · exact h2 ▸ hj

theorem FolInv_dUpd (g : Grammar) (fs : StrDict) (start : String) (d : StrDict)
    (j : String) (xs : List String) (hj : j ∈ start :: lhsSet g)
    (hxs : ∀ x ∈ xs, x ∈ "$" :: (univList g ++ fsValues fs)) (h : FolInv g fs start d) :
    FolInv g fs start (dUpd d j xs) := by
  obtain ⟨hk, hv, hku⟩ := h
  refine ⟨dKeys_dUpd_nodup d j xs hk, ValInv_dUpd _ d j xs hv hxs, ?_⟩
  intro k hkd
  rcases dKeys_dUpd_sup d j xs k hkd with h2 | h2
  · exact hku k h2
  · exact h2 ▸ hj

theorem FolInv_occWalk (g : Grammar) (fs : StrDict) (start lhs sym : String)
    (hlhs : lhs ∈ start :: lhsSet g) (hsym : sym ∈ start :: lhsSet g) :
    ∀ (rest : List String) (d : StrDict), (∀ s ∈ rest, s ∈ univList g) →
      FolInv g fs start d → FolInv g fs start (occWalk fs lhs sym rest d).1 := by
  intro rest
  induction rest with
  | nil =>
    intro d _ h
    simp only [occWalk]
    refine FolInv_dUpd g fs start _ sym _ hsym ?_
      (FolInv_dGet g fs start _ lhs hlhs (FolInv_dGet g fs start d sym hsym h))
    rw [dGet_fst, dLook_dGet]
    exact (h.2.1 lhs).2
  | cons next rest2 ih =>
    intro d hrest h
    simp only [occWalk]
    have hstep : FolInv g fs start (dUpd (dGet d sym).2 sym (followTrailer fs next).1) :=
      FolInv_dUpd g fs start _ sym _ hsym
        (followTrailer_sub g fs next (hrest next (List.mem_cons_self _ _)))
        (FolInv_dGet g fs start d sym hsym h)
    split
    · exact ih _ (fun s hs => hrest s (List.mem_cons_of_mem _ hs)) hstep
    · exact hstep

theorem FolInv_followRhs (g : Grammar) (fs : StrDict) (start lhs : String)
    (nts : StrSet) (hnts : ∀ k ∈ nts, k ∈ lhsSet g) (hlhs : lhs ∈ start :: lhsSet g) :
    ∀ (rhs : List String) (st : StrDict × Bool), (∀ s ∈ rhs, s ∈ univList g) →
      FolInv g fs start st.1 → FolInv g fs start (followRhs fs nts lhs rhs st).1 := by
  intro rhs
  induction rhs with
  | nil => intro st _ h; exact h
  | cons symbol rest ih =>
    intro st hrhs h
    simp only [followRhs]
    split <;> rename_i hc
    · exact ih _ (fun s hs => hrhs s (List.mem_cons_of_mem _ hs))
        (FolInv_occWalk g fs start lhs symbol hlhs
          (List.mem_cons_of_mem _ (hnts symbol hc))
          rest st.1 (fun s hs => hrhs s (List.mem_cons_of_mem _ hs)) h)
    · exact ih st (fun s hs => hrhs s (List.mem_cons_of_mem _ hs)) h

theorem FolInv_followFold (g : Grammar) (fs : StrDict) (start : String)
    (nts : StrSet) (hnts : ∀ k ∈ nts, k ∈ lhsSet g) :
    ∀ (prods : List Production), (∀ p ∈ prods, p ∈ g) →
      ∀ (st : StrDict × Bool), FolInv g fs start st.1 →
      FolInv g fs start
        (prods.foldl (fun st p => followRhs fs nts p.1 p.2 st) st).1 := by
  intro prods
  induction prods with
  | nil => intro _ st h; exact h
  | cons p rest ih =>
    intro hmem st h
    simp only [List.foldl_cons]
    refine ih (fun q hq => hmem q (List.mem_cons_of_mem _ hq)) _ ?_
    refine FolInv_followRhs g fs start p.1 nts hnts ?_ p.2 st ?_ h
    · exact List.mem_cons_of_mem _ (List.mem_map.mpr
        ⟨p, hmem p (List.mem_cons_self _ _), rfl⟩)
    · intro s hs
      exact univList_mem_rhs g p (hmem p (List.mem_cons_self _ _)) s hs

theorem fsValues_length (fs : StrDict) :
    (fsValues fs).length = fs.foldl (fun n p => n + p.2.length) 0 := by
  suffices h : ∀ (l : StrDict) (n : Nat),
      l.foldl (fun n p => n + p.2.length) n = n + (fsValues l).length by
    rw [h fs 0]; omega
  intro l
  induction l with
  | nil => intro n; simp [fsValues]
  | cons p rest ih =>
    intro n
    simp only [List.foldl_cons, ih, fsValues, List.map_cons, List.flatten]
    simp [List.length_append]
    omega

theorem FolInv_totalSize_le (g : Grammar) (fs : StrDict) (start : String)
    (d : StrDict) (h : FolInv g fs start d) :
    totalSize d ≤ (g.length + 1) * (symCount g + (fsValues fs).length + 1) := by
  obtain ⟨hk, hv, hku⟩ := h
  have hentry : ∀ m ∈ d.map (fun p => p.2.length),
      m ≤ symCount g + (fsValues fs).length + 1 := by
    intro m hm
    obtain ⟨kv, hkv, rfl⟩ := List.mem_map.mp hm
    have hlook := dLook_entry d hk kv hkv
    have hval := hv kv.1
    rw [hlook] at hval
    calc kv.2.length ≤ ("$" :: (univList g ++ fsValues fs)).length :=
          nodup_subset_length kv.2 _ hval.1 hval.2
      _ = symCount g + (fsValues fs).length + 1 := by
          simp [List.length_append, univList_length]
  have hsum : totalSize d ≤
      (d.map (fun p => p.2.length)).length * (symCount g + (fsValues fs).length + 1) := by
    unfold totalSize
    exact List.sum_le_card_nsmul _ _ hentry
  have hlen : d.length ≤ g.length + 1 := by
    have h2 := nodup_subset_length (dKeys d) (start :: lhsSet g) hk hku
    have h3 : (start :: lhsSet g).length = g.length + 1 := by simp [lhsSet]
    rw [h3] at h2
    simpa [dKeys] using h2
  calc totalSize d ≤
        (d.map (fun p => p.2.length)).length * (symCount g + (fsValues fs).length + 1) :=
        hsum
    _ = d.length * (symCount g + (fsValues fs).length + 1) := by rw [List.length_map]
    _ ≤ (g.length + 1) * (symCount g + (fsValues fs).length + 1) :=
        Nat.mul_le_mul_right _ hlen

/-- With enough fuel, the FOLLOW loop exits through a no-change pass over a
dict whose trailer pieces are all recorded. -/
theorem followLoop_exit (g : Grammar) (fs : StrDict) (start : String) (nts : StrSet)
    (hnts : ∀ k ∈ nts, k ∈ lhsSet g) (prods : List Production)
    (hprods : ∀ p ∈ prods, p ∈ g) :
    ∀ (fuel : Nat) (d : StrDict), FolInv g fs start d →
      (∀ p ∈ prods, ∀ i B, p.2.get? i = some B → B ∈ nts →
        ∀ t ∈ trailFirst fs (p.2.drop (i+1)), t ∈ dLook d B) →
      (g.length + 1) * (symCount g + (fsValues fs).length + 1) < totalSize d + fuel →
      ∃ dprev, followLoop fs nts prods fuel d = (followPass fs nts prods dprev).1 ∧
        (followPass fs nts prods dprev).2 = false ∧ FolInv g fs start dprev ∧
        (∀ p ∈ prods, ∀ i B, p.2.get? i = some B → B ∈ nts →
          ∀ t ∈ trailFirst fs (p.2.drop (i+1)), t ∈ dLook dprev B) ∧
        (∀ k, dLook d k <+: dLook dprev k) := by
  intro fuel
  induction fuel with
  | zero =>
    intro d hinv _ hbound
    exact absurd (FolInv_totalSize_le g fs start d hinv) (by omega)
  | succ n ih =>
    intro d hinv hTA hbound
    simp only [followLoop]
    cases hflag : (followPass fs nts prods d).2 with
    | false =>
      rw [if_neg (by simp [hflag])]
      exact ⟨d, rfl, hflag, hinv, hTA, fun k => List.prefix_refl _⟩
    | true =>
      rw [if_pos (by simp [hflag])]
      have hstrict : totalSize d < totalSize (followPass fs nts prods d).1 :=
        followFold_total_strict fs nts prods d hflag
      obtain ⟨dprev, h1, h2, h3, h4, h5⟩ := ih (followPass fs nts prods d).1
        (FolInv_followFold g fs start nts hnts prods hprods (d, false) hinv)
        (fun p hp i B hB hBn t ht => followFold_trail fs nts prods (d, false)
          p hp i B hB hBn t ht)
        (by omega)
      exact ⟨dprev, h1, h2, h3, h4, fun k =>
        (followFold_pre fs nts prods (d, false) k).trans (h5 k)⟩

theorem occWalk_nil_flag (fs : StrDict) (lhs sym : String) (d : StrDict) :
    (occWalk fs lhs sym [] d).2 =
      decide ((sUnion (dLook d sym) (dLook d lhs)).length > (dLook d sym).length) := by
  simp only [occWalk, dLook_dUpd_self, dLook_dGet, dGet_fst]

/-- From the seed `{start: {$}}`, a pass whose first production is
`start -> X` with `X` a nonterminal other than `start` always reports a
change: FOLLOW(X) grows from ∅ to {$}. -/
theorem followPass_seed_true (fs : StrDict) (nts : StrSet) (start X : String)
    (l : List Production) (hX : X ∈ nts) (hne : X ≠ start) :
    (followPass fs nts ((start, [X]) :: l) (dUpd [] start ["$"])).2 = true := by
  unfold followPass
  simp only [List.foldl_cons]
  refine followFold_flag_mono fs nts l _ ?_
  simp only [followRhs, if_pos hX, Bool.false_or]
  rw [occWalk_nil_flag]
  have h1 : dLook (dUpd [] start ["$"]) X = [] := by
    rw [dLook_dUpd_other _ _ _ hne]
    rfl
  have h2 : dLook (dUpd [] start ["$"]) start = ["$"] := by
    rw [dLook_dUpd_self]
    rfl
  rw [h1, h2]
  rfl

theorem addGroup_head_shape (start X : String) (extra : List (List String))
    (others : List (String × List (List String))) (lhs : String) (rhs : List String) :
    ∃ extra2 others2, addGroup ((start, [X] :: extra) :: others) lhs rhs =
      (start, [X] :: extra2) :: others2 := by
  unfold addGroup
  by_cases h : start = lhs
  · rw [if_pos h]
    exact ⟨extra ++ [rhs], others, by simp⟩
  · rw [if_neg h]
    exact ⟨extra, addGroup others lhs rhs, rfl⟩

theorem groupFold_head (start X : String) :
    ∀ (l : Grammar) (extra : List (List String))
      (others : List (String × List (List String))),
      ∃ extra2 others2,
        l.foldl (fun ps p => addGroup ps p.1 p.2) ((start, [X] :: extra) :: others) =
          (start, [X] :: extra2) :: others2 := by
  intro l
  induction l with
  | nil => intro extra others; exact ⟨extra, others, rfl⟩
  | cons p rest ih =>
    intro extra others
    simp only [List.foldl_cons]
    obtain ⟨e2, o2, he⟩ := addGroup_head_shape start X extra others p.1 p.2
    rw [he]
    exact ih e2 o2

/-- When the grammar's first production is `start -> X`, the production scan
order begins with it. -/
theorem prodOrder_head (start X : String) (rest0 : Grammar) :
    ∃ l, prodOrder ((start, [X]) :: rest0) = (start, [X]) :: l := by
  unfold prodOrder groupByLhs
  simp only [List.foldl_cons]
  have h0 : addGroup [] start [X] = [(start, [[X]])] := rfl
  rw [h0]
  obtain ⟨e2, o2, he⟩ := groupFold_head start X rest0 [] []
  rw [he]
  exact ⟨e2.map (fun r => (start, r)) ++
    ((o2.map (fun p => p.2.map (fun r => (p.1, r)))).flatten), by simp⟩

theorem first_of_keys_fine (ts : StrSet) (d : StrDict) (sym k : String)
    (h : k ∈ dKeys (first_of ts d sym).2) :
    k ∈ dKeys d ∨ (k = sym ∧ sym ∉ ts) := by
  unfold first_of at h
  split at h
  · exact Or.inl h
  · rcases dKeys_dGet d sym k h with h2 | h2
    · exact Or.inl h2
    · rename_i hts
      exact Or.inr ⟨h2, hts⟩

theorem firstWalk_keys_fine (ts : StrSet) (lhs : String) :
    ∀ (rest : List String) (d : StrDict) (k : String),
      k ∈ dKeys (firstWalk ts lhs rest d) →
      k ∈ dKeys d ∨ k = lhs ∨ (k ∈ rest ∧ k ∉ ts) := by
  intro rest
  induction rest with
  | nil =>
    intro d k hk
    simp only [firstWalk] at hk
    rcases dKeys_dUpd_sup d lhs ["ε"] k hk with h | h
    · exact Or.inl h
    · exact Or.inr (Or.inl h)
  | cons sym rest2 ih =>
    intro d k hk
    simp only [firstWalk] at hk
    have hstep : k ∈ dKeys (dUpd (first_of ts d sym).2 lhs
        ((first_of ts d sym).1.filter (fun x => x ≠ "ε"))) →
        k ∈ dKeys d ∨ k = lhs ∨ (k ∈ sym :: rest2 ∧ k ∉ ts) := by
      intro h2
      rcases dKeys_dUpd_sup _ lhs _ k h2 with h3 | h3
      · rcases first_of_keys_fine ts d sym k h3 with h4 | h4
        · exact Or.inl h4
        · exact Or.inr (Or.inr ⟨h4.1 ▸ List.mem_cons_self _ _, h4.1 ▸ h4.2⟩)
      · exact Or.inr (Or.inl h3)
    split at hk
    · rcases ih _ k hk with h2 | h2 | h2
      · exact hstep h2
      · exact Or.inr (Or.inl h2)
      · exact Or.inr (Or.inr ⟨List.mem_cons_of_mem _ h2.1, h2.2⟩)
    · exact hstep hk

theorem firstProd_keys_fine (ts : StrSet) (p : Production) (d : StrDict) (f : Bool)
    (k : String) (h : k ∈ dKeys (firstProd ts (d, f) p).1) :
    k ∈ dKeys d ∨ k = p.1 ∨ (k ∈ p.2 ∧ k ∉ ts) := by
  unfold firstProd at h
  simp only at h
  rcases firstWalk_keys_fine ts p.1 p.2 _ k h with h2 | h2 | h2
  · rcases dKeys_dGet d p.1 k h2 with h3 | h3
    · exact Or.inl h3
    · exact Or.inr (Or.inl h3)
  · exact Or.inr (Or.inl h2)
  · exact Or.inr (Or.inr h2)

theorem firstFold_keys_fine (ts : StrSet) :
    ∀ (prods : List Production) (st : StrDict × Bool) (k : String),
      k ∈ dKeys (prods.foldl (firstProd ts) st).1 →
      k ∈ dKeys st.1 ∨ ∃ p ∈ prods, k = p.1 ∨ (k ∈ p.2 ∧ k ∉ ts) := by
  intro prods
  induction prods with
  | nil => intro st k h; exact Or.inl h
  | cons p rest ih =>
    intro st k h
    simp only [List.foldl_cons] at h
    rcases ih _ k h with h2 | h2
    · rcases firstProd_keys_fine ts p st.1 st.2 k h2 with h3 | h3
      · exact Or.inl h3
      · exact Or.inr ⟨p, List.mem_cons_self _ _, h3⟩
    · obtain ⟨q, hq, h3⟩ := h2
      exact Or.inr ⟨q, List.mem_cons_of_mem _ hq, h3⟩

theorem firstLoop_keys_fine (ts : StrSet) (prods : List Production) :
    ∀ (fuel : Nat) (d : StrDict) (k : String),
      k ∈ dKeys (firstLoop ts prods fuel d) →
      k ∈ dKeys d ∨ ∃ p ∈ prods, k = p.1 ∨ (k ∈ p.2 ∧ k ∉ ts) := by
  intro fuel
  induction fuel with
  | zero => intro d k h; exact Or.inl h
  | succ n ih =>
    intro d k h
    simp only [firstLoop] at h
    split at h
    · rcases ih _ k h with h2 | h2
      · exact firstFold_keys_fine ts prods (d, false) k h2
      · exact Or.inr h2
    · exact firstFold_keys_fine ts prods (d, false) k h

theorem occursInRhs_of_mem (x : String) : ∀ (g : Grammar) (p : Production),
    p ∈ g → x ∈ p.2 → occursInRhs x g = true := by
  intro g
  induction g with
  | nil => intro p hp; simp at hp
  | cons q rest ih =>
    intro p hp hx
    unfold occursInRhs
    rcases List.mem_cons.mp hp with h | h
    · rw [if_pos (h ▸ hx)]
    · split
      · rfl
      · exact ih p h hx

theorem scan_false_is_lhs (x : String) : ∀ (g : Grammar),
    occursInRhs x g = true → scanTerminal x g = false → x ∈ lhsSet g := by
  intro g
  induction g with
  | nil => intro h; simp [occursInRhs] at h
  | cons p rest ih =>
    intro hocc hscan
    unfold scanTerminal at hscan
    by_cases hl : p.1 = x
    · simp only [lhsSet, List.map_cons, List.mem_cons]
      exact Or.inl hl.symm
    · rw [if_neg hl] at hscan
      unfold occursInRhs at hocc
      split at hocc
      · rename_i hin
        rw [if_pos hin] at hscan
        exact absurd hscan (by simp)
      · rename_i hin
        rw [if_neg hin] at hscan
        simp only [lhsSet, List.map_cons, List.mem_cons]
        exact Or.inr (ih hocc hscan)

/-- Under the uppercase discipline, the FIRST dict only ever holds keys that
are production left sides. -/
theorem firstKeys_sub (g : Grammar)
    (H2 : ∀ p ∈ g, ∀ s ∈ p.2, pyIsUpper s = true → ∃ q ∈ g, q.1 = s) :
    ∀ k ∈ dKeys (compute_first_sets g), k ∈ lhsSet g := by
  intro k hk
  unfold compute_first_sets at hk
  rcases firstLoop_keys_fine _ (prodOrder g) (firstFuel g) [] k hk with h | h
  · exact absurd h (by simp [dKeys])
  · obtain ⟨p, hp, h2⟩ := h
    have hpg : p ∈ g := (prodOrder_mem g p).mp hp
    rcases h2 with h2 | ⟨h2, hts⟩
    · exact List.mem_map.mpr ⟨p, hpg, h2.symm⟩
    · cases hup : pyIsUpper k with
      | true =>
        obtain ⟨q, hq, hq1⟩ := H2 p hpg k h2 hup
        exact List.mem_map.mpr ⟨q, hq, hq1⟩
      | false =>
        have hocc : occursInRhs k g = true := occursInRhs_of_mem k g p hpg h2
        cases hscan : scanTerminal k g with
        | true =>
          exact absurd ((terminal_mem_iff g k).mpr ⟨hup, hscan⟩) hts
        | false =>
          exact scan_false_is_lhs k g hocc hscan

theorem dKeys_dGet_mono (d : StrDict) (j k : String) (h : k ∈ dKeys d) :
    k ∈ dKeys (dGet d j).2 := by
  unfold dGet
  cases hf : dFind? d j with
  | some v => exact h
  | none => simp only [dKeys, List.map_append, List.mem_append]; exact Or.inl h

theorem dKeys_dGet_self (d : StrDict) (j : String) : j ∈ dKeys (dGet d j).2 := by
  unfold dGet
  cases hf : dFind? d j with
  | some v =>
    cases hj : decide (j ∈ dKeys d) with
    | true => simpa using hj
    | false =>
      rw [dFind?_eq_none j d (by simpa using hj)] at hf
      exact absurd hf (by simp)
  | none => simp [dKeys]

theorem dKeys_dUpd_mono (j : String) (xs : List String) :
    ∀ (d : StrDict) (k : String), k ∈ dKeys d → k ∈ dKeys (dUpd d j xs) := by
  intro d k h
  by_cases hj : j ∈ dKeys d
  · rw [dKeys_dUpd_of_mem j xs d hj]; exact h
  · rw [dKeys_dUpd_of_not_mem j xs d hj]
    exact List.mem_append.mpr (Or.inl h)

theorem first_of_keys_mono (ts : StrSet) (d : StrDict) (sym k : String)
    (h : k ∈ dKeys d) : k ∈ dKeys (first_of ts d sym).2 := by
  unfold first_of
  split
  · exact h
  · exact dKeys_dGet_mono d sym k h

theorem firstWalk_keys_mono (ts : StrSet) (lhs : String) :
    ∀ (rest : List String) (d : StrDict) (k : String), k ∈ dKeys d →
      k ∈ dKeys (firstWalk ts lhs rest d) := by
  intro rest
  induction rest with
  | nil =>
    intro d k h
    simp only [firstWalk]
    exact dKeys_dUpd_mono lhs _ d k h
  | cons sym rest2 ih =>
    intro d k h
    simp only [firstWalk]
    split
    · exact ih _ k (dKeys_dUpd_mono lhs _ _ k (first_of_keys_mono ts d sym k h))
    · exact dKeys_dUpd_mono lhs _ _ k (first_of_keys_mono ts d sym k h)

theorem firstProd_keys_mono (ts : StrSet) (p : Production) (st : StrDict × Bool)
    (k : String) (h : k ∈ dKeys st.1) : k ∈ dKeys (firstProd ts st p).1 := by
  rw [show firstProd ts st p = firstProd ts (st.1, st.2) p from rfl]
  unfold firstProd
  simp only
  exact firstWalk_keys_mono ts p.1 p.2 _ k (dKeys_dGet_mono st.1 p.1 k h)

theorem firstProd_keys_self (ts : StrSet) (p : Production) (st : StrDict × Bool) :
    p.1 ∈ dKeys (firstProd ts st p).1 := by
  rw [show firstProd ts st p = firstProd ts (st.1, st.2) p from rfl]
  unfold firstProd
  simp only
  exact firstWalk_keys_mono ts p.1 p.2 _ p.1 (dKeys_dGet_self st.1 p.1)

theorem firstFold_keys_mono (ts : StrSet) :
    ∀ (prods : List Production) (st : StrDict × Bool) (k : String),
      k ∈ dKeys st.1 → k ∈ dKeys (prods.foldl (firstProd ts) st).1 := by
  intro prods
  induction prods with
  | nil => intro st k h; exact h
  | cons p rest ih =>
    intro st k h
    simp only [List.foldl_cons]
    exact ih _ k (firstProd_keys_mono ts p st k h)

theorem firstFold_keys_lhs (ts : StrSet) :
    ∀ (prods : List Production) (st : StrDict × Bool) (p : Production), p ∈ prods →
      p.1 ∈ dKeys (prods.foldl (firstProd ts) st).1 := by
  intro prods
  induction prods with
  | nil => intro st p hp; simp at hp
  | cons q rest ih =>
    intro st p hp
    simp only [List.foldl_cons]
    rcases List.mem_cons.mp hp with h | h
    · subst h
      exact firstFold_keys_mono ts rest _ p.1 (firstProd_keys_self ts p st)
    · exact ih _ p h

theorem firstLoop_keys_mono (ts : StrSet) (prods : List Production) :
    ∀ (fuel : Nat) (d : StrDict) (k : String), k ∈ dKeys d →
      k ∈ dKeys (firstLoop ts prods fuel d) := by
  intro fuel
  induction fuel with
  | zero => intro d k h; exact h
  | succ n ih =>
    intro d k h
    simp only [firstLoop]
    split
    · exact ih _ k (firstFold_keys_mono ts prods (d, false) k h)
    · exact firstFold_keys_mono ts prods (d, false) k h

theorem firstLoop_succ (ts : StrSet) (prods : List Production) (n : Nat)
    (d : StrDict) :
    firstLoop ts prods (n+1) d =
      if (firstPass ts prods d).2 then firstLoop ts prods n (firstPass ts prods d).1
      else (firstPass ts prods d).1 := rfl

/-- Every production left side has an entry in the computed FIRST dict. -/
theorem firstKeys_lhs (g : Grammar) :
    ∀ p ∈ g, p.1 ∈ dKeys (compute_first_sets g) := by
  intro p hp
  unfold compute_first_sets
  rw [show firstFuel g = (symCount g + 2) * (symCount g + 2) + 1 + 1 from by
    unfold firstFuel; omega]
  rw [firstLoop_succ]
  have hmem : p ∈ prodOrder g := (prodOrder_mem g p).mpr hp
  split
  · exact firstLoop_keys_mono _ (prodOrder g) _ _ p.1
      (firstFold_keys_lhs _ (prodOrder g) ([], false) p hmem)
  · exact firstFold_keys_lhs _ (prodOrder g) ([], false) p hmem

/-- Modelled from the spec (§4.2/§4.3): FIRST of one grammar symbol relative
to given FIRST sets -- a nonterminal (a production left side) contributes its
recorded set, a terminal contributes the singleton of itself. -/
def specFirstSym (g : Grammar) (first_sets : StrDict) (s : String) : List String :=
  if s ∈ lhsSet g then dLook first_sets s else [s]

/-- Modelled from the spec (§4.2/§4.3): FIRST of a symbol string β -- the
non-ε members of each symbol's FIRST while the prefix stays nullable, with ε
present iff every symbol of β has ε in its FIRST (in particular FIRST of the
empty string is {ε}). -/
def specFirstStr (g : Grammar) (first_sets : StrDict) : List String → List String
  | [] => ["ε"]
  | s :: rest =>
    (specFirstSym g first_sets s).filter (fun x => x ≠ "ε") ++
      (if "ε" ∈ specFirstSym g first_sets s then specFirstStr g first_sets rest
       else [])

/-- Modelled from the spec (§4.3): an assignment `F` of FOLLOW sets is closed
under the FOLLOW rules -- FOLLOW(start) owns $, and for every production
`A -> α B β` and every nonterminal occurrence B, FIRST(β) minus ε is inside
FOLLOW(B), and FOLLOW(A) is inside FOLLOW(B) whenever β is empty or FIRST(β)
contains ε. -/
def specFollowClosed (g : Grammar) (first_sets : StrDict) (start : String)
    (F : String → List String) : Prop :=
  "$" ∈ F start ∧
  ∀ p ∈ g, ∀ (i : Nat) (B : String), p.2.get? i = some B → B ∈ lhsSet g →
    (∀ t ∈ specFirstStr g first_sets (p.2.drop (i+1)), t ≠ "ε" → t ∈ F B) ∧
    ("ε" ∈ specFirstStr g first_sets (p.2.drop (i+1)) →
      ∀ t ∈ F p.1, t ∈ F B)

/-- C7 counterexample: on `S' -> S, S -> A U, A -> ε` the returned FOLLOW
sets are not even closed under the spec's FOLLOW rules, let alone a least
fixed point: `U` is a terminal by the spec's classification (it is never a
left side), so the rules demand U ∈ FOLLOW(A), but the code looks `U` up in
`first_sets`, finds the (empty) entry the FIRST pass recorded for the
uppercase symbol, and adds nothing, returning FOLLOW(A) = ∅. -/
theorem c7_counterexample :
    ¬ specFollowClosed [("S'", ["S"]), ("S", ["A", "U"]), ("A", ["ε"])]
      (compute_first_sets [("S'", ["S"]), ("S", ["A", "U"]), ("A", ["ε"])]) "S'"
      (fun k => dLook (compute_follow_sets
        [("S'", ["S"]), ("S", ["A", "U"]), ("A", ["ε"])]
        (compute_first_sets [("S'", ["S"]), ("S", ["A", "U"]), ("A", ["ε"])])
        "S'") k) := by
  intro h
  have h2 := (h.2 ("S", ["A", "U"]) (by decide) 0 "A" rfl (by decide)).1 "U"
    (by decide) (by decide)
  revert h2
  decide

theorem filter_ne_eps_idem (l : List String) :
    (l.filter (fun x => x ≠ "ε")).filter (fun x => x ≠ "ε") =
      l.filter (fun x => x ≠ "ε") := by
  refine List.filter_eq_self.mpr ?_
  intro a ha
  exact (List.mem_filter.mp ha).2

theorem eps_not_mem_filter (l : List String) :
    "ε" ∉ l.filter (fun x => x ≠ "ε") := by
  intro h
  have := (List.mem_filter.mp h).2
  simp at this

/-- The trailer the code computes agrees with the spec's FIRST of one symbol
when keys of `first_sets` are exactly the nonterminals and the symbol is not
the ε marker. -/
theorem followTrailer_spec (g : Grammar) (fs : StrDict) (s : String)
    (hiff : s ∈ dKeys fs ↔ s ∈ lhsSet g) (hne : s ≠ "ε") :
    (followTrailer fs s).1 = (specFirstSym g fs s).filter (fun x => x ≠ "ε") ∧
    ((followTrailer fs s).2 = true ↔ "ε" ∈ specFirstSym g fs s) := by
  unfold followTrailer specFirstSym
  by_cases hlhs : s ∈ lhsSet g
  · have hkey : s ∈ dKeys fs := hiff.mpr hlhs
    cases hfind : dFind? fs s with
    | none => exact absurd ((dFind?_none_iff s fs).mp hfind) (by simp [hkey])
    | some v =>
      have hlook : dLook fs s = v := by rw [dLook, hfind]; rfl
      rw [if_pos hlhs, hlook]
      exact ⟨rfl, by simp⟩
  · have hkey : s ∉ dKeys fs := fun hk => hlhs (hiff.mp hk)
    rw [dFind?_eq_none s fs hkey, if_neg hlhs]
    constructor
    · simp only [List.filter]
      rw [show (decide ¬s = "ε") = true by simp [hne]]
    · simp only [List.mem_singleton]
      constructor
      · intro h; exact absurd h (by simp)
      · intro h; exact absurd h.symm hne

/-- Under the key agreement, the pieces the FOLLOW trailer walk unions are
exactly the spec's FIRST(β) minus ε. -/
theorem trailFirst_spec (g : Grammar) (fs : StrDict)
    (hiff : ∀ s, s ∈ dKeys fs ↔ s ∈ lhsSet g) :
    ∀ (β : List String), (∀ s ∈ β, s ≠ "ε") →
      trailFirst fs β = (specFirstStr g fs β).filter (fun x => x ≠ "ε") := by
  intro β
  induction β with
  | nil =>
    intro _
    simp [trailFirst, specFirstStr]
  | cons s rest ih =>
    intro hne
    obtain ⟨htr1, htr2⟩ := followTrailer_spec g fs s (hiff s)
      (hne s (List.mem_cons_self _ _))
    simp only [trailFirst, specFirstStr, List.filter_append, htr1,
      filter_ne_eps_idem]
    by_cases hc : "ε" ∈ specFirstSym g fs s
    · rw [if_pos (htr2.mpr hc), if_pos hc,
        ih (fun t ht => hne t (List.mem_cons_of_mem _ ht))]
    · rw [if_neg (fun h => hc (htr2.mp h)), if_neg hc]
      rfl

/-- Under the key agreement, the walk reaches the `for ... else` branch iff
the spec's FIRST(β) contains ε. -/
theorem allEps_spec (g : Grammar) (fs : StrDict)
    (hiff : ∀ s, s ∈ dKeys fs ↔ s ∈ lhsSet g) :
    ∀ (β : List String), (∀ s ∈ β, s ≠ "ε") →
      ((allEps fs β = true) ↔ "ε" ∈ specFirstStr g fs β) := by
  intro β
  induction β with
  | nil =>
    intro _
    simp [allEps, specFirstStr]
  | cons s rest ih =>
    intro hne
    obtain ⟨_, htr2⟩ := followTrailer_spec g fs s (hiff s)
      (hne s (List.mem_cons_self _ _))
    simp only [allEps, Bool.and_eq_true, specFirstStr, List.mem_append]
    constructor
    · intro ⟨h1, h2⟩
      exact Or.inr (by
        rw [if_pos (htr2.mp h1)]
        exact (ih (fun t ht => hne t (List.mem_cons_of_mem _ ht))).mp h2)
    · intro h
      rcases h with h | h
      · exact absurd h (eps_not_mem_filter _)
      · by_cases hc : "ε" ∈ specFirstSym g fs s
        · rw [if_pos hc] at h
          exact ⟨htr2.mpr hc,
            (ih (fun t ht => hne t (List.mem_cons_of_mem _ ht))).mpr h⟩
        · rw [if_neg hc] at h
          exact absurd h (by simp)

/-- Everything an occurrence walk stores is forced by the FOLLOW rules for
that occurrence. -/
theorem occWalk_sound (fs : StrDict) (lhs sym : String) (F2 : String → List String) :
    ∀ (rest : List String) (d : StrDict),
      (∀ k x, x ∈ dLook d k → x ∈ F2 k) →
      (∀ t ∈ trailFirst fs rest, t ∈ F2 sym) →
      (allEps fs rest = true → ∀ t ∈ F2 lhs, t ∈ F2 sym) →
      ∀ k x, x ∈ dLook (occWalk fs lhs sym rest d).1 k → x ∈ F2 k := by
  intro rest
  induction rest with
  | nil =>
    intro d hsub htr hae k x hx
    simp only [occWalk, dGet_fst, dLook_dGet] at hx
    by_cases hk : k = sym
    · subst hk
      rw [dLook_dUpd_self, dLook_dGet, dLook_dGet, sUnion_mem] at hx
      rcases hx with hx | hx
      · exact hsub k x hx
      · exact hae rfl x (hsub lhs x hx)
    · rw [dLook_dUpd_other _ _ _ hk, dLook_dGet, dLook_dGet] at hx
      exact hsub k x hx
  | cons next rest2 ih =>
    intro d hsub htr hae k x hx
    simp only [occWalk] at hx
    have hsub2 : ∀ k x,
        x ∈ dLook (dUpd (dGet d sym).2 sym (followTrailer fs next).1) k → x ∈ F2 k := by
      intro k2 x2 hx2
      by_cases hk2 : k2 = sym
      · subst hk2
        rw [dLook_dUpd_self, dLook_dGet, sUnion_mem] at hx2
        rcases hx2 with hx2 | hx2
        · exact hsub k2 x2 hx2
        · exact htr x2 (by
            simp only [trailFirst, List.mem_append]
            exact Or.inl hx2)
      · rw [dLook_dUpd_other _ _ _ hk2, dLook_dGet] at hx2
        exact hsub k2 x2 hx2
    split at hx
    · rename_i hc
      refine ih _ hsub2 ?_ ?_ k x hx
      · intro t ht
        exact htr t (by
          simp only [trailFirst, List.mem_append, if_pos hc]
          exact Or.inr ht)
      · intro hAE
        refine hae ?_
        simp only [allEps, hc, Bool.true_and]
        exact hAE
    · exact hsub2 k x hx

/-- Everything a rhs walk stores is forced by the FOLLOW rules for that
production. -/
theorem followRhs_sound (fs : StrDict) (nts : StrSet) (lhs : String)
    (F2 : String → List String) :
    ∀ (rhs : List String) (st : StrDict × Bool),
      (∀ k x, x ∈ dLook st.1 k → x ∈ F2 k) →
      (∀ (i : Nat) (B : String), rhs.get? i = some B → B ∈ nts →
        (∀ t ∈ trailFirst fs (rhs.drop (i+1)), t ∈ F2 B) ∧
        (allEps fs (rhs.drop (i+1)) = true → ∀ t ∈ F2 lhs, t ∈ F2 B)) →
      ∀ k x, x ∈ dLook (followRhs fs nts lhs rhs st).1 k → x ∈ F2 k := by
  intro rhs
  induction rhs with
  | nil => intro st hsub _ k x hx; exact hsub k x hx
  | cons symbol rest ih =>
    intro st hsub hcl k x hx
    simp only [followRhs] at hx
    have hcl' : ∀ (i : Nat) (B : String), rest.get? i = some B → B ∈ nts →
        (∀ t ∈ trailFirst fs (rest.drop (i+1)), t ∈ F2 B) ∧
        (allEps fs (rest.drop (i+1)) = true → ∀ t ∈ F2 lhs, t ∈ F2 B) := by
      intro i B hB hBn
      exact hcl (i+1) B (by simpa using hB) hBn
    split at hx
    · rename_i hnts
      refine ih _ ?_ hcl' k x hx
      intro k2 x2 hx2
      exact occWalk_sound fs lhs symbol F2 rest st.1 hsub
        (hcl 0 symbol rfl hnts).1 (hcl 0 symbol rfl hnts).2 k2 x2 hx2
    · exact ih st hsub hcl' k x hx

/-- Everything a full pass stores is forced by the FOLLOW rules. -/
theorem followFold_sound (fs : StrDict) (nts : StrSet) (F2 : String → List String) :
    ∀ (prods : List Production) (st : StrDict × Bool),
      (∀ k x, x ∈ dLook st.1 k → x ∈ F2 k) →
      (∀ p ∈ prods, ∀ (i : Nat) (B : String), p.2.get? i = some B → B ∈ nts →
        (∀ t ∈ trailFirst fs (p.2.drop (i+1)), t ∈ F2 B) ∧
        (allEps fs (p.2.drop (i+1)) = true → ∀ t ∈ F2 p.1, t ∈ F2 B)) →
      ∀ k x, x ∈ dLook
        (prods.foldl (fun st p => followRhs fs nts p.1 p.2 st) st).1 k → x ∈ F2 k := by
  intro prods
  induction prods with
  | nil => intro st hsub _ k x hx; exact hsub k x hx
  | cons p rest ih =>
    intro st hsub hcl k x hx
    simp only [List.foldl_cons] at hx
    refine ih _ ?_ (fun q hq => hcl q (List.mem_cons_of_mem _ hq)) k x hx
    intro k2 x2 hx2
    exact followRhs_sound fs nts p.1 F2 p.2 st hsub
      (hcl p (List.mem_cons_self _ _)) k2 x2 hx2

/-- Everything the FOLLOW loop stores is forced by the FOLLOW rules. -/
theorem followLoop_sound (fs : StrDict) (nts : StrSet) (F2 : String → List String)
    (prods : List Production)
    (hcl : ∀ p ∈ prods, ∀ (i : Nat) (B : String), p.2.get? i = some B → B ∈ nts →
      (∀ t ∈ trailFirst fs (p.2.drop (i+1)), t ∈ F2 B) ∧
      (allEps fs (p.2.drop (i+1)) = true → ∀ t ∈ F2 p.1, t ∈ F2 B)) :
    ∀ (fuel : Nat) (d : StrDict),
      (∀ k x, x ∈ dLook d k → x ∈ F2 k) →
      ∀ k x, x ∈ dLook (followLoop fs nts prods fuel d) k → x ∈ F2 k := by
  intro fuel
  induction fuel with
  | zero => intro d hsub k x hx; exact hsub k x hx
  | succ n ih =>
    intro d hsub k x hx
    simp only [followLoop] at hx
    split at hx
    · exact ih _ (fun k2 x2 hx2 =>
        followFold_sound fs nts F2 prods (d, false) hsub hcl k2 x2 hx2) k x hx
    · exact followFold_sound fs nts F2 prods (d, false) hsub hcl k x hx

theorem seed_sound (start : String) (k x : String)
    (h : x ∈ dLook (dUpd [] start ["$"]) k) : k = start ∧ x = "$" := by
  by_cases hk : k = start
  · subst hk
    rw [dLook_dUpd_self] at h
    refine ⟨rfl, ?_⟩
    have : dLook [] k = [] := rfl
    rw [this] at h
    simpa [sUnion, sInsert] using h
  · rw [dLook_dUpd_other _ _ _ hk] at h
    exact absurd h (by simp [dLook, dFind?])

theorem followLoop_succ (fs : StrDict) (nts : StrSet) (prods : List Production)
    (n : Nat) (d : StrDict) :
    followLoop fs nts prods (n+1) d =
      if (followPass fs nts prods d).2 then
        followLoop fs nts prods n (followPass fs nts prods d).1
      else (followPass fs nts prods d).1 := rfl

/-- Under the uppercase discipline, the computed FIRST dict's keys are
exactly the production left sides. -/
theorem fsKeys_iff (g : Grammar)
    (H2 : ∀ p ∈ g, ∀ s ∈ p.2, pyIsUpper s = true → ∃ q ∈ g, q.1 = s) :
    ∀ s, s ∈ dKeys (compute_first_sets g) ↔ s ∈ lhsSet g := by
  intro s
  constructor
  · exact fun h => firstKeys_sub g H2 s h
  · intro h
    obtain ⟨p, hp, hp1⟩ := List.mem_map.mp h
    exact hp1 ▸ firstKeys_lhs g p hp

theorem seed_look_self (start : String) :
    dLook (dUpd [] start ["$"]) start = ["$"] := by
  rw [dLook_dUpd_self]
  rfl

theorem seed_FolInv (g : Grammar) (fs : StrDict) (start : String) :
    FolInv g fs start (dUpd [] start ["$"]) := by
  refine FolInv_dUpd g fs start [] start ["$"] (List.mem_cons_self _ _) ?_ ?_
  · intro x hx
    simp only [List.mem_singleton] at hx
    exact hx ▸ List.mem_cons_self _ _
  · refine ⟨by simp [dKeys], ?_, by simp [dKeys]⟩
    intro k
    exact ⟨by simp [dLook, dFind?], by simp [dLook, dFind?]⟩

/-- Unfolding equation for one full pass. -/
theorem followPass_eq (fs : StrDict) (nts : StrSet) (prods : List Production)
    (d : StrDict) :
    followPass fs nts prods d =
      prods.foldl (fun st p => followRhs fs nts p.1 p.2 st) (d, false) := rfl

/-- C7, amended.  For an augmented grammar -- first production
`start -> X` with `X` a nonterminal other than `start`, every uppercase rhs
symbol a production left side, and no literal ε inside a rhs -- the dict
returned by `compute_follow_sets` on the grammar's own computed FIRST sets
is the least fixed point of the spec's FOLLOW rules: it is closed under
them, and it is contained in every closed assignment.  (Without these
hypotheses the claim is false, see the counterexample.) -/
theorem c7_follow_least_fixed_point (g : Grammar) (start X : String) (rest0 : Grammar)
    (Hshape : g = (start, [X]) :: rest0)
    (HXlhs : X ∈ lhsSet g) (HXne : X ≠ start)
    (H2 : ∀ p ∈ g, ∀ s ∈ p.2, pyIsUpper s = true → ∃ q ∈ g, q.1 = s)
    (H3 : ∀ p ∈ g, ∀ s ∈ p.2, s ≠ "ε") :
    specFollowClosed g (compute_first_sets g) start
      (dLook (compute_follow_sets g (compute_first_sets g) start)) ∧
    ∀ (F2 : String → List String),
      specFollowClosed g (compute_first_sets g) start F2 →
      ∀ k x, x ∈ dLook (compute_follow_sets g (compute_first_sets g) start) k →
        x ∈ F2 k := by
  have hiff := fsKeys_iff g H2
  have hnts : ∀ k, (k ∈ g.foldl (fun nts p => sInsert nts p.1) []) ↔ k ∈ lhsSet g := by
    intro k
    rw [ntsFold_mem]
    simp
  have hnts' : ∀ k ∈ g.foldl (fun nts p => sInsert nts p.1) [], k ∈ lhsSet g :=
    fun k hk => (hnts k).mp hk
  have hprods : ∀ p ∈ prodOrder g, p ∈ g := fun p hp => (prodOrder_mem g p).mp hp
  obtain ⟨l, hl0⟩ := prodOrder_head start X rest0
  have hl : prodOrder g = (start, [X]) :: l := by rw [Hshape]; exact hl0
  have hcf : compute_follow_sets g (compute_first_sets g) start =
      followLoop (compute_first_sets g) (g.foldl (fun nts p => sInsert nts p.1) [])
        (prodOrder g) (followFuel g (compute_first_sets g)) (dUpd [] start ["$"]) := rfl
  have hfuel : followFuel g (compute_first_sets g) =
      ((g.length + 2) * ((fsValues (compute_first_sets g)).length + symCount g + 3)
        + 1) + 1 := by
    unfold followFuel
    rw [fsValues_length]
  have hpass1 : (followPass (compute_first_sets g)
      (g.foldl (fun nts p => sInsert nts p.1) []) (prodOrder g)
      (dUpd [] start ["$"])).2 = true := by
    rw [hl]
    exact followPass_seed_true (compute_first_sets g) _ start X l
      ((hnts X).mpr HXlhs) HXne
  have hstep1 : compute_follow_sets g (compute_first_sets g) start =
      followLoop (compute_first_sets g) (g.foldl (fun nts p => sInsert nts p.1) [])
        (prodOrder g)
        ((g.length + 2) * ((fsValues (compute_first_sets g)).length + symCount g + 3)
          + 1)
        (followPass (compute_first_sets g)
          (g.foldl (fun nts p => sInsert nts p.1) []) (prodOrder g)
          (dUpd [] start ["$"])).1 := by
    rw [hcf, hfuel, followLoop_succ, if_pos hpass1]
  have hmul : (g.length + 1) * (symCount g + (fsValues (compute_first_sets g)).length + 1)
      ≤ (g.length + 2) * ((fsValues (compute_first_sets g)).length + symCount g + 3) :=
    Nat.mul_le_mul (by omega) (by omega)
  have hInvPass : FolInv g (compute_first_sets g) start
      (followPass (compute_first_sets g)
        (g.foldl (fun nts p => sInsert nts p.1) []) (prodOrder g)
        (dUpd [] start ["$"])).1 := by
    rw [followPass_eq]
    exact FolInv_followFold g (compute_first_sets g) start _ hnts' (prodOrder g) hprods
      (dUpd [] start ["$"], false) (seed_FolInv g (compute_first_sets g) start)
  have hTApass : ∀ p ∈ prodOrder g, ∀ (i : Nat) (B : String), p.2.get? i = some B →
      B ∈ g.foldl (fun nts p => sInsert nts p.1) [] →
      ∀ t ∈ trailFirst (compute_first_sets g) (p.2.drop (i+1)),
        t ∈ dLook (followPass (compute_first_sets g)
          (g.foldl (fun nts p => sInsert nts p.1) []) (prodOrder g)
          (dUpd [] start ["$"])).1 B := by
    rw [followPass_eq]
    intro p hp i B hB hBn t ht
    exact followFold_trail (compute_first_sets g) _ (prodOrder g)
      (dUpd [] start ["$"], false) p hp i B hB hBn t ht
  obtain ⟨dprev, hres, hflag, hInv, hTA, hpre⟩ :=
    followLoop_exit g (compute_first_sets g) start _ hnts' (prodOrder g) hprods
      ((g.length + 2) * ((fsValues (compute_first_sets g)).length + symCount g + 3) + 1)
      (followPass (compute_first_sets g)
        (g.foldl (fun nts p => sInsert nts p.1) []) (prodOrder g)
        (dUpd [] start ["$"])).1
      hInvPass hTApass (by omega)
  have hR : compute_follow_sets g (compute_first_sets g) start =
      (followPass (compute_first_sets g)
        (g.foldl (fun nts p => sInsert nts p.1) []) (prodOrder g) dprev).1 := by
    rw [hstep1, hres]
  rw [followPass_eq] at hflag
  obtain ⟨_, hvals, hstab⟩ := followPass_false_stable (compute_first_sets g)
    (g.foldl (fun nts p => sInsert nts p.1) []) (prodOrder g) dprev false hflag hTA
  have hlookR : ∀ k, dLook (compute_follow_sets g (compute_first_sets g) start) k =
      dLook dprev k := by
    intro k
    rw [hR, followPass_eq]
    exact hvals k
  constructor
  · constructor
    · rw [hlookR start]
      refine (hpre start).subset ?_
      rw [followPass_eq]
      refine (followFold_pre (compute_first_sets g) _ (prodOrder g)
        (dUpd [] start ["$"], false) start).subset ?_
      rw [seed_look_self]
      exact List.mem_singleton.mpr rfl
    · intro p hp i B hB hBlhs
      have hBnts : B ∈ g.foldl (fun nts p => sInsert nts p.1) [] := (hnts B).mpr hBlhs
      have hp2 : p ∈ prodOrder g := (prodOrder_mem g p).mpr hp
      have hεs : ∀ s ∈ p.2.drop (i+1), s ≠ "ε" :=
        fun s hs => H3 p hp s (List.mem_of_mem_drop hs)
      constructor
      · intro t ht htne
        rw [hlookR B]
        refine hTA p hp2 i B hB hBnts t ?_
        rw [trailFirst_spec g (compute_first_sets g) hiff _ hεs]
        exact List.mem_filter.mpr ⟨ht, by simp [htne]⟩
      · intro hε t ht
        rw [hlookR B]
        rw [hlookR p.1] at ht
        exact hstab p hp2 i B hB hBnts
          ((allEps_spec g (compute_first_sets g) hiff _ hεs).mpr hε) t ht
  · intro F2 hF2 k x hx
    rw [hcf] at hx
    refine followLoop_sound (compute_first_sets g) _ F2 (prodOrder g) ?_ _
      (dUpd [] start ["$"]) ?_ k x hx
    · intro p hp i B hB hBn
      have hpg : p ∈ g := (prodOrder_mem g p).mp hp
      have hBlhs : B ∈ lhsSet g := (hnts B).mp hBn
      have hεs : ∀ s ∈ p.2.drop (i+1), s ≠ "ε" :=
        fun s hs => H3 p hpg s (List.mem_of_mem_drop hs)
      obtain ⟨hc1, hc2⟩ := hF2.2 p hpg i B hB hBlhs
      constructor
      · intro t ht
        rw [trailFirst_spec g (compute_first_sets g) hiff _ hεs] at ht
        have ht2 := List.mem_filter.mp ht
        exact hc1 t ht2.1 (by simpa using ht2.2)
      · intro hAE
        exact hc2 ((allEps_spec g (compute_first_sets g) hiff _ hεs).mp hAE)
    · intro k2 x2 hx2
      obtain ⟨hk2, hx2e⟩ := seed_sound start k2 x2 hx2
      subst hk2
      exact hx2e ▸ hF2.1

/-- C7, witness: the augmented-grammar hypotheses hold for the grammar
`S' -> S`, `S -> a`, and the amended least-fixed-point theorem applies. -/
theorem c7_follow_least_fixed_point_witness :
    (([("S'", ["S"]), ("S", ["a"])] : Grammar) = ("S'", ["S"]) :: [("S", ["a"])]) ∧
    "S" ∈ lhsSet [("S'", ["S"]), ("S", ["a"])] ∧ "S" ≠ "S'" ∧
    (∀ p ∈ ([("S'", ["S"]), ("S", ["a"])] : Grammar), ∀ s ∈ p.2,
      pyIsUpper s = true → ∃ q ∈ ([("S'", ["S"]), ("S", ["a"])] : Grammar), q.1 = s) ∧
    (∀ p ∈ ([("S'", ["S"]), ("S", ["a"])] : Grammar), ∀ s ∈ p.2, s ≠ "ε") ∧
    (specFollowClosed [("S'", ["S"]), ("S", ["a"])]
        (compute_first_sets [("S'", ["S"]), ("S", ["a"])]) "S'"
        (dLook (compute_follow_sets [("S'", ["S"]), ("S", ["a"])]
          (compute_first_sets [("S'", ["S"]), ("S", ["a"])]) "S'")) ∧
      ∀ (F2 : String → List String),
        specFollowClosed [("S'", ["S"]), ("S", ["a"])]
          (compute_first_sets [("S'", ["S"]), ("S", ["a"])]) "S'" F2 →
        ∀ k x, x ∈ dLook (compute_follow_sets [("S'", ["S"]), ("S", ["a"])]
          (compute_first_sets [("S'", ["S"]), ("S", ["a"])]) "S'") k → x ∈ F2 k) :=
  ⟨rfl, by decide, by decide, by decide, by decide,
    c7_follow_least_fixed_point [("S'", ["S"]), ("S", ["a"])] "S'" "S" [("S", ["a"])]
      rfl (by decide) (by decide) (by decide) (by decide)⟩
